import Mathlib

/-!
# Adaptive scaling dispatcher: a shallow embedding of `adaptive-scaling.go`

The Go program is embedded as pure Lean functions over explicit state.

Modelling conventions
* Go `int` values are mathematical integers (`Int`); the program only handles
  small counts and costs, so two's-complement wrap-around is not modelled.
  Go's `%` truncates toward zero and is `Int.tmod`.
* Go `float64` has two readings.  `Predictor`, `Cluster.estimateLat` and
  `Controller` read it as exact rationals (`ℚ`), for the properties stated in
  exact arithmetic.  `PredictorF`, `Cluster.estimateLatF` and `ControllerF` read
  it with an arbitrary implementation of the `float64` operations, of which
  IEEE-754 binary64 (`ieee`) and the exact rationals (`exactOps`) are two; the
  lemmas `estimateLatF_exact`, `toF_Observe` and `toF_Step` show that the exact
  reading is the second one.
* A channel is its buffer together with a closed flag.  Sending on a closed
  channel and closing a closed channel are run-time panics, and so is an
  out-of-range slice index; a panic is an `Except.error`.
* A send on a full buffer blocks until the receiver has taken an entry; the
  model records the completed send.
* Mutexes serialise the operations; each operation is one atomic step.
* Clock readings are integers in nanoseconds.  `Controller.Step` reads the
  clock twice (`time.Since` and `time.Now`), so it takes two readings.
-/

namespace AdaptiveScaling

/-! ## Run-time panics and channels -/

/-- Run-time panics the program can raise. -/
inductive Fault where
  | indexOutOfRange
  | sendOnClosed
  | closeOfClosed
deriving DecidableEq, Repr

/-- Record `Job` of the source: identifier, duration (ns) and resource cost. -/
structure Job where
  ID : Int
  D : Int
  C : Int
deriving DecidableEq, Repr

/-- A `chan Job`: buffered entries (oldest first) and the closed flag. -/
structure Chan where
  buf : List Job
  closed : Bool
deriving DecidableEq, Repr

/-- Result of `make(chan Job, k)`: empty and open. -/
def Chan.make : Chan := ⟨[], false⟩

/-- Statement `ch <- j`. -/
def Chan.send (ch : Chan) (j : Job) : Except Fault Chan :=
  if ch.closed then .error .sendOnClosed else .ok { ch with buf := ch.buf ++ [j] }

/-- Statement `close(ch)`. -/
def Chan.close (ch : Chan) : Except Fault Chan :=
  if ch.closed then .error .closeOfClosed else .ok { ch with closed := true }

/-- One receive of `for j := range ch`: the oldest entry, if any. -/
def Chan.recv (ch : Chan) : Option (Job × Chan) :=
  match ch.buf with
  | [] => none
  | j :: rest => some (j, { ch with buf := rest })

/-! ## Nodes -/

/-- Record `Node` of the source (the mutex is implicit). -/
structure Node where
  ID : Int
  Cap : Int
  Used : Int
  Ch : Chan
deriving DecidableEq, Repr

/-- Function `NewNode(id, cap)`: `Used` is zero and the mailbox is fresh. -/
def NewNode (id cap : Int) : Node :=
  { ID := id, Cap := cap, Used := 0, Ch := Chan.make }

/-- The node goroutine of lines 22-25: receive the oldest mailbox entry and start
it (`Used += j.C`); nothing happens on an empty mailbox. -/
def Node.start (n : Node) : Option (Job × Node) :=
  match n.Ch.recv with
  | none => none
  | some (j, ch) => some (j, { n with Used := n.Used + j.C, Ch := ch })

/-- The node goroutine of lines 26-29: the running job `j` ends (`Used -= j.C`). -/
def Node.finish (n : Node) (j : Job) : Node :=
  { n with Used := n.Used - j.C }

/-- Free capacity `n.Cap - n.Used` read by the dispatcher. -/
def Node.avail (n : Node) : Int := n.Cap - n.Used

/-- Slice indexing `nodes[i]` with a Go `int` index. -/
def nodeAt (nodes : List Node) (i : Int) : Except Fault Node :=
  if i < 0 then .error .indexOutOfRange
  else
    match nodes[i.toNat]? with
    | some n => .ok n
    | none => .error .indexOutOfRange

/-! ## Predictor -/

/-- Record `Predictor` of the source, in exact arithmetic. -/
structure Predictor where
  alpha : ℚ
  ema : ℚ
  init : Bool

/-- Function `NewPredictor(a)`. -/
def NewPredictor (a : ℚ) : Predictor := { alpha := a, ema := 0, init := false }

/-- Method `Predictor.Observe(v)` in exact arithmetic; `PredictorF.Observe` is the
method with the `float64` operations of the source. -/
def Predictor.Observe (p : Predictor) (v : Int) : Predictor :=
  if !p.init then { p with ema := (v : ℚ), init := true }
  else { p with ema := p.alpha * (v : ℚ) + (1 - p.alpha) * p.ema }

/-- Method `Predictor.Forecast()`: the value read and the predictor after the call. -/
def Predictor.Forecast (p : Predictor) : ℚ × Predictor := (p.ema, p)

/-! ## Cluster -/

/-- Record `Cluster` of the source (the mutex is implicit). -/
structure Cluster where
  Nodes : List Node
  Q : Chan
  rr : Int
  min : Int
  max : Int
  cap : Int
deriving DecidableEq, Repr

/-- Function `NewCluster(initN, cap, minN, maxN)`: nodes `1 .. initN`. -/
def NewCluster (initN cap minN maxN : Int) : Cluster :=
  { Nodes := (List.range initN.toNat).map (fun (i : Nat) => NewNode ((i : Int) + 1) cap)
    Q := Chan.make
    rr := 0
    min := minN
    max := maxN
    cap := cap }

/-- Method `Cluster.addNode()`. -/
def Cluster.addNode (c : Cluster) : Cluster :=
  if (c.Nodes.length : Int) ≥ c.max then c
  else { c with Nodes := c.Nodes ++ [NewNode ((c.Nodes.length : Int) + 1) c.cap] }

/-- Method `Cluster.removeNode()`: the cluster afterwards and the detached node
(with its mailbox closed), if one was detached. -/
def Cluster.removeNode (c : Cluster) : Except Fault (Cluster × Option Node) :=
  if (c.Nodes.length : Int) ≤ c.min then .ok (c, none)
  else
    match nodeAt c.Nodes ((c.Nodes.length : Int) - 1) with
    | .error e => .error e
    | .ok n =>
      match n.Ch.close with
      | .error e => .error e
      | .ok ch =>
        .ok ({ c with Nodes := c.Nodes.take (c.Nodes.length - 1) }, some { n with Ch := ch })

/-- Index `(start + i) % len(c.Nodes)` visited at iteration `i` of the scan. -/
def scanIdx (nodes : List Node) (start : Int) (i : Nat) : Int :=
  Int.tmod (start + (i : Int)) (nodes.length : Int)

/-- The scan loop of the dispatcher, lines 94-101: `k` iterations remain, `i` is
the loop counter, `(best, bestAvail)` the running candidate. -/
def scanLoop (nodes : List Node) (start jC : Int) :
    Nat → Nat → Int → Int → Except Fault (Int × Int)
  | 0, _, best, bestAvail => .ok (best, bestAvail)
  | k + 1, i, best, bestAvail =>
    match nodeAt nodes (scanIdx nodes start i) with
    | .error e => .error e
    | .ok n =>
      if n.avail ≥ jC ∧ n.avail > bestAvail then
        scanLoop nodes start jC k (i + 1) (scanIdx nodes start i) n.avail
      else
        scanLoop nodes start jC k (i + 1) best bestAvail

/-- The whole scan for a non-empty node list: `start := rr % len`, then the loop
from `best := -1; bestAvail := -1`. -/
def scan (nodes : List Node) (rr jC : Int) : Except Fault (Int × Int) :=
  scanLoop nodes (Int.tmod rr (nodes.length : Int)) jC nodes.length 0 (-1) (-1)

/-- Body of the loop of `Cluster.dispatcher()` for a job `j` drawn from the queue,
lines 89-112.  The result is the cluster afterwards and the job handed to a
requeue goroutine (line 111), if the job was not assigned. -/
def Cluster.dispatchJob (c : Cluster) (j : Job) : Except Fault (Cluster × Option Job) :=
  if c.Nodes.length > 0 then
    match scan c.Nodes c.rr j.C with
    | .error e => .error e
    | .ok (best, _) =>
      if best ≥ 0 then
        match nodeAt c.Nodes best with
        | .error e => .error e
        | .ok n =>
          match n.Ch.send j with
          | .error e => .error e
          | .ok ch =>
            .ok ({ c with
                    Nodes := c.Nodes.set best.toNat { n with Ch := ch }
                    rr := Int.tmod (best + 1) (c.Nodes.length : Int) }, none)
      else .ok (c, some j)
  else .ok (c, some j)

/-- The requeue goroutine of line 111: `c.Q <- jj`. -/
def Cluster.requeueSend (c : Cluster) (jj : Job) : Except Fault Cluster :=
  match c.Q.send jj with
  | .error e => .error e
  | .ok q => .ok { c with Q := q }

/-- Method `Cluster.dispatcher()`, one iteration of `for j := range c.Q`: the
oldest queued job is received and dispatched; on an empty queue nothing happens. -/
def Cluster.dispatcher (c : Cluster) : Except Fault (Cluster × Option Job) :=
  match c.Q.recv with
  | none => .ok (c, none)
  | some (j, q) => Cluster.dispatchJob { c with Q := q } j

/-- Method `Cluster.totalLoad()`. -/
def Cluster.totalLoad (c : Cluster) : Int :=
  (c.Nodes.map (fun n => n.Used)).sum

/-- Method `Cluster.estimateLat()` in exact arithmetic.  Capacities are non-zero
in every cluster the program builds; for `Cap = 0` Go's quotient is infinite or
NaN, which `ℚ` does not represent.  `Cluster.estimateLatF` is the method with the
`float64` operations of the source, NaN and infinities included. -/
def Cluster.estimateLat (c : Cluster) : ℚ :=
  if c.Nodes.length = 0 then 0
  else
    let tot : ℚ := (c.Nodes.map (fun n => (n.Used : ℚ) / (n.Cap : ℚ))).sum
    let avg : ℚ := tot / (c.Nodes.length : ℚ)
    100 + avg * 300

/-! ## Controller -/

/-- Record `Controller` of the source, in exact arithmetic; the two pointers are
held by value. -/
structure Controller where
  cluster : Cluster
  pred : Predictor
  last : Int
  cool : Int
  target : ℚ

/-- Function `NewController(c, p)`: `last` is the zero time, `cool` is 1500 ms. -/
def NewController (c : Cluster) (p : Predictor) : Controller :=
  { cluster := c, pred := p, last := 0, cool := 1500 * 1000000, target := 200 }

/-- The loop `for i := 0; i < need; i++ { addNode() }` for `k` iterations. -/
def addNodes : Nat → Cluster → Cluster
  | 0, c => c
  | k + 1, c => addNodes k c.addNode

/-- Expression `int(math.Ceil((f - float64(n)*1.5)/2.0))` of line 156, in exact
arithmetic. -/
def needOf (f : ℚ) (n : Nat) : Int := ⌈(f - (n : ℚ) * 1.5) / 2.0⌉

/-- Method `Controller.Step()` in exact arithmetic: `t0` is the clock read by
`time.Since`, `t1` the clock read by `time.Now`.  The result also carries the
node detached by a scale-in, if any.  `ControllerF.Step` is the method with the
`float64` operations of the source. -/
def Controller.Step (ctl : Controller) (t0 t1 : Int) :
    Except Fault (Controller × Option Node) :=
  if t0 - ctl.last < ctl.cool then .ok (ctl, none)
  else
    let f := ctl.pred.Forecast.1
    let lat := ctl.cluster.estimateLat
    let need := needOf f ctl.cluster.Nodes.length
    if lat > ctl.target ∨ need > 0 then
      let need := if need < 1 then 1 else need
      .ok ({ ctl with cluster := addNodes need.toNat ctl.cluster, last := t1 }, none)
    else if lat < ctl.target * 0.6 ∧ (ctl.cluster.Nodes.length : Int) > ctl.cluster.min then
      match ctl.cluster.removeNode with
      | .error e => .error e
      | .ok (c, d) => .ok ({ ctl with cluster := c, last := t1 }, d)
    else .ok (ctl, none)

/-! ## Specification vocabulary, drivers and example data -/

/-- Free capacity of the node visited at iteration `q` of a scan starting at `s`. -/
def scanAvail (nodes : List Node) (s q : Nat) : Int :=
  ((nodes[(s + q) % nodes.length]?).map Node.avail).getD 0

/-- Loop invariant of the dispatcher scan after `i` iterations. -/
def ScanInv (nodes : List Node) (s : Nat) (jC : Int) (i : Nat) (best bestAvail : Int) : Prop :=
  (best = -1 ∧ bestAvail = -1 ∧ ∀ q, q < i → scanAvail nodes s q < jC) ∨
  (∃ p, p < i ∧ best = (((s + p) % nodes.length : Nat) : Int) ∧
    bestAvail = scanAvail nodes s p ∧ jC ≤ bestAvail ∧
    (∀ q, q < i → scanAvail nodes s q ≤ bestAvail) ∧
    (∀ q, q < p → scanAvail nodes s q < bestAvail))

/-- Example data: three nodes of capacity 8, the first one using 3 units. -/
def exNodes : List Node :=
  [⟨1, 8, 3, Chan.make⟩, ⟨2, 8, 0, Chan.make⟩, ⟨3, 8, 0, Chan.make⟩]

/-- Example data: the cluster of `main` (`min = 1`, `max = 50`, `cap = 8`) over `exNodes`. -/
def exCluster : Cluster :=
  { Nodes := exNodes, Q := Chan.make, rr := 0, min := 1, max := 50, cap := 8 }

/-- The cluster-size bound `min ≤ |Nodes| ≤ max`. -/
def Cluster.SizeInv (c : Cluster) : Prop :=
  c.min ≤ (c.Nodes.length : Int) ∧ (c.Nodes.length : Int) ≤ c.max

/-- The operating invariants of a cluster: the cursor is non-negative and no
member mailbox has been closed. -/
def Cluster.Operating (c : Cluster) : Prop :=
  0 ≤ c.rr ∧ ∀ n ∈ c.Nodes, n.Ch.closed = false

/-- Example data: a controller over the idle three-node cluster of `main`. -/
def exIdle : Controller := NewController (NewCluster 3 8 1 50) (NewPredictor 0.6)

/-- Example data: the same controller after a first observation of load 10. -/
def exBusy : Controller :=
  NewController (NewCluster 3 8 1 50) ((NewPredictor 0.6).Observe 10)

/-- Successive `Step` calls at the given pairs of clock readings.  The result is
the controller after the last call and the readings of the calls that updated
`last`, oldest first. -/
def stepsLog (ctl : Controller) : List (Int × Int) → Except Fault (Controller × List (Int × Int))
  | [] => .ok (ctl, [])
  | t :: ts =>
    match ctl.Step t.1 t.2 with
    | .error e => .error e
    | .ok (ctl1, _) =>
      match stepsLog ctl1 ts with
      | .error e => .error e
      | .ok (ctl2, log) => .ok (ctl2, if ctl1.last = ctl.last then log else t :: log)

/-- The predictor after `n` further calls `Observe(v)`. -/
def observeN (p : Predictor) (v : Int) : Nat → Predictor
  | 0 => p
  | n + 1 => (observeN p v n).Observe v

/-- The sum `tot` accumulated by the loop of `estimateLat`, lines 130-135. -/
def utilSum (nodes : List Node) : ℚ :=
  (nodes.map (fun n => (n.Used : ℚ) / (n.Cap : ℚ))).sum

/-- Two node lists of equal length that agree on every capacity while the usage
of each node of the second is at least that of the first. -/
def UsedLe (l l' : List Node) : Prop :=
  List.Forall₂ (fun a b => a.Cap = b.Cap ∧ a.Used ≤ b.Used) l l'

/-- A node together with the job its goroutine is currently running, if any, and
the job the dispatcher has chosen for it but not yet sent, if any. -/
structure NodeSt where
  node : Node
  running : Option Job
  accepted : Option Job
deriving DecidableEq, Repr

/-- What can happen to a node: the dispatcher's scan admits a job for it, the
dispatcher sends the accepted job, the goroutine starts the oldest queued job,
the running job ends, or the mailbox is closed. -/
inductive NodeEvent where
  | accept (j : Job)
  | deliver
  | start
  | finish
  | close
deriving DecidableEq, Repr

/-- State of a node right after `NewNode(id, cap)`. -/
def NodeSt.init (id cap : Int) : NodeSt :=
  { node := NewNode id cap, running := none, accepted := none }

/-- One step of a node.  `accept j` is the test of line 100 succeeding for a job
of cost at least 1 (`avail ≥ j.C` at scan time), `deliver` the send of line 103;
`start` is lines 22-25 and `finish` lines 26-29 of the goroutine, which runs one
job at a time.  The goroutine may move between the scan and the send.  A step
that cannot happen yields `none`. -/
def NodeSt.step (s : NodeSt) : NodeEvent → Option NodeSt
  | .accept j =>
    match s.accepted with
    | some _ => none
    | none => if 1 ≤ j.C ∧ j.C ≤ s.node.avail then some { s with accepted := some j } else none
  | .deliver =>
    match s.accepted with
    | none => none
    | some j =>
      match s.node.Ch.send j with
      | .ok ch => some { s with node := { s.node with Ch := ch }, accepted := none }
      | .error _ => none
  | .start =>
    match s.running with
    | some _ => none
    | none =>
      match s.node.start with
      | some (j, n) => some { s with node := n, running := some j }
      | none => none
  | .finish =>
    match s.running with
    | some j => some { s with node := s.node.finish j, running := none }
    | none => none
  | .close =>
    match s.node.Ch.close with
    | .ok ch => some { s with node := { s.node with Ch := ch } }
    | .error _ => none

/-- A run of a node along a list of events. -/
def NodeSt.run (s : NodeSt) : List NodeEvent → Option NodeSt
  | [] => some s
  | e :: es =>
    match s.step e with
    | some s1 => NodeSt.run s1 es
    | none => none

/-- Invariant of the node runs: the capacity is non-negative, the accepted job
and every queued job have a cost between 1 and `Cap`, and `Used` is 0 when idle
and the cost of the running job otherwise. -/
def NodeSt.Inv (s : NodeSt) : Prop :=
  0 ≤ s.node.Cap ∧
  (∀ j, s.accepted = some j → 1 ≤ j.C ∧ j.C ≤ s.node.Cap) ∧
  (∀ j ∈ s.node.Ch.buf, 1 ≤ j.C ∧ j.C ≤ s.node.Cap) ∧
  (s.running = none → s.node.Used = 0) ∧
  (∀ j, s.running = some j → s.node.Used = j.C ∧ 1 ≤ j.C ∧ j.C ≤ s.node.Cap)

/-- Successive dispatch attempts for the given jobs, with no node activity in
between.  The result is the cluster afterwards and the jobs handed to requeue
goroutines. -/
def dispatchAll (c : Cluster) : List Job → Except Fault (Cluster × List Job)
  | [] => .ok (c, [])
  | j :: js =>
    match c.dispatchJob j with
    | .error e => .error e
    | .ok (c1, r) =>
      match dispatchAll c1 js with
      | .error e => .error e
      | .ok (c2, rs) => .ok (c2, r.toList ++ rs)

/-- Placement of job `j` on the node at index `w`, as the claim describes it: the
job joins that node's mailbox and the cursor moves to `(w + 1) mod |Nodes|`. -/
def placeOn (c : Cluster) (w : Nat) (j : Job) : Cluster :=
  match c.Nodes[w]? with
  | none => c
  | some n =>
    { c with
      Nodes := c.Nodes.set w { n with Ch := { n.Ch with buf := n.Ch.buf ++ [j] } }
      rr := (((w + 1) % c.Nodes.length : Nat) : Int) }

/-- Round-robin placement as the claim describes it: counting from `m`, the job
number `m` goes to the node at index `m mod |Nodes|`. -/
def roundRobin (c : Cluster) (m : Nat) : List Job → Cluster
  | [] => c
  | j :: js => roundRobin (placeOn c (m % c.Nodes.length) j) (m + 1) js

/-- All nodes tie: every node has free capacity `a` and an open mailbox. -/
def Cluster.Tied (c : Cluster) (a : Int) : Prop :=
  ∀ n ∈ c.Nodes, n.avail = a ∧ n.Ch.closed = false

/-- Identifier invariant: the node at index `i` (0-based) has `ID = i + 1` and
`Cap = cap`. -/
def Cluster.IdInv (c : Cluster) : Prop :=
  ∀ (i : Nat) (n : Node), c.Nodes[i]? = some n → n.ID = (i : Int) + 1 ∧ n.Cap = c.cap

/-- An idle controller state: every node has `Used = 0` (and a positive
capacity), the forecast is 0 and the target is 200. -/
def Controller.Idle (ctl : Controller) : Prop :=
  (∀ n ∈ ctl.cluster.Nodes, n.Used = 0 ∧ 0 < n.Cap) ∧ ctl.pred.ema = 0 ∧ ctl.target = 200

/-- Steady light load: three nodes of capacity 8, each using 0 or 1, `min = 1`,
`max = 50`, a forecast between 0 and 3, and the target 200. -/
def Controller.LightLoad (ctl : Controller) : Prop :=
  ctl.cluster.Nodes.length = 3 ∧
  (∀ n ∈ ctl.cluster.Nodes, n.Cap = 8 ∧ (n.Used = 0 ∨ n.Used = 1)) ∧
  ctl.cluster.min = 1 ∧ ctl.cluster.max = 50 ∧
  0 ≤ ctl.pred.ema ∧ ctl.pred.ema ≤ 3 ∧ ctl.target = 200

/-- Configuration errors as the specification names them. -/
inductive ConfigError where
  | minAboveMax
  | capNotPositive
  | initNOutOfRange
  | alphaOutOfRange
deriving DecidableEq, Repr

/-- The validating cluster constructor as the specification describes it (fail
fast on `min > max`, a non-positive `cap`, or `initN` outside `[min, max]`),
for comparison with the source's `NewCluster`. -/
def specNewCluster (initN cap minN maxN : Int) : Except ConfigError Cluster :=
  if minN > maxN then .error .minAboveMax
  else if cap ≤ 0 then .error .capNotPositive
  else if initN < minN ∨ maxN < initN then .error .initNOutOfRange
  else .ok (NewCluster initN cap minN maxN)

/-- The validating predictor constructor as the specification describes it (fail
fast on `α ∉ (0,1)`), for comparison with the source's `NewPredictor`. -/
def specNewPredictor (a : ℚ) : Except ConfigError Predictor :=
  if a ≤ 0 ∨ 1 ≤ a then .error .alphaOutOfRange else .ok (NewPredictor a)

/-- One dispatcher iteration for job `j` followed by the send of the requeue
goroutine it may have spawned (lines 89-112); a panic of that goroutine ends the
process like any other. -/
def Cluster.dispatchStep (c : Cluster) (j : Job) : Except Fault Cluster :=
  match c.dispatchJob j with
  | .error e => .error e
  | .ok (c1, none) => .ok c1
  | .ok (c1, some jj) => c1.requeueSend jj

/-- The guarded requeue as the specification describes it: on a closed queue the
job is dropped, otherwise it is enqueued; for comparison with `requeueSend`. -/
def specRequeue (c : Cluster) (jj : Job) : Cluster :=
  if c.Q.closed then c else { c with Q := { c.Q with buf := c.Q.buf ++ [jj] } }

/-- Example data: the example cluster after `close(cluster.Q)`. -/
def exClosed : Cluster := { exCluster with Q := ⟨[], true⟩ }

/-! ## Floating point

The definitions above read `float64` as the exact rationals.  This section
reads it as an arbitrary implementation `fl` of the `float64` operations the
program uses, every Go operator being one operation of `fl`, in the order of
the source.  Two implementations are given: `exactOps`, the exact rationals, and
`ieee`, IEEE-754 binary64 with round-to-nearest-even (every operator rounded on
its own, as the Go compiler for amd64 emits it). -/

/-- The `float64` operations of the program. -/
structure F64Ops (F : Type) where
  /-- Conversion `float64(v)` of an `int`. -/
  ofInt : Int → F
  /-- Conversion of a numeric constant of the source text. -/
  lit : ℚ → F
  /-- Operator `+`. -/
  add : F → F → F
  /-- Operator `-`. -/
  sub : F → F → F
  /-- Operator `*`. -/
  mul : F → F → F
  /-- Operator `/`. -/
  div : F → F → F
  /-- Comparison `<`. -/
  lt : F → F → Bool
  /-- Comparison `>`. -/
  gt : F → F → Bool
  /-- Expression `int(math.Ceil(x))`. -/
  ceilInt : F → Int

/-- Exact rational arithmetic as an implementation of the operations. -/
def exactOps : F64Ops ℚ where
  ofInt := fun v => (v : ℚ)
  lit := fun q => q
  add := fun a b => a + b
  sub := fun a b => a - b
  mul := fun a b => a * b
  div := fun a b => a / b
  lt := fun a b => decide (a < b)
  gt := fun a b => decide (a > b)
  ceilInt := fun x => ⌈x⌉

/-- Record `Predictor` of the source over the float type `F`. -/
structure PredictorF (F : Type) where
  alpha : F
  ema : F
  init : Bool
deriving DecidableEq

/-- Function `NewPredictor(a)`: `ema` is the zero value `0.0`. -/
def NewPredictorF {F : Type} (fl : F64Ops F) (a : F) : PredictorF F :=
  { alpha := a, ema := fl.lit 0, init := false }

/-- Method `Predictor.Observe(v)`, line 39-48:
`p.ema = p.alpha*float64(v) + (1-p.alpha)*p.ema` once initialised. -/
def PredictorF.Observe {F : Type} (fl : F64Ops F) (p : PredictorF F) (v : Int) : PredictorF F :=
  if !p.init then { p with ema := fl.ofInt v, init := true }
  else
    { p with ema := fl.add (fl.mul p.alpha (fl.ofInt v)) (fl.mul (fl.sub (fl.lit 1) p.alpha) p.ema) }

/-- Method `Predictor.Forecast()`: the value read and the predictor after the call. -/
def PredictorF.Forecast {F : Type} (p : PredictorF F) : F × PredictorF F := (p.ema, p)

/-- Method `Cluster.estimateLat()`, lines 127-138: `tot` starts at `0.0` and takes
`float64(n.Used)/float64(n.Cap)` node by node, in slice order. -/
def Cluster.estimateLatF {F : Type} (fl : F64Ops F) (c : Cluster) : F :=
  if c.Nodes.length = 0 then fl.lit 0
  else
    let tot : F :=
      c.Nodes.foldl (fun t n => fl.add t (fl.div (fl.ofInt n.Used) (fl.ofInt n.Cap))) (fl.lit 0.0)
    let avg : F := fl.div tot (fl.ofInt (c.Nodes.length : Int))
    fl.add (fl.lit 100) (fl.mul avg (fl.lit 300))

/-- Record `Controller` of the source over the float type `F`. -/
structure ControllerF (F : Type) where
  cluster : Cluster
  pred : PredictorF F
  last : Int
  cool : Int
  target : F
deriving DecidableEq

/-- Function `NewController(c, p)`: `last` is the zero time, `cool` is 1500 ms,
`target` is the constant 200. -/
def NewControllerF {F : Type} (fl : F64Ops F) (c : Cluster) (p : PredictorF F) : ControllerF F :=
  { cluster := c, pred := p, last := 0, cool := 1500 * 1000000, target := fl.lit 200 }

/-- Method `Controller.Step()`, lines 152-167: `t0` is the clock read by
`time.Since`, `t1` the clock read by `time.Now`.  The result also carries the
node detached by a scale-in, if any. -/
def ControllerF.Step {F : Type} (fl : F64Ops F) (ctl : ControllerF F) (t0 t1 : Int) :
    Except Fault (ControllerF F × Option Node) :=
  if t0 - ctl.last < ctl.cool then .ok (ctl, none)
  else
    let f := ctl.pred.Forecast.1
    let lat := ctl.cluster.estimateLatF fl
    let need := fl.ceilInt
      (fl.div (fl.sub f (fl.mul (fl.ofInt (ctl.cluster.Nodes.length : Int)) (fl.lit 1.5)))
        (fl.lit 2.0))
    if fl.gt lat ctl.target = true ∨ need > 0 then
      let need := if need < 1 then 1 else need
      .ok ({ ctl with cluster := addNodes need.toNat ctl.cluster, last := t1 }, none)
    else if fl.lt lat (fl.mul ctl.target (fl.lit 0.6)) = true ∧
        (ctl.cluster.Nodes.length : Int) > ctl.cluster.min then
      match ctl.cluster.removeNode with
      | .error e => .error e
      | .ok (c, d) => .ok ({ ctl with cluster := c, last := t1 }, d)
    else .ok (ctl, none)

/-- The exact-rational predictor as a predictor over `exactOps`. -/
def Predictor.toF (p : Predictor) : PredictorF ℚ :=
  { alpha := p.alpha, ema := p.ema, init := p.init }

/-- The exact-rational controller as a controller over `exactOps`. -/
def Controller.toF (ctl : Controller) : ControllerF ℚ :=
  { cluster := ctl.cluster, pred := ctl.pred.toF, last := ctl.last, cool := ctl.cool
    target := ctl.target }

/-! ### IEEE-754 binary64 -/

/-- A binary64 value: NaN, an infinity, or the finite value
`(-1)^neg * m * 2^e` with `m < 2^53` and `-1074 ≤ e ≤ 971`, where `2^52 ≤ m`
unless `e = -1074` (subnormal numbers and the two zeros). -/
inductive F64 where
  | nan
  | inf (neg : Bool)
  | fin (neg : Bool) (m : Nat) (e : Int)
deriving DecidableEq, Repr

/-- Position of the leading bit of `n`, by halving at most `fuel` times. -/
def log2Fuel : Nat → Nat → Nat
  | 0, _ => 0
  | fuel + 1, n => if n < 2 then 0 else log2Fuel fuel (n / 2) + 1

/-- Position of the leading bit of `n`: `2^(ilog2 n) ≤ n < 2^(ilog2 n + 1)` for `n > 0`. -/
def ilog2 (n : Nat) : Nat := log2Fuel n n

/-- Rounding to nearest, ties to even: the binary64 value nearest to
`(-1)^neg * n / d` (for `d > 0`); results beyond the largest finite value are
infinite. -/
def F64.round (neg : Bool) (n d : Nat) : F64 :=
  if n = 0 then .fin neg 0 (-1074)
  else
    let k : Int := (ilog2 n : Int) - (ilog2 d : Int)
    let k0 : Int := if d * 2 ^ k.toNat ≤ n * 2 ^ (-k).toNat then k else k - 1
    let e : Int := Max.max (k0 - 52) (-1074)
    let num : Nat := n * 2 ^ (-e).toNat
    let den : Nat := d * 2 ^ e.toNat
    let q : Nat := num / den
    let r : Nat := num % den
    let m : Nat :=
      if 2 * r < den then q
      else if den < 2 * r then q + 1
      else if q % 2 = 0 then q else q + 1
    if m = 2 ^ 53 then (if 971 < e + 1 then .inf neg else .fin neg (2 ^ 52) (e + 1))
    else if 971 < e then .inf neg else .fin neg m e

/-- Numerator of the finite value `(-1)^neg * m * 2^e` over the denominator `F64.denom e`. -/
def F64.numer (neg : Bool) (m : Nat) (e : Int) : Int :=
  (if neg then -1 else 1) * ((m * 2 ^ e.toNat : Nat) : Int)

/-- Denominator of a finite value with exponent `e`. -/
def F64.denom (e : Int) : Nat := 2 ^ (-e).toNat

/-- The binary64 value nearest to the fraction `n / d` (for `d > 0`); zero is positive. -/
def F64.ofFrac (n : Int) (d : Nat) : F64 := F64.round (decide (n < 0)) n.natAbs d

/-- The rational value of a finite binary64 value (0 for NaN and the infinities). -/
def F64.toRat : F64 → ℚ
  | .nan => 0
  | .inf _ => 0
  | .fin s m e => (if s then -1 else 1) * (m : ℚ) * (2 : ℚ) ^ e

/-- Binary64 addition. -/
def F64.add : F64 → F64 → F64
  | .nan, _ => .nan
  | _, .nan => .nan
  | .inf s, .inf t => if s = t then .inf s else .nan
  | .inf s, .fin _ _ _ => .inf s
  | .fin _ _ _, .inf t => .inf t
  | .fin s m e, .fin t n f =>
    let x : Int := F64.numer s m e * (F64.denom f : Int) + F64.numer t n f * (F64.denom e : Int)
    if x = 0 then .fin (s && t) 0 (-1074)
    else F64.ofFrac x (F64.denom e * F64.denom f)

/-- Binary64 negation. -/
def F64.neg : F64 → F64
  | .nan => .nan
  | .inf s => .inf (!s)
  | .fin s m e => .fin (!s) m e

/-- Binary64 subtraction. -/
def F64.sub (a b : F64) : F64 := F64.add a (F64.neg b)

/-- Binary64 multiplication. -/
def F64.mul : F64 → F64 → F64
  | .nan, _ => .nan
  | _, .nan => .nan
  | .inf s, .inf t => .inf (xor s t)
  | .inf s, .fin t n _ => if n = 0 then .nan else .inf (xor s t)
  | .fin s m _, .inf t => if m = 0 then .nan else .inf (xor s t)
  | .fin s m e, .fin t n f =>
    F64.round (xor s t) (m * n * 2 ^ (e + f).toNat) (2 ^ (-(e + f)).toNat)

/-- Binary64 division. -/
def F64.div : F64 → F64 → F64
  | .nan, _ => .nan
  | _, .nan => .nan
  | .inf _, .inf _ => .nan
  | .inf s, .fin t _ _ => .inf (xor s t)
  | .fin s _ _, .inf t => .fin (xor s t) 0 (-1074)
  | .fin s m e, .fin t n f =>
    if n = 0 then (if m = 0 then .nan else .inf (xor s t))
    else
      F64.round (xor s t) (m * 2 ^ e.toNat * 2 ^ (-f).toNat) (n * 2 ^ f.toNat * 2 ^ (-e).toNat)

/-- Binary64 comparison `<`: false when an operand is NaN. -/
def F64.lt : F64 → F64 → Bool
  | .nan, _ => false
  | _, .nan => false
  | .inf s, .inf t => s && !t
  | .inf s, .fin _ _ _ => s
  | .fin _ _ _, .inf t => !t
  | .fin s m e, .fin t n f =>
    decide (F64.numer s m e * (F64.denom f : Int) < F64.numer t n f * (F64.denom e : Int))

/-- Binary64 comparison `<=`: false when an operand is NaN. -/
def F64.le : F64 → F64 → Bool
  | .nan, _ => false
  | _, .nan => false
  | .inf s, .inf t => s || !t
  | .inf s, .fin _ _ _ => s
  | .fin _ _ _, .inf t => !t
  | .fin s m e, .fin t n f =>
    decide (F64.numer s m e * (F64.denom f : Int) ≤ F64.numer t n f * (F64.denom e : Int))

/-- Expression `int(math.Ceil(x))`.  For NaN, the infinities and values outside
the range of `int` the Go specification leaves the result to the implementation;
the value taken here is the one amd64 produces, `-2^63`. -/
def F64.ceilInt : F64 → Int
  | .nan => -2 ^ 63
  | .inf _ => -2 ^ 63
  | .fin s m e =>
    let c : Int := -((-(F64.numer s m e)) / (F64.denom e : Int))
    if -2 ^ 63 ≤ c ∧ c < 2 ^ 63 then c else -2 ^ 63

/-- IEEE-754 binary64 as an implementation of the operations. -/
def ieee : F64Ops F64 where
  ofInt := fun v => F64.ofFrac v 1
  lit := fun q => F64.ofFrac q.num q.den
  add := F64.add
  sub := F64.sub
  mul := F64.mul
  div := F64.div
  lt := F64.lt
  gt := fun a b => F64.lt b a
  ceilInt := F64.ceilInt

/-- Example data: six nodes of capacity 5 that use 0, 1, 2, 3, 3 and 1 units. -/
def exSixNodes : List Node :=
  [⟨1, 5, 0, Chan.make⟩, ⟨2, 5, 1, Chan.make⟩, ⟨3, 5, 2, Chan.make⟩,
   ⟨4, 5, 3, Chan.make⟩, ⟨5, 5, 3, Chan.make⟩, ⟨6, 5, 1, Chan.make⟩]

/-- Example data: the controller of `main` in binary64 arithmetic over `exSixNodes`
(`min = 1`, `max = 50`). -/
def exSix : ControllerF F64 :=
  NewControllerF ieee
    { Nodes := exSixNodes, Q := Chan.make, rr := 0, min := 1, max := 50, cap := 5 }
    (NewPredictorF ieee (ieee.lit 0.6))

/-- Example data: the controller of `main` in binary64 arithmetic over three idle
nodes of capacity 0. -/
def exZeroCap : ControllerF F64 :=
  NewControllerF ieee (NewCluster 3 0 1 50) (NewPredictorF ieee (ieee.lit 0.6))

/-- Example data: the controller of `main` in binary64 arithmetic over the idle
three-node cluster of `main`. -/
def exIdleF : ControllerF F64 :=
  NewControllerF ieee (NewCluster 3 8 1 50) (NewPredictorF ieee (ieee.lit 0.6))

/-- Example data: a binary64 predictor with `alpha = 0.6` whose value is 6. -/
def exPred : PredictorF F64 :=
  PredictorF.Observe ieee (NewPredictorF ieee (ieee.lit 0.6)) 6

/-- Example data: the controller of `main` in binary64 arithmetic over the idle
three-node cluster of `main`, after a first observation of load 10. -/
def exBusyF : ControllerF F64 :=
  NewControllerF ieee (NewCluster 3 8 1 50)
    (PredictorF.Observe ieee (NewPredictorF ieee (ieee.lit 0.6)) 10)

/-! ## Lemmas on slice indexing and scan positions -/

theorem nodeAt_natCast (nodes : List Node) (m : Nat) (h : m < nodes.length) :
    nodeAt nodes (m : Int) = .ok (nodes.get ⟨m, h⟩) := by
  have h0 : ¬ ((m : Int) < 0) := by omega
  simp [nodeAt, h0, List.getElem?_eq_getElem h]

theorem tmod_natCast (a n : Nat) : Int.tmod (a : Int) (n : Int) = ((a % n : Nat) : Int) := by
  rw [Int.tmod_eq_emod (by positivity) (by positivity)]
  norm_cast

theorem neg_natCast_tmod (m n : Nat) :
    Int.tmod (-(m : Int)) (n : Int) = -(((m % n : Nat)) : Int) := by
  cases m with
  | zero => simp
  | succ k => rfl

theorem tmod_tmod_natCast (a : Int) (n : Nat) :
    Int.tmod (Int.tmod a n) n = Int.tmod a n := by
  rcases Int.lt_or_le a 0 with ha | ha
  · obtain ⟨m, rfl⟩ := Int.exists_eq_neg_ofNat (le_of_lt ha)
    rw [neg_natCast_tmod, neg_natCast_tmod, Nat.mod_mod]
  · obtain ⟨m, rfl⟩ := Int.eq_ofNat_of_zero_le ha
    rw [← Int.ofNat_tmod, ← Int.ofNat_tmod, Nat.mod_mod]

theorem scanIdx_natCast (nodes : List Node) (s i : Nat) :
    scanIdx nodes (s : Int) i = (((s + i) % nodes.length : Nat) : Int) := by
  unfold scanIdx
  rw [Int.tmod_eq_emod (by positivity) (by positivity)]
  norm_cast

theorem nodeAt_scanIdx (nodes : List Node) (s q : Nat) (hlen : 0 < nodes.length) :
    ∃ n, nodeAt nodes (scanIdx nodes (s : Int) q) = .ok n ∧ n.avail = scanAvail nodes s q := by
  have hlt : (s + q) % nodes.length < nodes.length := Nat.mod_lt _ hlen
  refine ⟨nodes.get ⟨_, hlt⟩, ?_, ?_⟩
  · rw [scanIdx_natCast, nodeAt_natCast nodes _ hlt]
  · simp [scanAvail, List.getElem?_eq_getElem hlt]

theorem scanAvail_surj (nodes : List Node) (s : Nat) (hs : s < nodes.length)
    (m : Node) (hm : m ∈ nodes) :
    ∃ q, q < nodes.length ∧ scanAvail nodes s q = m.avail := by
  obtain ⟨t, ht, rfl⟩ := List.getElem_of_mem hm
  refine ⟨(t + nodes.length - s) % nodes.length, Nat.mod_lt _ (by omega), ?_⟩
  have hidx : (s + (t + nodes.length - s) % nodes.length) % nodes.length = t := by
    rw [Nat.add_mod_mod]
    have : s + (t + nodes.length - s) = t + nodes.length := by omega
    rw [this, Nat.add_mod_right, Nat.mod_eq_of_lt ht]
  simp [scanAvail, hidx, List.getElem?_eq_getElem ht]

/-! ## The dispatcher scan -/

theorem scanInv_step (nodes : List Node) (s : Nat) (jC : Int) (hC : 1 ≤ jC)
    (i : Nat) (best bestAvail : Int) (h : ScanInv nodes s jC i best bestAvail) :
    (jC ≤ scanAvail nodes s i ∧ bestAvail < scanAvail nodes s i →
      ScanInv nodes s jC (i + 1) (((s + i) % nodes.length : Nat) : Int) (scanAvail nodes s i)) ∧
    (¬ (jC ≤ scanAvail nodes s i ∧ bestAvail < scanAvail nodes s i) →
      ScanInv nodes s jC (i + 1) best bestAvail) := by
  constructor
  · rintro ⟨h1, h2⟩
    right
    refine ⟨i, Nat.lt_succ_self i, rfl, rfl, h1, ?_, ?_⟩
    · intro q hq
      rcases Nat.lt_succ_iff_lt_or_eq.mp hq with hq | rfl
      · rcases h with ⟨_, _, hall⟩ | ⟨p, _, _, _, _, hall, _⟩
        · have := hall q hq; omega
        · have := hall q hq; omega
      · exact le_refl _
    · intro q hq
      rcases h with ⟨_, _, hall⟩ | ⟨p, _, _, _, _, hall, _⟩
      · have := hall q hq; omega
      · have := hall q hq; omega
  · intro hn
    rcases h with ⟨hb, ha, hall⟩ | ⟨p, hp, hb, ha, hjc, hall, hfirst⟩
    · left
      refine ⟨hb, ha, ?_⟩
      intro q hq
      rcases Nat.lt_succ_iff_lt_or_eq.mp hq with hq | rfl
      · exact hall q hq
      · by_contra hcon
        exact hn ⟨by omega, by omega⟩
    · right
      refine ⟨p, Nat.lt_succ_of_lt hp, hb, ha, hjc, ?_, hfirst⟩
      intro q hq
      rcases Nat.lt_succ_iff_lt_or_eq.mp hq with hq | rfl
      · exact hall q hq
      · by_contra hcon
        exact hn ⟨by omega, by omega⟩

theorem scanLoop_inv (nodes : List Node) (s : Nat) (jC : Int) (hC : 1 ≤ jC)
    (hlen : 0 < nodes.length) :
    ∀ (k i : Nat) (best bestAvail : Int), i + k = nodes.length →
      ScanInv nodes s jC i best bestAvail →
      ∃ b a, scanLoop nodes (s : Int) jC k i best bestAvail = .ok (b, a) ∧
        ScanInv nodes s jC nodes.length b a := by
  intro k
  induction k with
  | zero =>
    intro i best bestAvail hik h
    have hi : i = nodes.length := by omega
    subst hi
    exact ⟨best, bestAvail, rfl, h⟩
  | succ k ih =>
    intro i best bestAvail hik h
    obtain ⟨n, hn, hav⟩ := nodeAt_scanIdx nodes s i hlen
    have hstep := scanInv_step nodes s jC hC i best bestAvail h
    unfold scanLoop
    simp only [hn]
    by_cases hc : n.avail ≥ jC ∧ n.avail > bestAvail
    · rw [if_pos hc]
      have hc2 : jC ≤ scanAvail nodes s i ∧ bestAvail < scanAvail nodes s i := by
        rw [← hav]; exact ⟨hc.1, hc.2⟩
      have := hstep.1 hc2
      rw [scanIdx_natCast, hav]
      exact ih (i + 1) _ _ (by omega) this
    · rw [if_neg hc]
      have hc2 : ¬ (jC ≤ scanAvail nodes s i ∧ bestAvail < scanAvail nodes s i) := by
        rw [← hav]; exact fun hh => hc ⟨hh.1, hh.2⟩
      exact ih (i + 1) _ _ (by omega) (hstep.2 hc2)

/-- The scan never panics when the cursor is non-negative, and its result
satisfies the loop invariant for the whole list. -/
theorem scan_spec (nodes : List Node) (r : Nat) (jC : Int) (hC : 1 ≤ jC)
    (hlen : 0 < nodes.length) :
    ∃ b a, scan nodes (r : Int) jC = .ok (b, a) ∧
      ScanInv nodes (r % nodes.length) jC nodes.length b a := by
  unfold scan
  rw [tmod_natCast]
  apply scanLoop_inv nodes (r % nodes.length) jC hC hlen nodes.length 0 (-1) (-1) (by omega)
  left
  exact ⟨rfl, rfl, fun q hq => absurd hq (Nat.not_lt_zero q)⟩

/-- A scan that returns started at a non-negative index: with a negative start
the first slice access panics. -/
theorem scan_ok_start (nodes : List Node) (rr jC : Int) (p : Int × Int)
    (hlen : 0 < nodes.length) (h : scan nodes rr jC = .ok p) :
    0 ≤ Int.tmod rr (nodes.length : Int) := by
  by_contra hneg
  have hidx : scanIdx nodes (Int.tmod rr (nodes.length : Int)) 0 < 0 := by
    unfold scanIdx
    simp only [Nat.cast_zero, add_zero]
    rw [tmod_tmod_natCast]
    omega
  have hfault : ∀ k : Nat, 0 < k → ∀ b a : Int,
      scanLoop nodes (Int.tmod rr (nodes.length : Int)) jC k 0 b a
        = .error .indexOutOfRange := by
    intro k hk b a
    cases k with
    | zero => omega
    | succ k =>
      unfold scanLoop
      simp [nodeAt, hidx]
  unfold scan at h
  rw [hfault nodes.length hlen] at h
  exact absurd h (by simp)

/-- Every returning scan satisfies the loop invariant for the whole list. -/
theorem scan_sound (nodes : List Node) (rr jC b a : Int) (hC : 1 ≤ jC)
    (hlen : 0 < nodes.length) (h : scan nodes rr jC = .ok (b, a)) :
    ∃ s : Nat, s < nodes.length ∧ Int.tmod rr (nodes.length : Int) = (s : Int) ∧
      ScanInv nodes s jC nodes.length b a := by
  have h0 := scan_ok_start nodes rr jC (b, a) hlen h
  obtain ⟨s, hs⟩ := Int.eq_ofNat_of_zero_le h0
  have hslt : s < nodes.length := by
    have := Int.tmod_lt_of_pos rr (show (0 : Int) < (nodes.length : Int) by omega)
    omega
  obtain ⟨b', a', hloop, hinv⟩ :=
    scanLoop_inv nodes s jC hC hlen nodes.length 0 (-1) (-1) (by omega)
      (Or.inl ⟨rfl, rfl, fun q hq => absurd hq (Nat.not_lt_zero q)⟩)
  unfold scan at h
  rw [hs, hloop] at h
  simp only [Except.ok.injEq, Prod.mk.injEq] at h
  refine ⟨s, hslt, hs, ?_⟩
  rw [← h.1, ← h.2]
  exact hinv

/-! ## Dispatch attempts -/

/-- Outcome of one dispatch attempt under the operating invariants. -/
theorem dispatchJob_cases (c : Cluster) (j : Job)
    (hrr : 0 ≤ c.rr) (hC : 1 ≤ j.C) (hopen : ∀ n ∈ c.Nodes, n.Ch.closed = false) :
    ((∃ n ∈ c.Nodes, j.C ≤ n.avail) ∧
      ∃ (w : Nat) (nw : Node), c.Nodes[w]? = some nw ∧ j.C ≤ nw.avail ∧
        c.dispatchJob j =
          .ok ({ c with
                  Nodes := c.Nodes.set w { nw with Ch := { nw.Ch with buf := nw.Ch.buf ++ [j] } }
                  rr := Int.tmod ((w : Int) + 1) (c.Nodes.length : Int) }, none)) ∨
    ((¬ ∃ n ∈ c.Nodes, j.C ≤ n.avail) ∧ c.dispatchJob j = .ok (c, some j)) := by
  by_cases hlen : c.Nodes.length > 0
  · obtain ⟨r, hr⟩ := Int.eq_ofNat_of_zero_le hrr
    obtain ⟨b, a, hscan, hinv⟩ := scan_spec c.Nodes r j.C hC hlen
    rw [← hr] at hscan
    rcases hinv with ⟨hb, _, hall⟩ | ⟨p, hp, hbp, hap, hjc, _, _⟩
    · right
      constructor
      · rintro ⟨n, hn, hnj⟩
        obtain ⟨q, hq, hqa⟩ :=
          scanAvail_surj c.Nodes (r % c.Nodes.length) (Nat.mod_lt _ hlen) n hn
        have := hall q hq
        omega
      · unfold Cluster.dispatchJob
        rw [if_pos hlen, hscan]
        have : ¬ (b ≥ 0) := by omega
        simp only [this, if_false]
    · left
      obtain ⟨nw, hnw, hav⟩ := nodeAt_scanIdx c.Nodes (r % c.Nodes.length) p hlen
      rw [scanIdx_natCast] at hnw
      have hlt : (r % c.Nodes.length + p) % c.Nodes.length < c.Nodes.length :=
        Nat.mod_lt _ hlen
      have hget : c.Nodes[(r % c.Nodes.length + p) % c.Nodes.length]? = some nw := by
        rw [nodeAt_natCast c.Nodes _ hlt] at hnw
        rw [List.getElem?_eq_getElem hlt]
        congr 1
        exact Except.ok.inj hnw
      have hmem : nw ∈ c.Nodes := List.mem_iff_getElem?.mpr ⟨_, hget⟩
      have hj : j.C ≤ nw.avail := by rw [hav, ← hap]; exact hjc
      refine ⟨⟨nw, hmem, hj⟩, (r % c.Nodes.length + p) % c.Nodes.length, nw, hget, hj, ?_⟩
      unfold Cluster.dispatchJob
      rw [if_pos hlen, hscan]
      have hb0 : b ≥ 0 := by rw [hbp]; positivity
      simp only [hb0, if_true]
      rw [hbp, hnw]
      simp only [Chan.send, hopen nw hmem, Int.toNat_ofNat]
      rfl
  · right
    have hnil : c.Nodes = [] := List.length_eq_zero.mp (by omega)
    constructor
    · rintro ⟨n, hn, _⟩
      rw [hnil] at hn
      exact absurd hn (List.not_mem_nil n)
    · unfold Cluster.dispatchJob
      rw [if_neg hlen]

/-- Every returning dispatch attempt, traced along the code. -/
theorem dispatchJob_trace (c c' : Cluster) (j : Job) (r : Option Job)
    (h : c.dispatchJob j = .ok (c', r)) :
    (c' = c ∧ r = some j ∧
      (c.Nodes = [] ∨ ∃ b a, scan c.Nodes c.rr j.C = .ok (b, a) ∧ b < 0)) ∨
    (∃ (best a : Int) (n : Node), 0 < c.Nodes.length ∧
      scan c.Nodes c.rr j.C = .ok (best, a) ∧ 0 ≤ best ∧
      nodeAt c.Nodes best = .ok n ∧ n.Ch.closed = false ∧
      c' = { c with
              Nodes := c.Nodes.set best.toNat
                { n with Ch := { n.Ch with buf := n.Ch.buf ++ [j] } }
              rr := Int.tmod (best + 1) (c.Nodes.length : Int) } ∧
      r = none) := by
  unfold Cluster.dispatchJob at h
  by_cases hlen : c.Nodes.length > 0
  · rw [if_pos hlen] at h
    cases hsc : scan c.Nodes c.rr j.C with
    | error e => rw [hsc] at h; exact absurd h (by simp)
    | ok p =>
      obtain ⟨best, a⟩ := p
      rw [hsc] at h
      simp only at h
      by_cases hb : best ≥ 0
      · rw [if_pos hb] at h
        cases hn : nodeAt c.Nodes best with
        | error e => rw [hn] at h; exact absurd h (by simp)
        | ok n =>
          rw [hn] at h
          simp only at h
          cases hcl : n.Ch.closed with
          | true =>
            simp [Chan.send, hcl] at h
          | false =>
            right
            simp only [Chan.send, hcl, Bool.false_eq_true, if_false, Except.ok.injEq,
              Prod.mk.injEq] at h
            refine ⟨best, a, n, hlen, rfl, hb, hn, hcl, ?_, h.2.symm⟩
            rw [← h.1]
            simp only [hcl]
      · rw [if_neg hb] at h
        left
        simp only [Except.ok.injEq, Prod.mk.injEq] at h
        exact ⟨h.1.symm, h.2.symm, Or.inr ⟨best, a, rfl, by omega⟩⟩
  · rw [if_neg hlen] at h
    left
    simp only [Except.ok.injEq, Prod.mk.injEq] at h
    exact ⟨h.1.symm, h.2.symm, Or.inl (List.length_eq_zero.mp (by omega))⟩

/-- Every returning dispatch attempt for a job of cost at least 1 either found a
qualifying node and delivered to one, or found none and changed nothing. -/
theorem dispatchJob_sound (c c' : Cluster) (j : Job) (r : Option Job) (hC : 1 ≤ j.C)
    (h : c.dispatchJob j = .ok (c', r)) :
    ((∃ n ∈ c.Nodes, j.C ≤ n.avail) ∧ r = none ∧
      ∃ (w : Nat) (nw : Node), c.Nodes[w]? = some nw ∧ j.C ≤ nw.avail ∧
        nw.Ch.closed = false ∧
        c' = { c with
                Nodes := c.Nodes.set w { nw with Ch := { nw.Ch with buf := nw.Ch.buf ++ [j] } }
                rr := Int.tmod ((w : Int) + 1) (c.Nodes.length : Int) }) ∨
    ((¬ ∃ n ∈ c.Nodes, j.C ≤ n.avail) ∧ r = some j ∧ c' = c) := by
  rcases dispatchJob_trace c c' j r h with
    ⟨hc, hr, hnone⟩ | ⟨best, a, n, hlen, hsc, hb, hn, hcl, hc, hr⟩
  · right
    refine ⟨?_, hr, hc⟩
    rintro ⟨m, hm, hmj⟩
    rcases hnone with hnil | ⟨b, a, hsc, hb⟩
    · rw [hnil] at hm
      exact absurd hm (List.not_mem_nil m)
    · have hlen : 0 < c.Nodes.length := List.length_pos_of_mem hm
      obtain ⟨s, hs, _, hinv⟩ := scan_sound c.Nodes c.rr j.C b a hC hlen hsc
      rcases hinv with ⟨_, _, hall⟩ | ⟨p, _, hbp, _⟩
      · obtain ⟨q, hq, hqa⟩ := scanAvail_surj c.Nodes s hs m hm
        have := hall q hq
        omega
      · omega
  · left
    obtain ⟨s, hs, _, hinv⟩ := scan_sound c.Nodes c.rr j.C best a hC hlen hsc
    rcases hinv with ⟨hb1, _, _⟩ | ⟨p, hp, hbp, hap, hjc, _, _⟩
    · omega
    · have hlt : (s + p) % c.Nodes.length < c.Nodes.length := Nat.mod_lt _ hlen
      obtain ⟨nw, hnw, hav⟩ := nodeAt_scanIdx c.Nodes s p hlen
      rw [scanIdx_natCast, ← hbp, hn] at hnw
      have hnn : n = nw := Except.ok.inj hnw
      subst hnn
      have hget : c.Nodes[(s + p) % c.Nodes.length]? = some n := by
        rw [hbp, nodeAt_natCast c.Nodes _ hlt] at hn
        rw [List.getElem?_eq_getElem hlt]
        congr 1
        exact Except.ok.inj hn
      have hj : j.C ≤ n.avail := by rw [hav, ← hap]; exact hjc
      refine ⟨⟨n, List.mem_iff_getElem?.mpr ⟨_, hget⟩, hj⟩, hr,
        (s + p) % c.Nodes.length, n, hget, hj, hcl, ?_⟩
      rw [hc, hbp]
      simp only [Int.toNat_ofNat]

/-- In a cluster with a non-negative cursor and open member mailboxes a dispatch
attempt returns. -/
theorem dispatchJob_total (c : Cluster) (j : Job) (hC : 1 ≤ j.C)
    (hrr : 0 ≤ c.rr) (hopen : ∀ n ∈ c.Nodes, n.Ch.closed = false) :
    ∃ c' r, c.dispatchJob j = .ok (c', r) := by
  rcases dispatchJob_cases c j hrr hC hopen with ⟨_, w, nw, _, _, hd⟩ | ⟨_, hd⟩
  · exact ⟨_, _, hd⟩
  · exact ⟨_, _, hd⟩

/-! ## Membership operations -/

theorem addNode_of_lt (c : Cluster) (h : (c.Nodes.length : Int) < c.max) :
    c.addNode = { c with Nodes := c.Nodes ++ [NewNode ((c.Nodes.length : Int) + 1) c.cap] } := by
  unfold Cluster.addNode
  rw [if_neg (by omega)]

theorem addNode_of_ge (c : Cluster) (h : c.max ≤ (c.Nodes.length : Int)) : c.addNode = c := by
  unfold Cluster.addNode
  rw [if_pos (by omega)]

theorem addNodes_spec (k : Nat) : ∀ c : Cluster,
    ∃ extra, addNodes k c = { c with Nodes := c.Nodes ++ extra } ∧
      ((c.Nodes.length : Int) ≤ c.max →
        (extra.length : Int) = Min.min (c.max - (c.Nodes.length : Int)) (k : Int)) := by
  induction k with
  | zero =>
    intro c
    refine ⟨[], by simp [addNodes], ?_⟩
    intro h
    simp only [List.length_nil, Nat.cast_zero]
    omega
  | succ k ih =>
    intro c
    by_cases hlt : (c.Nodes.length : Int) < c.max
    · have hadd := addNode_of_lt c hlt
      obtain ⟨extra, he, hl⟩ := ih c.addNode
      rw [hadd] at he hl
      refine ⟨NewNode ((c.Nodes.length : Int) + 1) c.cap :: extra, ?_, ?_⟩
      · rw [addNodes, hadd, he]
        simp
      · intro _
        have := hl (by simp; omega)
        simp only [List.length_append, List.length_cons, List.length_nil, Nat.cast_add,
          Nat.cast_one] at this ⊢
        omega
    · have hadd := addNode_of_ge c (by omega)
      obtain ⟨extra, he, hl⟩ := ih c.addNode
      rw [hadd] at he hl
      refine ⟨extra, ?_, ?_⟩
      · rw [addNodes, hadd, he]
      · intro h
        have := hl h
        omega

theorem nodeAt_last (pre : List Node) (n : Node) :
    nodeAt (pre ++ [n]) (((pre ++ [n]).length : Int) - 1) = .ok n := by
  have h1 : (((pre ++ [n]).length : Int) - 1) = ((pre.length : Nat) : Int) := by
    simp
  have h2 : pre.length < (pre ++ [n]).length := by simp
  rw [h1, nodeAt_natCast _ _ h2]
  simp

theorem removeNode_snoc (c : Cluster) (pre : List Node) (n : Node)
    (hc : c.Nodes = pre ++ [n]) (hlt : c.min < (c.Nodes.length : Int))
    (hopen : n.Ch.closed = false) :
    c.removeNode =
      .ok ({ c with Nodes := pre }, some { n with Ch := { n.Ch with closed := true } }) := by
  unfold Cluster.removeNode
  rw [if_neg (by omega), hc, nodeAt_last]
  simp [Chan.close, hopen]

/-- Every result of `removeNode` keeps a prefix of the nodes and drops at most
one node, and only above the floor. -/
theorem removeNode_ok (c c' : Cluster) (d : Option Node)
    (h : c.removeNode = .ok (c', d)) :
    (c' = c ∧ d = none ∧ (c.Nodes.length : Int) ≤ c.min) ∨
    (∃ pre n, c.Nodes = pre ++ [n] ∧ c' = { c with Nodes := pre } ∧
      d = some { n with Ch := { n.Ch with closed := true } } ∧
      c.min < (c.Nodes.length : Int)) := by
  by_cases hle : (c.Nodes.length : Int) ≤ c.min
  · left
    unfold Cluster.removeNode at h
    rw [if_pos hle] at h
    simp only [Except.ok.injEq, Prod.mk.injEq] at h
    exact ⟨h.1.symm, h.2.symm, hle⟩
  · right
    rcases List.eq_nil_or_concat c.Nodes with hnil | ⟨pre, n, hc⟩
    · unfold Cluster.removeNode at h
      rw [if_neg hle, hnil] at h
      simp [nodeAt] at h
    · rw [List.concat_eq_append] at hc
      by_cases hcl : n.Ch.closed = false
      · rw [removeNode_snoc c pre n hc (by omega) hcl] at h
        simp only [Except.ok.injEq, Prod.mk.injEq] at h
        exact ⟨pre, n, hc, h.1.symm, h.2.symm, by omega⟩
      · unfold Cluster.removeNode at h
        rw [if_neg hle, hc, nodeAt_last] at h
        simp [Chan.close, hcl] at h

/-! ## Controller steps -/

/-- Case analysis of `Controller.Step` along its four exits. -/
theorem Step_cases (ctl : Controller) (t0 t1 : Int) :
    (t0 - ctl.last < ctl.cool ∧ ctl.Step t0 t1 = .ok (ctl, none)) ∨
    (ctl.cool ≤ t0 - ctl.last ∧
      (ctl.cluster.estimateLat > ctl.target ∨
        needOf ctl.pred.Forecast.1 ctl.cluster.Nodes.length > 0) ∧
      ctl.Step t0 t1 =
        .ok ({ ctl with
                cluster := addNodes
                  (Max.max (needOf ctl.pred.Forecast.1 ctl.cluster.Nodes.length) 1).toNat
                  ctl.cluster
                last := t1 }, none)) ∨
    (ctl.cool ≤ t0 - ctl.last ∧
      ¬ (ctl.cluster.estimateLat > ctl.target ∨
        needOf ctl.pred.Forecast.1 ctl.cluster.Nodes.length > 0) ∧
      (ctl.cluster.estimateLat < ctl.target * 0.6 ∧
        (ctl.cluster.Nodes.length : Int) > ctl.cluster.min) ∧
      ctl.Step t0 t1 =
        match ctl.cluster.removeNode with
        | .error e => .error e
        | .ok (c, d) => .ok ({ ctl with cluster := c, last := t1 }, d)) ∨
    (ctl.cool ≤ t0 - ctl.last ∧
      ¬ (ctl.cluster.estimateLat > ctl.target ∨
        needOf ctl.pred.Forecast.1 ctl.cluster.Nodes.length > 0) ∧
      ¬ (ctl.cluster.estimateLat < ctl.target * 0.6 ∧
        (ctl.cluster.Nodes.length : Int) > ctl.cluster.min) ∧
      ctl.Step t0 t1 = .ok (ctl, none)) := by
  by_cases hcool : t0 - ctl.last < ctl.cool
  · left
    exact ⟨hcool, by unfold Controller.Step; rw [if_pos hcool]⟩
  · right
    by_cases hout : ctl.cluster.estimateLat > ctl.target ∨
        needOf ctl.pred.Forecast.1 ctl.cluster.Nodes.length > 0
    · left
      refine ⟨by omega, hout, ?_⟩
      unfold Controller.Step
      rw [if_neg hcool]
      simp only [hout, if_true]
      by_cases h1 : needOf ctl.pred.Forecast.1 ctl.cluster.Nodes.length < 1
      · rw [if_pos h1, max_eq_right (by omega)]
      · rw [if_neg h1, max_eq_left (by omega)]
    · right
      by_cases hin : ctl.cluster.estimateLat < ctl.target * 0.6 ∧
          (ctl.cluster.Nodes.length : Int) > ctl.cluster.min
      · left
        refine ⟨by omega, hout, hin, ?_⟩
        unfold Controller.Step
        rw [if_neg hcool]
        simp only [hout, if_false, hin, and_self, if_true]
      · right
        refine ⟨by omega, hout, hin, ?_⟩
        unfold Controller.Step
        rw [if_neg hcool]
        simp only [hout, if_false, hin]

/-- The scale-in exit of `Step`: what it returns when the cooldown has elapsed,
the scale-out condition fails and the scale-in condition holds. -/
theorem Step_in (ctl : Controller) (t0 t1 : Int)
    (hc : ctl.cool ≤ t0 - ctl.last)
    (hlat : ctl.cluster.estimateLat ≤ ctl.target)
    (hneed : needOf ctl.pred.Forecast.1 ctl.cluster.Nodes.length ≤ 0)
    (hlow : ctl.cluster.estimateLat < ctl.target * 0.6)
    (hgt : ctl.cluster.min < (ctl.cluster.Nodes.length : Int))
    (hmin : 0 ≤ ctl.cluster.min)
    (hopen : ∀ n ∈ ctl.cluster.Nodes, n.Ch.closed = false) :
    ∃ pre n, ctl.cluster.Nodes = pre ++ [n] ∧
      ctl.Step t0 t1 =
        .ok ({ ctl with cluster := { ctl.cluster with Nodes := pre }, last := t1 },
          some { n with Ch := { n.Ch with closed := true } }) := by
  rcases Step_cases ctl t0 t1 with ⟨h, _⟩ | ⟨_, ho, _⟩ | ⟨_, _, _, hs⟩ | ⟨_, _, hni, _⟩
  · omega
  · rcases ho with ho | ho
    · exact absurd hlat (not_le.mpr ho)
    · omega
  · rcases List.eq_nil_or_concat ctl.cluster.Nodes with hnil | ⟨pre, n, hn⟩
    · rw [hnil] at hgt
      simp only [List.length_nil, Nat.cast_zero] at hgt
      omega
    · rw [List.concat_eq_append] at hn
      refine ⟨pre, n, hn, ?_⟩
      rw [hs, removeNode_snoc ctl.cluster pre n hn hgt (hopen n (by rw [hn]; simp))]
  · exact absurd ⟨hlow, hgt⟩ hni

/-- A returning `Step` either changes nothing, or it acted: the cooldown had
elapsed and `last` is the clock read by `time.Now`; `cool` never changes. -/
theorem Step_last (ctl ctl' : Controller) (t0 t1 : Int) (d : Option Node)
    (h : ctl.Step t0 t1 = .ok (ctl', d)) :
    ctl'.cool = ctl.cool ∧
    ((ctl' = ctl ∧ d = none) ∨ (ctl.cool ≤ t0 - ctl.last ∧ ctl'.last = t1)) := by
  rcases Step_cases ctl t0 t1 with ⟨_, hs⟩ | ⟨hc, _, hs⟩ | ⟨hc, _, _, hs⟩ | ⟨_, _, _, hs⟩
  · rw [hs] at h
    simp only [Except.ok.injEq, Prod.mk.injEq] at h
    exact ⟨by rw [← h.1], Or.inl ⟨h.1.symm, h.2.symm⟩⟩
  · rw [hs] at h
    simp only [Except.ok.injEq, Prod.mk.injEq] at h
    exact ⟨by rw [← h.1], Or.inr ⟨hc, by rw [← h.1]⟩⟩
  · rw [hs] at h
    cases hr : ctl.cluster.removeNode with
    | error e => rw [hr] at h; exact absurd h (by simp)
    | ok p =>
      obtain ⟨c2, d2⟩ := p
      rw [hr] at h
      simp only [Except.ok.injEq, Prod.mk.injEq] at h
      exact ⟨by rw [← h.1], Or.inr ⟨hc, by rw [← h.1]⟩⟩
  · rw [hs] at h
    simp only [Except.ok.injEq, Prod.mk.injEq] at h
    exact ⟨by rw [← h.1], Or.inl ⟨h.1.symm, h.2.symm⟩⟩

/-- Logged calls are pairwise separated by the cooldown, and the first logged
call comes at least `cool` after the initial `last`. -/
theorem stepsLog_chain : ∀ (ts : List (Int × Int)) (ctl ctl' : Controller)
    (log : List (Int × Int)), stepsLog ctl ts = .ok (ctl', log) →
    List.Chain (fun a b => ctl.cool ≤ b.1 - a.2) (ctl.last, ctl.last) log := by
  intro ts
  induction ts with
  | nil =>
    intro ctl ctl' log h
    simp only [stepsLog, Except.ok.injEq, Prod.mk.injEq] at h
    rw [← h.2]
    exact List.Chain.nil
  | cons t ts ih =>
    intro ctl ctl' log h
    unfold stepsLog at h
    cases hs : ctl.Step t.1 t.2 with
    | error e => rw [hs] at h; exact absurd h (by simp)
    | ok p =>
      obtain ⟨ctl1, d⟩ := p
      rw [hs] at h
      simp only at h
      cases hr : stepsLog ctl1 ts with
      | error e => rw [hr] at h; exact absurd h (by simp)
      | ok p2 =>
        obtain ⟨ctl2, log2⟩ := p2
        rw [hr] at h
        simp only [Except.ok.injEq, Prod.mk.injEq] at h
        have hrec := ih ctl1 ctl2 log2 hr
        obtain ⟨hcool, hcase⟩ := Step_last ctl ctl1 t.1 t.2 d hs
        rw [hcool] at hrec
        rw [← h.2]
        by_cases hl : ctl1.last = ctl.last
        · rw [if_pos hl]
          rw [hl] at hrec
          exact hrec
        · rw [if_neg hl]
          rcases hcase with ⟨rfl, _⟩ | ⟨hc, hlast⟩
          · exact absurd rfl hl
          · rw [hlast] at hrec
            refine List.Chain.cons hc ?_
            cases log2 with
            | nil => exact List.Chain.nil
            | cons b rest =>
              rw [List.chain_cons] at hrec ⊢
              exact ⟨hrec.1, hrec.2⟩

theorem exIdle_lat : exIdle.cluster.estimateLat = 100 := by
  norm_num [exIdle, NewController, Cluster.estimateLat, NewCluster, NewNode, List.range,
    List.range.loop]

theorem exIdle_need : needOf exIdle.pred.Forecast.1 exIdle.cluster.Nodes.length ≤ 0 := by
  have h3 : (3 : Int).toNat = 3 := rfl
  unfold needOf
  rw [Int.ceil_le]
  norm_num [exIdle, NewController, NewCluster, NewPredictor, Predictor.Forecast, h3]

theorem exBusy_need : needOf exBusy.pred.Forecast.1 exBusy.cluster.Nodes.length = 3 := by
  have h3 : (3 : Int).toNat = 3 := rfl
  unfold needOf
  rw [Int.ceil_eq_iff]
  norm_num [exBusy, NewController, NewCluster, NewPredictor, Predictor.Forecast,
    Predictor.Observe, h3]

theorem exIdle_step : exIdle.Step 2000000000 2000000001 =
    .ok ({ exIdle with
            cluster := { exIdle.cluster with Nodes := [NewNode 1 8, NewNode 2 8] }
            last := 2000000001 }, some ⟨3, 8, 0, ⟨[], true⟩⟩) := by
  obtain ⟨pre, n, hn, hs⟩ := Step_in exIdle 2000000000 2000000001 (by decide)
    (by rw [exIdle_lat]; norm_num [exIdle, NewController]) exIdle_need
    (by rw [exIdle_lat]; norm_num [exIdle, NewController]) (by decide) (by decide) (by decide)
  have h2 : exIdle.cluster.Nodes = [NewNode 1 8, NewNode 2 8] ++ [NewNode 3 8] := by decide
  rw [h2] at hn
  obtain ⟨hp, hl⟩ := List.append_inj' hn rfl
  simp only [List.cons.injEq, and_true] at hl
  rw [hs, ← hp, ← hl]
  rfl

/-! ## Predictor -/

theorem Observe_of_init (p : Predictor) (v : Int) (h : p.init = true) :
    p.Observe v = { p with ema := p.alpha * (v : ℚ) + (1 - p.alpha) * p.ema } := by
  simp [Predictor.Observe, h]

theorem Observe_of_fresh (p : Predictor) (v : Int) (h : p.init = false) :
    p.Observe v = { p with ema := (v : ℚ), init := true } := by
  simp [Predictor.Observe, h]

theorem observeN_ema (a : ℚ) (v0 v : Int) (n : Nat) :
    (observeN ((NewPredictor a).Observe v0) v n).ema - (v : ℚ) =
      (1 - a) ^ n * ((v0 : ℚ) - (v : ℚ)) ∧
    (observeN ((NewPredictor a).Observe v0) v n).init = true ∧
    (observeN ((NewPredictor a).Observe v0) v n).alpha = a := by
  induction n with
  | zero => simp [observeN, NewPredictor, Predictor.Observe]
  | succ n ih =>
    obtain ⟨h1, h2, h3⟩ := ih
    have hstep : observeN ((NewPredictor a).Observe v0) v (n + 1) =
        (observeN ((NewPredictor a).Observe v0) v n).Observe v := rfl
    rw [hstep]
    generalize observeN ((NewPredictor a).Observe v0) v n = q at h1 h2 h3 ⊢
    rw [Observe_of_init q v h2]
    refine ⟨?_, h2, h3⟩
    simp only
    rw [h3]
    have he : q.ema = (1 - a) ^ n * ((v0 : ℚ) - (v : ℚ)) + (v : ℚ) := by linarith
    rw [he]
    ring

/-! ## Invariants of the cluster operations -/

/-- The operating invariants are established by `NewCluster` and preserved by
`addNode`, `removeNode`, a dispatch attempt and `Controller.Step`. -/
theorem operating_invariant :
    (∀ initN cap minN maxN : Int, (NewCluster initN cap minN maxN).Operating) ∧
    (∀ c : Cluster, c.Operating → c.addNode.Operating) ∧
    (∀ (c c' : Cluster) (d : Option Node), c.Operating → c.removeNode = .ok (c', d) →
      c'.Operating) ∧
    (∀ (c c' : Cluster) (j : Job) (r : Option Job), c.Operating →
      c.dispatchJob j = .ok (c', r) → c'.Operating) ∧
    (∀ (ctl ctl' : Controller) (t0 t1 : Int) (d : Option Node), ctl.cluster.Operating →
      ctl.Step t0 t1 = .ok (ctl', d) → ctl'.cluster.Operating) := by
  have hadd : ∀ c : Cluster, c.Operating → c.addNode.Operating := by
    intro c hc
    by_cases hlt : (c.Nodes.length : Int) < c.max
    · rw [addNode_of_lt c hlt]
      refine ⟨hc.1, ?_⟩
      intro n hn
      rcases List.mem_append.mp hn with hn | hn
      · exact hc.2 n hn
      · rw [List.mem_singleton] at hn
        rw [hn]
        rfl
    · rw [addNode_of_ge c (by omega)]
      exact hc
  have hadds : ∀ (k : Nat) (c : Cluster), c.Operating → (addNodes k c).Operating := by
    intro k
    induction k with
    | zero => intro c hc; exact hc
    | succ k ih => intro c hc; exact ih c.addNode (hadd c hc)
  have hrem : ∀ (c c' : Cluster) (d : Option Node), c.Operating →
      c.removeNode = .ok (c', d) → c'.Operating := by
    intro c c' d hc h
    rcases removeNode_ok c c' d h with ⟨rfl, _, _⟩ | ⟨pre, n, hn, rfl, _, _⟩
    · exact hc
    · refine ⟨hc.1, ?_⟩
      intro m hm
      exact hc.2 m (by rw [hn]; exact List.mem_append_left _ hm)
  refine ⟨?_, hadd, hrem, ?_, ?_⟩
  · intro initN cap minN maxN
    refine ⟨le_refl _, ?_⟩
    intro n hn
    simp only [NewCluster, List.mem_map] at hn
    obtain ⟨i, _, rfl⟩ := hn
    rfl
  · intro c c' j r hc h
    rcases dispatchJob_trace c c' j r h with ⟨rfl, _, _⟩ | ⟨best, a, n, _, _, hb, _, hcl, rfl, _⟩
    · exact hc
    · refine ⟨Int.tmod_nonneg _ (by omega), ?_⟩
      intro m hm
      rcases List.mem_or_eq_of_mem_set hm with hm | rfl
      · exact hc.2 m hm
      · exact hcl
  · intro ctl ctl' t0 t1 d hc h
    rcases Step_cases ctl t0 t1 with ⟨_, hs⟩ | ⟨_, _, hs⟩ | ⟨_, _, _, hs⟩ | ⟨_, _, _, hs⟩
    · rw [hs] at h
      simp only [Except.ok.injEq, Prod.mk.injEq] at h
      rw [← h.1]; exact hc
    · rw [hs] at h
      simp only [Except.ok.injEq, Prod.mk.injEq] at h
      rw [← h.1]
      exact hadds _ _ hc
    · rw [hs] at h
      cases hr : ctl.cluster.removeNode with
      | error e => rw [hr] at h; exact absurd h (by simp)
      | ok p =>
        obtain ⟨c2, d2⟩ := p
        rw [hr] at h
        simp only [Except.ok.injEq, Prod.mk.injEq] at h
        rw [← h.1]
        exact hrem ctl.cluster c2 d2 hc hr
    · rw [hs] at h
      simp only [Except.ok.injEq, Prod.mk.injEq] at h
      rw [← h.1]; exact hc

/-! ## Steps in floating point -/

/-- Case analysis of `ControllerF.Step` along its four exits. -/
theorem StepF_cases {F : Type} (fl : F64Ops F) (ctl : ControllerF F) (t0 t1 : Int) :
    (t0 - ctl.last < ctl.cool ∧ ControllerF.Step fl ctl t0 t1 = .ok (ctl, none)) ∨
    (ctl.cool ≤ t0 - ctl.last ∧
      (fl.gt (ctl.cluster.estimateLatF fl) ctl.target = true ∨
        fl.ceilInt (fl.div (fl.sub ctl.pred.Forecast.1
          (fl.mul (fl.ofInt (ctl.cluster.Nodes.length : Int)) (fl.lit 1.5))) (fl.lit 2.0)) > 0) ∧
      ControllerF.Step fl ctl t0 t1 =
        .ok ({ ctl with
                cluster := addNodes
                  (Max.max (fl.ceilInt (fl.div (fl.sub ctl.pred.Forecast.1
                    (fl.mul (fl.ofInt (ctl.cluster.Nodes.length : Int)) (fl.lit 1.5)))
                    (fl.lit 2.0))) 1).toNat
                  ctl.cluster
                last := t1 }, none)) ∨
    (ctl.cool ≤ t0 - ctl.last ∧
      ¬ (fl.gt (ctl.cluster.estimateLatF fl) ctl.target = true ∨
        fl.ceilInt (fl.div (fl.sub ctl.pred.Forecast.1
          (fl.mul (fl.ofInt (ctl.cluster.Nodes.length : Int)) (fl.lit 1.5))) (fl.lit 2.0)) > 0) ∧
      (fl.lt (ctl.cluster.estimateLatF fl) (fl.mul ctl.target (fl.lit 0.6)) = true ∧
        (ctl.cluster.Nodes.length : Int) > ctl.cluster.min) ∧
      ControllerF.Step fl ctl t0 t1 =
        match ctl.cluster.removeNode with
        | .error e => .error e
        | .ok (c, d) => .ok ({ ctl with cluster := c, last := t1 }, d)) ∨
    (ctl.cool ≤ t0 - ctl.last ∧
      ¬ (fl.gt (ctl.cluster.estimateLatF fl) ctl.target = true ∨
        fl.ceilInt (fl.div (fl.sub ctl.pred.Forecast.1
          (fl.mul (fl.ofInt (ctl.cluster.Nodes.length : Int)) (fl.lit 1.5))) (fl.lit 2.0)) > 0) ∧
      ¬ (fl.lt (ctl.cluster.estimateLatF fl) (fl.mul ctl.target (fl.lit 0.6)) = true ∧
        (ctl.cluster.Nodes.length : Int) > ctl.cluster.min) ∧
      ControllerF.Step fl ctl t0 t1 = .ok (ctl, none)) := by
  by_cases hcool : t0 - ctl.last < ctl.cool
  · left
    exact ⟨hcool, by unfold ControllerF.Step; rw [if_pos hcool]⟩
  · right
    by_cases hout : fl.gt (ctl.cluster.estimateLatF fl) ctl.target = true ∨
        fl.ceilInt (fl.div (fl.sub ctl.pred.Forecast.1
          (fl.mul (fl.ofInt (ctl.cluster.Nodes.length : Int)) (fl.lit 1.5))) (fl.lit 2.0)) > 0
    · left
      refine ⟨by omega, hout, ?_⟩
      unfold ControllerF.Step
      rw [if_neg hcool]
      simp only [hout, if_true]
      by_cases h1 : fl.ceilInt (fl.div (fl.sub ctl.pred.Forecast.1
          (fl.mul (fl.ofInt (ctl.cluster.Nodes.length : Int)) (fl.lit 1.5))) (fl.lit 2.0)) < 1
      · rw [if_pos h1, max_eq_right (by omega)]
      · rw [if_neg h1, max_eq_left (by omega)]
    · right
      by_cases hin : fl.lt (ctl.cluster.estimateLatF fl) (fl.mul ctl.target (fl.lit 0.6)) = true ∧
          (ctl.cluster.Nodes.length : Int) > ctl.cluster.min
      · left
        refine ⟨by omega, hout, hin, ?_⟩
        unfold ControllerF.Step
        rw [if_neg hcool]
        simp only [hout, if_false, hin, and_self, if_true]
      · right
        refine ⟨by omega, hout, hin, ?_⟩
        unfold ControllerF.Step
        rw [if_neg hcool]
        simp only [hout, if_false, hin]

/-- Reference values of binary64 arithmetic: `0.1 + 0.2` is 0.30000000000000004
and not the constant `0.3`; `1/3`; the ties `2^53 + 1` and `2^53 + 3` go to the
even neighbours `2^53` and `2^53 + 4`; the largest finite value doubled is
infinite; `1/0`, `-1/0` and `0/0`; NaN compares false; `int(math.Ceil(-4.5))`. -/
theorem ieee_reference_values :
    ieee.add (ieee.lit 0.1) (ieee.lit 0.2) = .fin false 5404319552844596 (-54) ∧
    ieee.lit 0.3 = .fin false 5404319552844595 (-54) ∧
    ieee.div (ieee.ofInt 1) (ieee.ofInt 3) = .fin false 6004799503160661 (-54) ∧
    ieee.ofInt (2 ^ 53 + 1) = .fin false 4503599627370496 1 ∧
    ieee.ofInt (2 ^ 53 + 3) = .fin false 4503599627370498 1 ∧
    ieee.add (.fin false 9007199254740991 971) (.fin false 9007199254740991 971) = .inf false ∧
    ieee.div (ieee.ofInt 1) (ieee.ofInt 0) = .inf false ∧
    ieee.div (ieee.ofInt (-1)) (ieee.ofInt 0) = .inf true ∧
    ieee.div (ieee.ofInt 0) (ieee.ofInt 0) = .nan ∧
    ieee.lt .nan (ieee.ofInt 1) = false ∧ ieee.gt .nan (ieee.ofInt 1) = false ∧
    ieee.ceilInt (ieee.lit (-4.5)) = -4 := by
  decide!

/-- For binary64 values, `a < b*c` together with the failure of `a > b` gives
`a <= b`: the first comparison excludes NaN on either side. -/
theorem F64.le_of_lt_mul (a b c : F64) (h : F64.lt a (F64.mul b c) = true)
    (hgt : F64.lt b a = false) : F64.le a b = true := by
  cases a with
  | nan => simp [F64.lt] at h
  | inf s =>
    cases b with
    | nan => simp [F64.mul, F64.lt] at h
    | inf t =>
      simp only [F64.lt, F64.le] at hgt ⊢
      cases s <;> cases t <;> simp_all
    | fin t n f =>
      simp only [F64.lt, F64.le] at hgt ⊢
      simpa using hgt
  | fin s m e =>
    cases b with
    | nan => simp [F64.mul, F64.lt] at h
    | inf t =>
      simp only [F64.lt, F64.le] at hgt ⊢
      simpa using hgt
    | fin t n f =>
      simp only [F64.lt, F64.le, decide_eq_false_iff_not, not_lt, decide_eq_true_eq] at hgt ⊢
      exact hgt

/-- For binary64 values, `a <= b` excludes `a > b`. -/
theorem F64.not_gt_of_le (a b : F64) (h : F64.le a b = true) : F64.lt b a = false := by
  cases a with
  | nan => simp [F64.le] at h
  | inf s =>
    cases b with
    | nan => simp [F64.le] at h
    | inf t =>
      simp only [F64.lt, F64.le] at h ⊢
      cases s <;> cases t <;> simp_all
    | fin t n f =>
      simp only [F64.lt, F64.le] at h ⊢
      simpa using h
  | fin s m e =>
    cases b with
    | nan => simp [F64.le] at h
    | inf t =>
      simp only [F64.lt, F64.le] at h ⊢
      simpa using h
    | fin t n f =>
      simp only [F64.lt, F64.le, decide_eq_false_iff_not, not_lt, decide_eq_true_eq] at h ⊢
      exact h

/-- The leading-bit position computed with enough fuel brackets its argument. -/
theorem log2Fuel_spec : ∀ (fuel n : Nat), 0 < n → n ≤ fuel →
    2 ^ log2Fuel fuel n ≤ n ∧ n < 2 ^ (log2Fuel fuel n + 1) := by
  intro fuel
  induction fuel with
  | zero => intro n h0 h1; omega
  | succ k ih =>
    intro n h0 h1
    unfold log2Fuel
    by_cases h2 : n < 2
    · rw [if_pos h2]
      have : n = 1 := by omega
      subst this
      norm_num
    · rw [if_neg h2]
      obtain ⟨ha, hb⟩ := ih (n / 2) (by omega) (by omega)
      rw [pow_succ] at hb
      constructor
      · rw [pow_succ]; omega
      · rw [pow_succ, pow_succ]; omega

/-- The leading-bit position brackets its argument. -/
theorem ilog2_spec (n : Nat) (h : 0 < n) : 2 ^ ilog2 n ≤ n ∧ n < 2 ^ (ilog2 n + 1) :=
  log2Fuel_spec n n h (le_refl n)


/-- The leading bit of 1 is bit 0. -/
theorem ilog2_one : ilog2 1 = 0 := by decide

/-- Rounding a positive integer below `2^53` only normalises it. -/
theorem round_nat_small (s : Bool) (n : Nat) (h0 : n ≠ 0) (hL : ilog2 n ≤ 52) :
    F64.round s n 1 = .fin s (n * 2 ^ (52 - ilog2 n)) ((ilog2 n : Int) - 52) := by
  obtain ⟨ha, hb⟩ := ilog2_spec n (Nat.pos_of_ne_zero h0)
  unfold F64.round
  rw [if_neg h0]
  simp only [ilog2_one, Nat.cast_zero, sub_zero, Int.toNat_ofNat, neg_nonpos, Nat.cast_nonneg,
    Int.toNat_of_nonpos, pow_zero, mul_one, one_mul, ha, if_true]
  have he : Max.max ((ilog2 n : Int) - 52) (-1074) = (ilog2 n : Int) - 52 := by
    apply max_eq_left; omega
  rw [he]
  have h1 : (-((ilog2 n : Int) - 52)).toNat = 52 - ilog2 n := by omega
  have h2 : ((ilog2 n : Int) - 52).toNat = 0 := by omega
  rw [h1, h2]
  have hlt : n * 2 ^ (52 - ilog2 n) < 2 ^ 53 := by
    have : 2 ^ (ilog2 n + 1) * 2 ^ (52 - ilog2 n) = 2 ^ 53 := by
      rw [← pow_add]; congr 1; omega
    calc n * 2 ^ (52 - ilog2 n) < 2 ^ (ilog2 n + 1) * 2 ^ (52 - ilog2 n) :=
          Nat.mul_lt_mul_of_pos_right hb (by positivity)
      _ = 2 ^ 53 := this
  simp only [pow_zero, Nat.div_one, Nat.mod_one, mul_zero, Nat.lt_one_iff, if_true, zero_lt_one]
  rw [if_neg (by omega), if_neg (by omega)]


/-- Rounding an integer of magnitude at most `2^53` is exact. -/
theorem round_nat_exact (s : Bool) (n : Nat) (h : n ≤ 2 ^ 53) :
    F64.toRat (F64.round s n 1) = (if s then -1 else 1) * (n : ℚ) := by
  by_cases h0 : n = 0
  · subst h0
    simp [F64.round, F64.toRat]
  · by_cases h53 : n = 2 ^ 53
    · subst h53
      have : F64.round s (2 ^ 53) 1 = .fin s (2 ^ 52) 1 := by cases s <;> decide
      rw [this]
      simp only [F64.toRat]
      norm_num
    · obtain ⟨ha, _⟩ := ilog2_spec n (Nat.pos_of_ne_zero h0)
      have hL : ilog2 n ≤ 52 := by
        by_contra hc
        have : 2 ^ 53 ≤ 2 ^ ilog2 n := Nat.pow_le_pow_right (by decide) (by omega)
        omega
      rw [round_nat_small s n h0 hL]
      simp only [F64.toRat, Nat.cast_mul, Nat.cast_pow, Nat.cast_ofNat]
      have hz : (2 : ℚ) ^ (52 - ilog2 n) * (2 : ℚ) ^ ((ilog2 n : Int) - 52) = 1 := by
        rw [← zpow_natCast, ← zpow_add₀ (by norm_num)]
        have : (((52 - ilog2 n : Nat) : Int) + ((ilog2 n : Int) - 52)) = 0 := by omega
        rw [this, zpow_zero]
      rw [mul_assoc, mul_assoc, hz, mul_one]

/-- Conversion of an `int` of magnitude at most `2^53` to binary64 is exact. -/
theorem ieee_ofInt_exact (v : Int) (h : |v| ≤ 2 ^ 53) : F64.toRat (ieee.ofInt v) = (v : ℚ) := by
  have hn : v.natAbs ≤ 2 ^ 53 := by
    have := Int.natCast_natAbs v
    omega
  show F64.toRat (F64.round (decide (v < 0)) v.natAbs 1) = (v : ℚ)
  rw [round_nat_exact _ _ hn]
  obtain ⟨n, rfl | rfl⟩ := Int.eq_nat_or_neg v
  · have h1 : ¬ ((n : Int) < 0) := by omega
    simp [h1]
  · by_cases hz : n = 0
    · subst hz; simp
    · have h1 : (-(n : Int)) < 0 := by omega
      simp [h1]

/-! ## The exact reading as an instance of the floating-point reading -/

/-- A left fold that adds one term per node is the sum of the terms. -/
theorem foldl_add_eq_sum (f : Node → ℚ) (l : List Node) (a : ℚ) :
    l.foldl (fun t n => t + f n) a = a + (l.map f).sum := by
  induction l generalizing a with
  | nil => simp
  | cons x xs ih =>
    simp only [List.foldl_cons, List.map_cons, List.sum_cons]
    rw [ih]
    ring

/-- Over `exactOps` the latency estimate is the exact one. -/
theorem estimateLatF_exact (c : Cluster) : c.estimateLatF exactOps = c.estimateLat := by
  unfold Cluster.estimateLatF Cluster.estimateLat
  by_cases h : c.Nodes.length = 0
  · rw [if_pos h, if_pos h]; rfl
  · rw [if_neg h, if_neg h]
    simp only [exactOps]
    rw [foldl_add_eq_sum]
    norm_num

/-- Over `exactOps` an observation is the exact one. -/
theorem toF_Observe (p : Predictor) (v : Int) :
    PredictorF.Observe exactOps p.toF v = (p.Observe v).toF := by
  unfold PredictorF.Observe Predictor.Observe Predictor.toF
  cases h : p.init <;> simp [exactOps]

/-- Over `exactOps` a controller step is the exact one. -/
theorem toF_Step (ctl : Controller) (t0 t1 : Int) :
    ControllerF.Step exactOps ctl.toF t0 t1 =
      match ctl.Step t0 t1 with
      | .error e => .error e
      | .ok (c, d) => .ok (c.toF, d) := by
  have hlat : ctl.toF.cluster.estimateLatF exactOps = ctl.cluster.estimateLat :=
    estimateLatF_exact ctl.cluster
  have hneed : exactOps.ceilInt (exactOps.div (exactOps.sub ctl.toF.pred.Forecast.1
      (exactOps.mul (exactOps.ofInt (ctl.toF.cluster.Nodes.length : Int)) (exactOps.lit 1.5)))
      (exactOps.lit 2.0)) = needOf ctl.pred.Forecast.1 ctl.cluster.Nodes.length := by
    simp [exactOps, needOf, Controller.toF, Predictor.toF, PredictorF.Forecast,
      Predictor.Forecast]
  have hgt : (exactOps.gt (ctl.toF.cluster.estimateLatF exactOps) ctl.toF.target = true) ↔
      ctl.cluster.estimateLat > ctl.target := by
    rw [hlat]; simp [exactOps, Controller.toF]
  have hlt : (exactOps.lt (ctl.toF.cluster.estimateLatF exactOps)
      (exactOps.mul ctl.toF.target (exactOps.lit 0.6)) = true) ↔
      ctl.cluster.estimateLat < ctl.target * 0.6 := by
    rw [hlat]; simp [exactOps, Controller.toF]
  have hF := StepF_cases exactOps ctl.toF t0 t1
  rw [hgt, hlt, hneed] at hF
  have hlast : ctl.toF.last = ctl.last := rfl
  have hcool : ctl.toF.cool = ctl.cool := rfl
  have hcl : ctl.toF.cluster = ctl.cluster := rfl
  rw [hlast, hcool, hcl] at hF
  rcases Step_cases ctl t0 t1 with ⟨hc, hs⟩ | ⟨hc, ho, hs⟩ | ⟨hc, ho, hi, hs⟩ | ⟨hc, ho, hi, hs⟩
  · rcases hF with ⟨_, hf⟩ | ⟨h, _⟩ | ⟨h, _⟩ | ⟨h, _⟩
    · rw [hf, hs]
    · omega
    · omega
    · omega
  · rcases hF with ⟨h, _⟩ | ⟨_, _, hf⟩ | ⟨_, h, _⟩ | ⟨_, h, _⟩
    · omega
    · rw [hf, hs]; rfl
    · exact absurd ho h
    · exact absurd ho h
  · rcases hF with ⟨h, _⟩ | ⟨_, h, _⟩ | ⟨_, _, _, hf⟩ | ⟨_, _, h, _⟩
    · omega
    · exact absurd h ho
    · rw [hf, hs]
      cases ctl.cluster.removeNode with
      | error e => rfl
      | ok p => rfl
    · exact absurd hi h
  · rcases hF with ⟨h, _⟩ | ⟨_, h, _⟩ | ⟨_, _, h, _⟩ | ⟨_, _, _, hf⟩
    · omega
    · exact absurd h ho
    · exact absurd h hi
    · rw [hf, hs]

/-! ## Main theorems -/

/-- C1. Best fit among sufficient nodes with round-robin tie-break: for a
non-empty node list, a cursor `rr ≥ 0` and a job of cost `jC ≥ 1` the scan
returns, and if it picks index `best` then that node has
`Cap - Used ≥ jC`, no node with `Cap - Used ≥ jC` has a larger `Cap - Used`,
and `best` is the first position of the scan order
`(start + 0) % len, (start + 1) % len, ...` (with `start = rr % len`) whose
node has that value of `Cap - Used`. -/
theorem dispatcher_best_fit (nodes : List Node) (rr jC : Int)
    (hne : nodes ≠ []) (hrr : 0 ≤ rr) (hC : 1 ≤ jC) :
    ∃ best bestAvail, scan nodes rr jC = .ok (best, bestAvail) ∧
      (0 ≤ best →
        ∃ nw, nodeAt nodes best = .ok nw ∧ bestAvail = nw.Cap - nw.Used ∧
          jC ≤ nw.Cap - nw.Used ∧
          (∀ m ∈ nodes, jC ≤ m.Cap - m.Used → m.Cap - m.Used ≤ nw.Cap - nw.Used) ∧
          ∃ p, p < nodes.length ∧
            best = Int.tmod (Int.tmod rr (nodes.length : Int) + (p : Int)) (nodes.length : Int) ∧
            ∀ q, q < p →
              ∃ nq, nodeAt nodes
                  (Int.tmod (Int.tmod rr (nodes.length : Int) + (q : Int)) (nodes.length : Int))
                    = .ok nq ∧
                nq.Cap - nq.Used ≠ nw.Cap - nw.Used) := by
  have hlen : 0 < nodes.length := List.length_pos.mpr hne
  obtain ⟨r, rfl⟩ := Int.eq_ofNat_of_zero_le hrr
  obtain ⟨b, a, hscan, hinv⟩ := scan_spec nodes r jC hC hlen
  refine ⟨b, a, hscan, ?_⟩
  intro hb
  rcases hinv with ⟨hb1, _, _⟩ | ⟨p, hp, hbp, hap, hjc, hall, hfirst⟩
  · omega
  · obtain ⟨nw, hnw, hav⟩ := nodeAt_scanIdx nodes (r % nodes.length) p hlen
    rw [scanIdx_natCast] at hnw
    have hav2 : scanAvail nodes (r % nodes.length) p = nw.Cap - nw.Used := hav.symm
    refine ⟨nw, by rw [hbp]; exact hnw, by rw [← hav2]; exact hap,
      by rw [← hav2, ← hap]; exact hjc, ?_, ?_⟩
    · intro m hm _
      obtain ⟨q, hq, hqa⟩ := scanAvail_surj nodes (r % nodes.length) (Nat.mod_lt _ hlen) m hm
      have hqa2 : scanAvail nodes (r % nodes.length) q = m.Cap - m.Used := hqa
      have := hall q hq
      rw [← hav2, ← hap, ← hqa2]; exact this
    · refine ⟨p, hp, ?_, ?_⟩
      · have h1 := scanIdx_natCast nodes (r % nodes.length) p
        unfold scanIdx at h1
        rw [tmod_natCast, h1]; exact hbp
      · intro q hq
        obtain ⟨nq, hnq, hqa⟩ := nodeAt_scanIdx nodes (r % nodes.length) q hlen
        have hqa2 : scanAvail nodes (r % nodes.length) q = nq.Cap - nq.Used := hqa.symm
        unfold scanIdx at hnq
        refine ⟨nq, by rw [tmod_natCast]; exact hnq, ?_⟩
        have := hfirst q hq
        rw [← hqa2, ← hav2, ← hap]; omega

/-- Witness for C1: nodes with `(Cap, Used)` = (8, 3), (8, 0), (8, 0) and
cursor 0; the scan visits indices 0, 1, 2, passes over index 0 (five free
units) and keeps index 1 (eight free units), so the node in use loses to the
idle one although all capacities are equal. -/
theorem dispatcher_best_fit_witness :
    scan exNodes 0 1 = .ok (1, 8) ∧
    (∃ n0, nodeAt exNodes 0 = .ok n0 ∧ n0.Cap = 8 ∧ n0.Used = 3) ∧
    ∃ best bestAvail, scan exNodes 0 1 = .ok (best, bestAvail) ∧
      (0 ≤ best →
        ∃ nw, nodeAt exNodes best = .ok nw ∧ bestAvail = nw.Cap - nw.Used ∧
          (1 : Int) ≤ nw.Cap - nw.Used ∧
          ∀ m ∈ exNodes, (1 : Int) ≤ m.Cap - m.Used → m.Cap - m.Used ≤ nw.Cap - nw.Used) := by
  refine ⟨by rfl, ⟨_, rfl, rfl, rfl⟩, ?_⟩
  obtain ⟨best, bestAvail, hs, h⟩ :=
    dispatcher_best_fit exNodes 0 1 (by decide) (by decide) (by decide)
  refine ⟨best, bestAvail, hs, fun hb => ?_⟩
  obtain ⟨nw, hnw, ha, hj, hmax, _⟩ := h hb
  exact ⟨nw, hnw, ha, hj, hmax⟩

/-- C2. A dispatch attempt places the job exactly when some current node has
`Cap - Used ≥ job.C`, for every job of cost at least 1: every returning attempt
reports "assigned" iff a node qualifies; if assigned, the job was appended to
the mailbox of a qualifying node and the cursor moved behind it; if not, the
cluster (membership, cursor, every mailbox) is unchanged and the job is handed
to the requeue goroutine.  The attempt returns in every cluster whose cursor is
non-negative and whose member mailboxes are open, and in the empty cluster. -/
theorem dispatch_places_iff (c : Cluster) (j : Job) (hC : 1 ≤ j.C) :
    (∀ (c' : Cluster) (r : Option Job), c.dispatchJob j = .ok (c', r) →
      (r = none ↔ ∃ n ∈ c.Nodes, j.C ≤ n.avail) ∧
      (r = none →
        ∃ (w : Nat) (nw : Node), c.Nodes[w]? = some nw ∧ j.C ≤ nw.avail ∧
          c' = { c with
                  Nodes := c.Nodes.set w
                    { nw with Ch := { nw.Ch with buf := nw.Ch.buf ++ [j] } }
                  rr := Int.tmod ((w : Int) + 1) (c.Nodes.length : Int) }) ∧
      (r ≠ none → r = some j ∧ c' = c)) ∧
    (0 ≤ c.rr → (∀ n ∈ c.Nodes, n.Ch.closed = false) →
      ∃ c' r, c.dispatchJob j = .ok (c', r)) ∧
    (c.Nodes = [] → c.dispatchJob j = .ok (c, some j)) := by
  refine ⟨?_, fun hrr hopen => dispatchJob_total c j hC hrr hopen, ?_⟩
  · intro c' r h
    rcases dispatchJob_sound c c' j r hC h with
      ⟨hq, hr, w, nw, hget, hj, _, hc⟩ | ⟨hnq, hr, hc⟩
    · refine ⟨⟨fun _ => hq, fun _ => hr⟩, fun _ => ⟨w, nw, hget, hj, hc⟩, fun hne => absurd hr hne⟩
    · refine ⟨⟨fun hn => ?_, fun hq => absurd hq hnq⟩, fun hn => ?_, fun _ => ⟨hr, hc⟩⟩
      · rw [hr] at hn
        exact absurd hn (by simp)
      · rw [hr] at hn
        exact absurd hn (by simp)
  · intro hnil
    unfold Cluster.dispatchJob
    rw [if_neg (by rw [hnil]; simp)]

/-- Witness for C2: the example cluster and a job of cost 1; node 2 is the first
node with the largest free capacity. -/
theorem dispatch_places_iff_witness :
    exCluster.dispatchJob ⟨7, 300, 1⟩ =
      .ok ({ exCluster with
              Nodes := [⟨1, 8, 3, Chan.make⟩, ⟨2, 8, 0, ⟨[⟨7, 300, 1⟩], false⟩⟩,
                ⟨3, 8, 0, Chan.make⟩]
              rr := 2 }, none) ∧
    ∃ n ∈ exCluster.Nodes, (1 : Int) ≤ n.avail :=
  ⟨by rfl,
    ((dispatch_places_iff exCluster ⟨7, 300, 1⟩ (by decide)).1 _ none (by rfl)).1.mp rfl⟩

/-- C3. The cluster-size bound is an invariant: `NewCluster` with a
non-negative node count `min ≤ initN ≤ max` establishes `min ≤ |Nodes| ≤ max`,
and `addNode`, `removeNode`, `Controller.Step` and a dispatch attempt preserve
it; in particular a cluster built with `initN = 5`, `min = 5` has five nodes and
`removeNode` leaves it at five. -/
theorem cluster_size_bound :
    (∀ initN cap minN maxN : Int, 0 ≤ initN → minN ≤ initN → initN ≤ maxN →
      (NewCluster initN cap minN maxN).SizeInv) ∧
    (∀ c : Cluster, c.SizeInv → c.addNode.SizeInv) ∧
    (∀ (c c' : Cluster) (d : Option Node), c.SizeInv → c.removeNode = .ok (c', d) →
      c'.SizeInv) ∧
    (∀ (ctl ctl' : Controller) (t0 t1 : Int) (d : Option Node), ctl.cluster.SizeInv →
      ctl.Step t0 t1 = .ok (ctl', d) → ctl'.cluster.SizeInv) ∧
    (∀ (c c' : Cluster) (j : Job) (r : Option Job), c.SizeInv →
      c.dispatchJob j = .ok (c', r) → c'.SizeInv) ∧
    (∀ cap maxN : Int, 5 ≤ maxN →
      (NewCluster 5 cap 5 maxN).Nodes.length = 5 ∧
      (NewCluster 5 cap 5 maxN).removeNode = .ok (NewCluster 5 cap 5 maxN, none)) := by
  have hadd : ∀ c : Cluster, c.SizeInv → c.addNode.SizeInv := by
    intro c hc
    by_cases hlt : (c.Nodes.length : Int) < c.max
    · rw [addNode_of_lt c hlt]
      unfold Cluster.SizeInv at hc ⊢
      simp only [List.length_append, List.length_cons, List.length_nil, Nat.cast_add,
        Nat.cast_one]
      omega
    · rw [addNode_of_ge c (by omega)]
      exact hc
  have hrem : ∀ (c c' : Cluster) (d : Option Node), c.SizeInv → c.removeNode = .ok (c', d) →
      c'.SizeInv := by
    intro c c' d hc h
    rcases removeNode_ok c c' d h with ⟨rfl, _, _⟩ | ⟨pre, n, hn, rfl, _, hlt⟩
    · exact hc
    · unfold Cluster.SizeInv at hc ⊢
      rw [hn] at hc hlt
      simp only [List.length_append, List.length_cons, List.length_nil, Nat.cast_add,
        Nat.cast_one] at hc hlt
      simp only
      omega
  refine ⟨?_, hadd, hrem, ?_, ?_, ?_⟩
  · intro initN cap minN maxN h0 h1 h2
    unfold Cluster.SizeInv NewCluster
    simp only [List.length_map, List.length_range]
    omega
  · intro ctl ctl' t0 t1 d hc h
    rcases Step_cases ctl t0 t1 with ⟨_, hs⟩ | ⟨_, _, hs⟩ | ⟨_, _, _, hs⟩ | ⟨_, _, _, hs⟩
    · rw [hs] at h
      simp only [Except.ok.injEq, Prod.mk.injEq] at h
      rw [← h.1]; exact hc
    · rw [hs] at h
      simp only [Except.ok.injEq, Prod.mk.injEq] at h
      rw [← h.1]
      obtain ⟨extra, he, hl⟩ := addNodes_spec
        (Max.max (needOf ctl.pred.Forecast.1 ctl.cluster.Nodes.length) 1).toNat ctl.cluster
      simp only
      rw [he]
      unfold Cluster.SizeInv at hc ⊢
      have := hl hc.2
      simp only [List.length_append, Nat.cast_add]
      omega
    · rw [hs] at h
      cases hr : ctl.cluster.removeNode with
      | error e => rw [hr] at h; exact absurd h (by simp)
      | ok p =>
        obtain ⟨c2, d2⟩ := p
        rw [hr] at h
        simp only [Except.ok.injEq, Prod.mk.injEq] at h
        rw [← h.1]
        exact hrem ctl.cluster c2 d2 hc hr
    · rw [hs] at h
      simp only [Except.ok.injEq, Prod.mk.injEq] at h
      rw [← h.1]; exact hc
  · intro c c' j r hc h
    rcases dispatchJob_trace c c' j r h with ⟨rfl, _, _⟩ | ⟨best, a, n, _, _, _, _, _, rfl, _⟩
    · exact hc
    · unfold Cluster.SizeInv at hc ⊢
      simp only [List.length_set]
      exact hc
  · intro cap maxN _
    constructor
    · simp [NewCluster]
    · unfold Cluster.removeNode
      rw [if_pos (by simp [NewCluster])]

/-- Witness for C3: the cluster of `main`, and a five-node cluster at its floor. -/
theorem cluster_size_bound_witness :
    (NewCluster 3 8 1 50).SizeInv ∧ (NewCluster 3 8 1 50).addNode.SizeInv ∧
    (NewCluster 5 8 5 50).Nodes.length = 5 ∧
    (NewCluster 5 8 5 50).removeNode = .ok (NewCluster 5 8 5 50, none) :=
  ⟨cluster_size_bound.1 3 8 1 50 (by decide) (by decide) (by decide),
    cluster_size_bound.2.1 _ (cluster_size_bound.1 3 8 1 50 (by decide) (by decide) (by decide)),
    (cluster_size_bound.2.2.2.2.2 8 50 (by decide)).1,
    (cluster_size_bound.2.2.2.2.2 8 50 (by decide)).2⟩

/-- C4. Scale-out branch of `Controller.Step`, for every implementation `fl` of
the `float64` operations (binary64 among them): once the cooldown has elapsed,
with `n = |Nodes| ≤ max`, `f = Forecast()`, `lat = estimateLat()` and
`need = int(math.Ceil((f - float64(n)*1.5)/2.0))` as the code computes them, if
`lat > target` or `need > 0` then `Step` returns, `|Nodes|` becomes
`min(max, n + max(need, 1))`, the first `n` nodes are the old ones, and `last`
is the clock read by `time.Now` (also when nothing could be added); so with
`lat > target` and `n < max` the cluster grows by at least one node. -/
theorem step_scale_out {F : Type} (fl : F64Ops F) (ctl : ControllerF F) (t0 t1 : Int)
    (hcool : ctl.cool ≤ t0 - ctl.last)
    (hn : (ctl.cluster.Nodes.length : Int) ≤ ctl.cluster.max)
    (hout : fl.gt (ctl.cluster.estimateLatF fl) ctl.target = true ∨
      fl.ceilInt (fl.div (fl.sub ctl.pred.Forecast.1
        (fl.mul (fl.ofInt (ctl.cluster.Nodes.length : Int)) (fl.lit 1.5))) (fl.lit 2.0)) > 0) :
    ∃ ctl', ControllerF.Step fl ctl t0 t1 = .ok (ctl', none) ∧
      (ctl'.cluster.Nodes.length : Int) =
        Min.min ctl.cluster.max
          ((ctl.cluster.Nodes.length : Int) +
            Max.max (fl.ceilInt (fl.div (fl.sub ctl.pred.Forecast.1
              (fl.mul (fl.ofInt (ctl.cluster.Nodes.length : Int)) (fl.lit 1.5)))
              (fl.lit 2.0))) 1) ∧
      ctl'.cluster.Nodes.take ctl.cluster.Nodes.length = ctl.cluster.Nodes ∧
      ctl'.last = t1 ∧
      (fl.gt (ctl.cluster.estimateLatF fl) ctl.target = true →
        (ctl.cluster.Nodes.length : Int) < ctl.cluster.max →
        ctl.cluster.Nodes.length + 1 ≤ ctl'.cluster.Nodes.length) := by
  rcases StepF_cases fl ctl t0 t1 with ⟨h, _⟩ | ⟨_, _, hs⟩ | ⟨_, h, _⟩ | ⟨_, h, _⟩
  · omega
  · obtain ⟨extra, he, hl⟩ := addNodes_spec
      (Max.max (fl.ceilInt (fl.div (fl.sub ctl.pred.Forecast.1
        (fl.mul (fl.ofInt (ctl.cluster.Nodes.length : Int)) (fl.lit 1.5))) (fl.lit 2.0))) 1).toNat
      ctl.cluster
    have hlen := hl hn
    have hcast : (((Max.max (fl.ceilInt (fl.div (fl.sub ctl.pred.Forecast.1
        (fl.mul (fl.ofInt (ctl.cluster.Nodes.length : Int)) (fl.lit 1.5))) (fl.lit 2.0))) 1).toNat
        : Nat) : Int) = Max.max (fl.ceilInt (fl.div (fl.sub ctl.pred.Forecast.1
        (fl.mul (fl.ofInt (ctl.cluster.Nodes.length : Int)) (fl.lit 1.5))) (fl.lit 2.0))) 1 :=
      Int.toNat_of_nonneg (by omega)
    rw [hcast] at hlen
    refine ⟨_, hs, ?_, ?_, rfl, ?_⟩
    · simp only
      rw [he]
      simp only [List.length_append, Nat.cast_add]
      omega
    · simp only
      rw [he]
      simp
    · intro _ hlt
      simp only
      rw [he]
      simp only [List.length_append]
      omega
  · exact absurd hout h
  · exact absurd hout h

/-- Witness for C4, in binary64 arithmetic.  Six nodes of capacity 5 using
0, 1, 2, 3, 3, 1 units: the rounded sum of the quotients makes `lat`
200.00000000000003 (one unit in the last place above the target 200), `need`
is -4, and one node is added.  Three idle nodes after a first observation of
10: `need` is 3 and three nodes are added. -/
theorem step_scale_out_witness :
    (exSix.cluster.estimateLatF ieee = .fin false 7036874417766401 (-45) ∧
      exSix.target = .fin false 7036874417766400 (-45) ∧
      ∃ ctl', ControllerF.Step ieee exSix 2000000000 2000000001 = .ok (ctl', none) ∧
        (ctl'.cluster.Nodes.length : Int) = 7 ∧ ctl'.last = 2000000001) ∧
    (∃ ctl', ControllerF.Step ieee exBusyF 2000000000 2000000001 = .ok (ctl', none) ∧
        (ctl'.cluster.Nodes.length : Int) = 6 ∧ ctl'.last = 2000000001) := by
  have hneed6 : ieee.ceilInt (ieee.div (ieee.sub exSix.pred.Forecast.1
      (ieee.mul (ieee.ofInt (exSix.cluster.Nodes.length : Int)) (ieee.lit 1.5)))
      (ieee.lit 2.0)) = -4 := by decide!
  have hneed3 : ieee.ceilInt (ieee.div (ieee.sub exBusyF.pred.Forecast.1
      (ieee.mul (ieee.ofInt (exBusyF.cluster.Nodes.length : Int)) (ieee.lit 1.5)))
      (ieee.lit 2.0)) = 3 := by decide!
  refine ⟨⟨by decide!, by decide!, ?_⟩, ?_⟩
  · obtain ⟨ctl', hs, hlen, _, hlast, _⟩ :=
      step_scale_out ieee exSix 2000000000 2000000001 (by decide) (by decide)
        (Or.inl (by decide!))
    refine ⟨ctl', hs, ?_, hlast⟩
    rw [hlen, hneed6]
    decide
  · obtain ⟨ctl', hs, hlen, _, hlast, _⟩ :=
      step_scale_out ieee exBusyF 2000000000 2000000001 (by decide) (by decide)
        (Or.inr (by rw [hneed3]; decide))
    refine ⟨ctl', hs, ?_, hlast⟩
    rw [hlen, hneed3]
    decide

/-- C5. Scale-in only below `0.6·target` and never below `min`, for every
implementation `fl` of the `float64` operations (binary64 among them), with
`lat = estimateLat()`, `need = int(math.Ceil((f - float64(n)*1.5)/2.0))` and
the product `target*0.6` as the code computes them.  If a `Step` returns with
fewer nodes, then the cooldown had elapsed, the test `lat > target` failed,
`need ≤ 0`, `lat < target*0.6` and `|Nodes| > min`, exactly the last node was
removed (its mailbox closed) and `last` is the clock read by `time.Now`.
Conversely, under those conditions, in a cluster with a non-negative floor and
open member mailboxes, `Step` does exactly that.  When the cooldown has elapsed
but neither the scale-out nor the scale-in condition holds, `Step` changes
nothing.  In binary64 arithmetic, for a `lat` with `lat < target*0.6` the
failure of `lat > target` is the same as `lat <= target` (neither value is
NaN). -/
theorem step_scale_in {F : Type} (fl : F64Ops F) (ctl : ControllerF F) (t0 t1 : Int) :
    (∀ (ctl' : ControllerF F) (d : Option Node), ControllerF.Step fl ctl t0 t1 = .ok (ctl', d) →
      ctl'.cluster.Nodes.length < ctl.cluster.Nodes.length →
      ctl.cool ≤ t0 - ctl.last ∧
      fl.gt (ctl.cluster.estimateLatF fl) ctl.target = false ∧
      fl.ceilInt (fl.div (fl.sub ctl.pred.Forecast.1
        (fl.mul (fl.ofInt (ctl.cluster.Nodes.length : Int)) (fl.lit 1.5))) (fl.lit 2.0)) ≤ 0 ∧
      fl.lt (ctl.cluster.estimateLatF fl) (fl.mul ctl.target (fl.lit 0.6)) = true ∧
      ctl.cluster.min < (ctl.cluster.Nodes.length : Int) ∧
      ∃ pre n, ctl.cluster.Nodes = pre ++ [n] ∧
        ctl' = { ctl with cluster := { ctl.cluster with Nodes := pre }, last := t1 } ∧
        d = some { n with Ch := { n.Ch with closed := true } }) ∧
    (ctl.cool ≤ t0 - ctl.last →
      fl.gt (ctl.cluster.estimateLatF fl) ctl.target = false →
      fl.ceilInt (fl.div (fl.sub ctl.pred.Forecast.1
        (fl.mul (fl.ofInt (ctl.cluster.Nodes.length : Int)) (fl.lit 1.5))) (fl.lit 2.0)) ≤ 0 →
      fl.lt (ctl.cluster.estimateLatF fl) (fl.mul ctl.target (fl.lit 0.6)) = true →
      ctl.cluster.min < (ctl.cluster.Nodes.length : Int) →
      0 ≤ ctl.cluster.min →
      (∀ n ∈ ctl.cluster.Nodes, n.Ch.closed = false) →
      ∃ pre n, ctl.cluster.Nodes = pre ++ [n] ∧
        ControllerF.Step fl ctl t0 t1 =
          .ok ({ ctl with cluster := { ctl.cluster with Nodes := pre }, last := t1 },
            some { n with Ch := { n.Ch with closed := true } })) ∧
    (ctl.cool ≤ t0 - ctl.last →
      ¬ (fl.gt (ctl.cluster.estimateLatF fl) ctl.target = true ∨
        fl.ceilInt (fl.div (fl.sub ctl.pred.Forecast.1
          (fl.mul (fl.ofInt (ctl.cluster.Nodes.length : Int)) (fl.lit 1.5))) (fl.lit 2.0)) > 0) →
      ¬ (fl.lt (ctl.cluster.estimateLatF fl) (fl.mul ctl.target (fl.lit 0.6)) = true ∧
        ctl.cluster.min < (ctl.cluster.Nodes.length : Int)) →
      ControllerF.Step fl ctl t0 t1 = .ok (ctl, none)) ∧
    (∀ c : ControllerF F64,
      ieee.lt (c.cluster.estimateLatF ieee) (ieee.mul c.target (ieee.lit 0.6)) = true →
      (ieee.gt (c.cluster.estimateLatF ieee) c.target = false ↔
        F64.le (c.cluster.estimateLatF ieee) c.target = true)) := by
  refine ⟨?_, ?_, ?_, ?_⟩
  · intro ctl' d h hlt
    rcases StepF_cases fl ctl t0 t1 with ⟨_, hs⟩ | ⟨_, _, hs⟩ | ⟨hc, hno, hin, hs⟩ | ⟨_, _, _, hs⟩
    · rw [hs] at h
      simp only [Except.ok.injEq, Prod.mk.injEq] at h
      rw [← h.1] at hlt
      omega
    · rw [hs] at h
      simp only [Except.ok.injEq, Prod.mk.injEq] at h
      obtain ⟨extra, he, _⟩ := addNodes_spec
        (Max.max (fl.ceilInt (fl.div (fl.sub ctl.pred.Forecast.1
          (fl.mul (fl.ofInt (ctl.cluster.Nodes.length : Int)) (fl.lit 1.5))) (fl.lit 2.0)))
          1).toNat ctl.cluster
      rw [← h.1] at hlt
      simp only at hlt
      rw [he] at hlt
      simp only [List.length_append] at hlt
      omega
    · rw [hs] at h
      cases hr : ctl.cluster.removeNode with
      | error e => rw [hr] at h; exact absurd h (by simp)
      | ok p =>
        obtain ⟨c2, d2⟩ := p
        rw [hr] at h
        simp only [Except.ok.injEq, Prod.mk.injEq] at h
        rcases removeNode_ok ctl.cluster c2 d2 hr with ⟨rfl, _, _⟩ | ⟨pre, n, hn, rfl, rfl, hgt⟩
        · rw [← h.1] at hlt
          simp only at hlt
          omega
        · push_neg at hno
          exact ⟨hc, by simpa using hno.1, hno.2, hin.1, hgt, pre, n, hn, h.1.symm, h.2.symm⟩
    · rw [hs] at h
      simp only [Except.ok.injEq, Prod.mk.injEq] at h
      rw [← h.1] at hlt
      omega
  · intro hc hlat hneed hlow hgt hmin hopen
    rcases StepF_cases fl ctl t0 t1 with ⟨h, _⟩ | ⟨_, ho, _⟩ | ⟨_, _, _, hs⟩ | ⟨_, _, hni, _⟩
    · omega
    · rcases ho with ho | ho
      · rw [hlat] at ho; exact absurd ho (by decide)
      · omega
    · rcases List.eq_nil_or_concat ctl.cluster.Nodes with hnil | ⟨pre, n, hn⟩
      · rw [hnil] at hgt
        simp only [List.length_nil, Nat.cast_zero] at hgt
        omega
      · rw [List.concat_eq_append] at hn
        refine ⟨pre, n, hn, ?_⟩
        rw [hs, removeNode_snoc ctl.cluster pre n hn hgt (hopen n (by rw [hn]; simp))]
    · exact absurd ⟨hlow, hgt⟩ hni
  · intro hc hno hni
    rcases StepF_cases fl ctl t0 t1 with ⟨h, _⟩ | ⟨_, ho, _⟩ | ⟨_, _, hin, _⟩ | ⟨_, _, _, hs⟩
    · omega
    · exact absurd ho hno
    · exact absurd hin hni
    · exact hs
  · intro c hlow
    exact ⟨fun hgt => F64.le_of_lt_mul _ _ _ hlow hgt, fun hle => F64.not_gt_of_le _ _ hle⟩

/-- Witness for C5, in binary64 arithmetic.  The idle cluster of `main`
(`lat = 100`, `target*0.6 = 120`) loses its third node; with three nodes of
capacity 0 every quotient is `0/0`, `lat` is NaN, both tests fail and `Step`
changes nothing. -/
theorem step_scale_in_witness :
    (∃ pre n, exIdleF.cluster.Nodes = pre ++ [n] ∧
      ControllerF.Step ieee exIdleF 2000000000 2000000001 =
        .ok ({ exIdleF with
                cluster := { exIdleF.cluster with Nodes := pre }
                last := 2000000001 },
          some { n with Ch := { n.Ch with closed := true } })) ∧
    (exZeroCap.cluster.estimateLatF ieee = .nan ∧
      ControllerF.Step ieee exZeroCap 2000000000 2000000001 = .ok (exZeroCap, none)) :=
  ⟨(step_scale_in ieee exIdleF 2000000000 2000000001).2.1 (by decide) (by decide!)
      (by decide!) (by decide!) (by decide) (by decide) (by decide),
    by decide!,
    (step_scale_in ieee exZeroCap 2000000000 2000000001).2.2.1 (by decide) (by decide!)
      (by decide!)⟩

/-- C6. Cooldown, with explicit time: if `now - last < cool` then `Step`
returns and changes nothing; in every run of `Step` calls, any two consecutive
calls that update `last` are at least `cool` apart (the later call starts at
least `cool` after the clock recorded by the earlier one, hence after its start
when the clock does not go backwards); with a positive cooldown and a clock that
does not go backwards, a call that leaves `last` as it was performed no action
at all; and `NewController` sets `cool` to 1500 ms. -/
theorem step_cooldown (ctl : Controller) :
    (∀ t0 t1 : Int, t0 - ctl.last < ctl.cool → ctl.Step t0 t1 = .ok (ctl, none)) ∧
    (∀ (ts : List (Int × Int)) (ctl' : Controller) (log : List (Int × Int)),
      stepsLog ctl ts = .ok (ctl', log) →
      List.Chain' (fun a b => ctl.cool ≤ b.1 - a.2) log ∧
      ((∀ t ∈ ts, t.1 ≤ t.2) → List.Chain' (fun a b => ctl.cool ≤ b.1 - a.1) log)) ∧
    (∀ (t0 t1 : Int) (ctl' : Controller) (d : Option Node), 0 < ctl.cool → t0 ≤ t1 →
      ctl.Step t0 t1 = .ok (ctl', d) → ctl'.last = ctl.last → ctl' = ctl ∧ d = none) ∧
    (∀ (c : Cluster) (p : Predictor), (NewController c p).cool = 1500 * 1000000) := by
  refine ⟨?_, ?_, ?_, fun _ _ => rfl⟩
  · intro t0 t1 h
    unfold Controller.Step
    rw [if_pos h]
  · intro ts ctl' log h
    have hch := (stepsLog_chain ts ctl ctl' log h)
    have hch' : List.Chain' (fun a b => ctl.cool ≤ b.1 - a.2) log := by
      cases log with
      | nil => exact List.chain'_nil
      | cons a rest =>
        rw [List.chain_cons] at hch
        exact hch.2
    refine ⟨hch', ?_⟩
    intro hmono
    have hsub : ∀ e ∈ log, e ∈ ts := by
      clear hch hch' hmono
      induction ts generalizing ctl ctl' log with
      | nil =>
        simp only [stepsLog, Except.ok.injEq, Prod.mk.injEq] at h
        rw [← h.2]
        intro e he
        exact absurd he (List.not_mem_nil e)
      | cons t ts ih =>
        unfold stepsLog at h
        cases hs : ctl.Step t.1 t.2 with
        | error e => rw [hs] at h; exact absurd h (by simp)
        | ok p =>
          obtain ⟨ctl1, d⟩ := p
          rw [hs] at h
          simp only at h
          cases hr : stepsLog ctl1 ts with
          | error e => rw [hr] at h; exact absurd h (by simp)
          | ok p2 =>
            obtain ⟨ctl2, log2⟩ := p2
            rw [hr] at h
            simp only [Except.ok.injEq, Prod.mk.injEq] at h
            have hrec := ih ctl1 ctl2 log2 hr
            rw [← h.2]
            intro e he
            split at he
            · exact List.mem_cons_of_mem _ (hrec e he)
            · rcases List.mem_cons.mp he with rfl | he
              · exact List.mem_cons_self _ _
              · exact List.mem_cons_of_mem _ (hrec e he)
    have hmono' : ∀ e ∈ log, e.1 ≤ e.2 := fun e he => hmono e (hsub e he)
    clear hch hsub hmono h
    induction log with
    | nil => exact List.chain'_nil
    | cons a rest ih =>
      cases rest with
      | nil => exact List.chain'_singleton a
      | cons b rest2 =>
        rw [List.chain'_cons] at hch' ⊢
        refine ⟨?_, ih hch'.2 (fun e he => hmono' e (List.mem_cons_of_mem _ he))⟩
        have := hmono' a (List.mem_cons_self _ _)
        have := hch'.1
        omega
  · intro t0 t1 ctl' d hpos hle h hl
    obtain ⟨_, hcase⟩ := Step_last ctl ctl' t0 t1 d h
    rcases hcase with hsame | ⟨hc, hlast⟩
    · exact hsame
    · omega

/-- Witness for C6: on the idle cluster of `main` a call at 2.0 s scales in and a
call at 2.5 s falls into the cooldown, so only the first call is logged. -/
theorem step_cooldown_witness :
    stepsLog exIdle [(2000000000, 2000000001), (2500000000, 2500000001)] =
      .ok ({ exIdle with
              cluster := { exIdle.cluster with Nodes := [NewNode 1 8, NewNode 2 8] }
              last := 2000000001 }, [(2000000000, 2000000001)]) := by
  rw [stepsLog, exIdle_step]
  simp only
  rw [stepsLog, (step_cooldown _).1 2500000000 2500000001 (by decide)]
  simp only [stepsLog]
  rfl

/-- C7. `addNode`: below the ceiling it appends exactly one node with
`ID = |Nodes| + 1`, `Cap = cap`, `Used = 0` and a fresh mailbox, leaving the
existing nodes, `rr`, `min`, `max`, `cap` and the queue as they were; at or
above the ceiling it changes nothing. -/
theorem addNode_spec (c : Cluster) :
    ((c.Nodes.length : Int) < c.max →
      c.addNode =
        { c with Nodes := c.Nodes ++
            [{ ID := (c.Nodes.length : Int) + 1, Cap := c.cap, Used := 0, Ch := ⟨[], false⟩ }] }) ∧
    (c.max ≤ (c.Nodes.length : Int) → c.addNode = c) := by
  constructor
  · intro h
    unfold Cluster.addNode
    rw [if_neg (by omega)]
    rfl
  · intro h
    unfold Cluster.addNode
    rw [if_pos (by omega)]

/-- C8. `removeNode`: at or below the floor it returns the cluster unchanged and
closes no mailbox; above the floor every returning call detached exactly the
last node (the sequence loses its final element, the rest is unchanged and in
order) and closed that node's mailbox; and above a non-negative floor, with the
member mailboxes open, the call returns. -/
theorem removeNode_spec (c : Cluster) :
    ((c.Nodes.length : Int) ≤ c.min → c.removeNode = .ok (c, none)) ∧
    (∀ (c' : Cluster) (d : Option Node), c.min < (c.Nodes.length : Int) →
      c.removeNode = .ok (c', d) →
      ∃ pre n, c.Nodes = pre ++ [n] ∧ c' = { c with Nodes := pre } ∧
        d = some { n with Ch := { n.Ch with closed := true } }) ∧
    (c.min < (c.Nodes.length : Int) → 0 ≤ c.min →
      (∀ n ∈ c.Nodes, n.Ch.closed = false) →
      ∃ pre n, c.Nodes = pre ++ [n] ∧
        c.removeNode =
          .ok ({ c with Nodes := pre }, some { n with Ch := { n.Ch with closed := true } })) := by
  refine ⟨?_, ?_, ?_⟩
  · intro hle
    unfold Cluster.removeNode
    rw [if_pos hle]
  · intro c' d hlt h
    rcases removeNode_ok c c' d h with ⟨_, _, hle⟩ | ⟨pre, n, hn, hc, hd, _⟩
    · omega
    · exact ⟨pre, n, hn, hc, hd⟩
  · intro hlt hmin hopen
    rcases List.eq_nil_or_concat c.Nodes with hnil | ⟨pre, n, hc⟩
    · rw [hnil] at hlt
      simp only [List.length_nil, Nat.cast_zero] at hlt
      omega
    · rw [List.concat_eq_append] at hc
      exact ⟨pre, n, hc, removeNode_snoc c pre n hc hlt (hopen n (by rw [hc]; simp))⟩

/-- Witness for C8: the example cluster loses node 3, whose mailbox is closed. -/
theorem removeNode_spec_witness :
    exCluster.removeNode =
      .ok ({ exCluster with Nodes := [⟨1, 8, 3, Chan.make⟩, ⟨2, 8, 0, Chan.make⟩] },
        some ⟨3, 8, 0, ⟨[], true⟩⟩) ∧
    ∃ pre n, exCluster.Nodes = pre ++ [n] ∧
      exCluster.removeNode =
        .ok ({ exCluster with Nodes := pre },
          some { n with Ch := { n.Ch with closed := true } }) :=
  ⟨by rfl, (removeNode_spec exCluster).2.2 (by decide) (by decide) (by decide)⟩

/-- C9, counterexample in binary64 arithmetic.  The first observation
`2^53 + 1` makes `Forecast()` equal to `2^53`, not to the observed value.  With
`alpha = 0.6` and the value 6, `Observe(1)` gives 3.0000000000000004, which is
neither `alpha*1 + (1-alpha)*6` for the stored `alpha` nor 3. -/
theorem predictor_exact_counterexample :
    F64.toRat (PredictorF.Observe ieee (NewPredictorF ieee (ieee.lit 0.6))
      (2 ^ 53 + 1)).Forecast.1 ≠ (((2 ^ 53 + 1 : Int)) : ℚ) ∧
    exPred.init = true ∧ F64.toRat exPred.Forecast.1 = 6 ∧
    F64.toRat (PredictorF.Observe ieee exPred 1).Forecast.1 ≠
      F64.toRat exPred.alpha * ((1 : Int) : ℚ) +
        (1 - F64.toRat exPred.alpha) * F64.toRat exPred.Forecast.1 ∧
    F64.toRat (PredictorF.Observe ieee exPred 1).Forecast.1 ≠
      0.6 * ((1 : Int) : ℚ) + (1 - 0.6) * 6 := by
  have h1 : (PredictorF.Observe ieee (NewPredictorF ieee (ieee.lit 0.6))
      (2 ^ 53 + 1)).Forecast.1 = .fin false (2 ^ 52) 1 := by decide!
  have h2 : exPred.Forecast.1 = .fin false 6755399441055744 (-50) := by decide!
  have h3 : exPred.alpha = .fin false 5404319552844595 (-53) := by decide!
  have h4 : (PredictorF.Observe ieee exPred 1).Forecast.1 =
      .fin false 6755399441055745 (-51) := by decide!
  rw [h1, h2, h3, h4]
  refine ⟨?_, by decide!, ?_, ?_, ?_⟩ <;> norm_num [F64.toRat]

/-- C9, as amended.  Predictor update law for every implementation `fl` of the
`float64` operations (binary64 among them): on a fresh predictor the first
`Observe(v0)` makes `Forecast()` equal to `float64(v0)`; every call of `Observe`
leaves the predictor initialised, and on an initialised predictor `Observe(v)`
changes the value from `e` to `alpha*float64(v) + (1-alpha)*e` as `fl` computes
it, operator by operator; `Forecast()` returns the current value and leaves the
predictor as it was; `Observe` never modifies `alpha`.  In binary64 arithmetic
`float64(v0)` is `v0` whenever `|v0| ≤ 2^53`, and in exact arithmetic the
update is `alpha*v + (1-alpha)*e`. -/
theorem predictor_update_law {F : Type} (fl : F64Ops F) :
    (∀ (a : F) (v0 : Int),
      (PredictorF.Observe fl (NewPredictorF fl a) v0).Forecast.1 = fl.ofInt v0) ∧
    (∀ (p : PredictorF F) (v : Int), (PredictorF.Observe fl p v).init = true) ∧
    (∀ (p : PredictorF F) (v : Int), p.init = true →
      (PredictorF.Observe fl p v).Forecast.1 =
        fl.add (fl.mul p.alpha (fl.ofInt v)) (fl.mul (fl.sub (fl.lit 1) p.alpha) p.Forecast.1)) ∧
    (∀ p : PredictorF F, p.Forecast.1 = p.ema ∧ p.Forecast.2 = p) ∧
    (∀ (p : PredictorF F) (v : Int), (PredictorF.Observe fl p v).alpha = p.alpha) ∧
    (∀ v0 : Int, |v0| ≤ 2 ^ 53 → F64.toRat (ieee.ofInt v0) = (v0 : ℚ)) ∧
    (∀ (p : PredictorF ℚ) (v : Int), p.init = true →
      (PredictorF.Observe exactOps p v).Forecast.1 =
        p.alpha * (v : ℚ) + (1 - p.alpha) * p.Forecast.1) := by
  refine ⟨?_, ?_, ?_, ?_, ?_, ?_, ?_⟩
  · intro a v0
    simp [NewPredictorF, PredictorF.Observe, PredictorF.Forecast]
  · intro p v
    unfold PredictorF.Observe
    cases h : p.init <;> simp [h]
  · intro p v h
    unfold PredictorF.Observe
    simp [h, PredictorF.Forecast]
  · intro p
    exact ⟨rfl, rfl⟩
  · intro p v
    unfold PredictorF.Observe
    cases h : p.init <;> simp
  · exact ieee_ofInt_exact
  · intro p v h
    unfold PredictorF.Observe
    simp [h, PredictorF.Forecast, exactOps]

/-- Witness for C9, in binary64 arithmetic: with `alpha = 0.6` and the value 6,
`Observe(1)` gives `6755399441055745 * 2^-51`, that is 3.0000000000000004; and
`float64(-7)` is -7. -/
theorem predictor_update_law_witness :
    exPred.init = true ∧
    (PredictorF.Observe ieee exPred 1).Forecast.1 = .fin false 6755399441055745 (-51) ∧
    F64.toRat (ieee.ofInt (-7)) = ((-7 : Int) : ℚ) := by
  refine ⟨by decide!, ?_, (predictor_update_law ieee).2.2.2.2.2.1 (-7) (by decide)⟩
  rw [(predictor_update_law ieee).2.2.1 exPred 1 (by decide!)]
  decide!

/-- C10. Convergence on a constant stream, in exact arithmetic with
`0 < alpha < 1`: after a first observation `v0` and `n` observations of `v`,
`Forecast() - v = (1-alpha)^n * (v0 - v)`; the error `|Forecast() - v|` does not
increase with `n` and tends to `0`; and if `v0 = v` the forecast is `v` after
every observation. -/
theorem predictor_converges (a : ℚ) (v0 v : Int) (h0 : 0 < a) (h1 : a < 1) :
    (∀ n : Nat, (observeN ((NewPredictor a).Observe v0) v n).Forecast.1 - (v : ℚ) =
      (1 - a) ^ n * ((v0 : ℚ) - (v : ℚ))) ∧
    (∀ n : Nat, |(observeN ((NewPredictor a).Observe v0) v (n + 1)).Forecast.1 - (v : ℚ)| ≤
      |(observeN ((NewPredictor a).Observe v0) v n).Forecast.1 - (v : ℚ)|) ∧
    Filter.Tendsto
      (fun n : Nat => |(observeN ((NewPredictor a).Observe v0) v n).Forecast.1 - (v : ℚ)|)
      Filter.atTop (nhds 0) ∧
    (v0 = v → ∀ n : Nat, (observeN ((NewPredictor a).Observe v0) v n).Forecast.1 = (v : ℚ)) := by
  have hform : ∀ n : Nat,
      (observeN ((NewPredictor a).Observe v0) v n).Forecast.1 - (v : ℚ) =
        (1 - a) ^ n * ((v0 : ℚ) - (v : ℚ)) := fun n => (observeN_ema a v0 v n).1
  have hpos : 0 ≤ 1 - a := by linarith
  have hlt : 1 - a < 1 := by linarith
  refine ⟨hform, ?_, ?_, ?_⟩
  · intro n
    rw [hform, hform, abs_mul, abs_mul, abs_pow, abs_pow, abs_of_nonneg hpos, pow_succ]
    have hp : 0 ≤ (1 - a) ^ n := pow_nonneg hpos n
    have hq : 0 ≤ |(v0 : ℚ) - (v : ℚ)| := abs_nonneg _
    have : (1 - a) ^ n * (1 - a) ≤ (1 - a) ^ n := by nlinarith
    exact mul_le_mul_of_nonneg_right this hq
  · have hfun : (fun n : Nat =>
        |(observeN ((NewPredictor a).Observe v0) v n).Forecast.1 - (v : ℚ)|) =
        fun n : Nat => (1 - a) ^ n * |(v0 : ℚ) - (v : ℚ)| := by
      funext n
      rw [hform, abs_mul, abs_pow, abs_of_nonneg hpos]
    rw [hfun]
    have := (tendsto_pow_atTop_nhds_zero_of_lt_one hpos hlt).mul_const |(v0 : ℚ) - (v : ℚ)|
    simpa using this
  · intro hv n
    subst hv
    have := hform n
    rw [sub_self, mul_zero] at this
    linarith

/-- Witness for C10: smoothing factor 0.6, first observation 10, then constant 4. -/
theorem predictor_converges_witness :
    (observeN ((NewPredictor (3 / 5)).Observe 10) 4 2).Forecast.1 - ((4 : Int) : ℚ) =
      (1 - 3 / 5) ^ 2 * (((10 : Int) : ℚ) - ((4 : Int) : ℚ)) :=
  (predictor_converges (3 / 5) 10 4 (by norm_num) (by norm_num)).1 2


/-! ## Latency estimate -/

theorem estimateLat_nonempty (c : Cluster) (h : c.Nodes ≠ []) :
    c.estimateLat = 100 + utilSum c.Nodes / (c.Nodes.length : ℚ) * 300 := by
  have hlen : c.Nodes.length ≠ 0 := fun h0 => h (List.length_eq_zero.mp h0)
  unfold Cluster.estimateLat utilSum
  rw [if_neg hlen]

theorem utilSum_cons (n : Node) (l : List Node) :
    utilSum (n :: l) = (n.Used : ℚ) / (n.Cap : ℚ) + utilSum l := by
  simp [utilSum]

theorem utilSum_bounds (l : List Node) (hcap : ∀ m ∈ l, 0 < m.Cap)
    (hu : ∀ m ∈ l, 0 ≤ m.Used ∧ m.Used ≤ m.Cap) :
    0 ≤ utilSum l ∧ utilSum l ≤ (l.length : ℚ) := by
  induction l with
  | nil => simp [utilSum]
  | cons n l ih =>
    have ih' := ih (fun m hm => hcap m (List.mem_cons_of_mem _ hm))
      (fun m hm => hu m (List.mem_cons_of_mem _ hm))
    have hc : (0 : ℚ) < (n.Cap : ℚ) := by exact_mod_cast hcap n (List.mem_cons_self _ _)
    have h0 : (0 : ℚ) ≤ (n.Used : ℚ) := by exact_mod_cast (hu n (List.mem_cons_self _ _)).1
    have h1 : (n.Used : ℚ) ≤ (n.Cap : ℚ) := by exact_mod_cast (hu n (List.mem_cons_self _ _)).2
    have hq0 : 0 ≤ (n.Used : ℚ) / (n.Cap : ℚ) := div_nonneg h0 (le_of_lt hc)
    have hq1 : (n.Used : ℚ) / (n.Cap : ℚ) ≤ 1 := (div_le_one hc).mpr h1
    rw [utilSum_cons]
    simp only [List.length_cons, Nat.cast_add, Nat.cast_one]
    constructor <;> linarith [ih'.1, ih'.2]

theorem utilSum_zero (l : List Node) (hu : ∀ m ∈ l, m.Used = 0) : utilSum l = 0 := by
  induction l with
  | nil => simp [utilSum]
  | cons n l ih =>
    rw [utilSum_cons, ih (fun m hm => hu m (List.mem_cons_of_mem _ hm)),
      hu n (List.mem_cons_self _ _)]
    simp

theorem utilSum_mono (l l' : List Node) (h : UsedLe l l') (hcap : ∀ m ∈ l, 0 < m.Cap) :
    utilSum l ≤ utilSum l' := by
  unfold UsedLe at h
  induction h with
  | nil => exact le_refl _
  | @cons a b l l' hab _ ih =>
    have hc : (0 : ℚ) < (a.Cap : ℚ) := by exact_mod_cast hcap a (List.mem_cons_self _ _)
    have hu : (a.Used : ℚ) ≤ (b.Used : ℚ) := by exact_mod_cast hab.2
    have := ih (fun m hm => hcap m (List.mem_cons_of_mem _ hm))
    rw [utilSum_cons, utilSum_cons, ← hab.1]
    have : (a.Used : ℚ) / (a.Cap : ℚ) ≤ (b.Used : ℚ) / (a.Cap : ℚ) :=
      div_le_div_of_nonneg_right hu (le_of_lt hc)
    linarith

theorem usedLe_set (l : List Node) : ∀ (i : Nat) (n : Node) (u : Int),
    l[i]? = some n → n.Used ≤ u → UsedLe l (l.set i { n with Used := u }) := by
  unfold UsedLe
  induction l with
  | nil => intro i n u h; simp at h
  | cons a l ih =>
    intro i n u h hu
    cases i with
    | zero =>
      simp only [List.getElem?_cons_zero, Option.some.injEq] at h
      subst h
      simp only [List.set_cons_zero]
      exact List.Forall₂.cons ⟨rfl, hu⟩ (List.forall₂_same.mpr (fun x _ => ⟨rfl, le_refl _⟩))
    | succ i =>
      simp only [List.getElem?_cons_succ] at h
      simp only [List.set_cons_succ]
      exact List.Forall₂.cons ⟨rfl, le_refl _⟩ (ih i n u h hu)

theorem estimateLat_mono (c c' : Cluster) (h : UsedLe c.Nodes c'.Nodes)
    (hcap : ∀ m ∈ c.Nodes, 0 < m.Cap) : c.estimateLat ≤ c'.estimateLat := by
  have hlen : c.Nodes.length = c'.Nodes.length := List.Forall₂.length_eq h
  by_cases hne : c.Nodes = []
  · have hne' : c'.Nodes = [] := by
      apply List.length_eq_zero.mp
      rw [← hlen, hne]
      rfl
    unfold Cluster.estimateLat
    rw [hne, hne']
  · have hne' : c'.Nodes ≠ [] := by
      intro h0
      apply hne
      apply List.length_eq_zero.mp
      rw [hlen, h0]
      rfl
    rw [estimateLat_nonempty c hne, estimateLat_nonempty c' hne', ← hlen]
    have hpos : (0 : ℚ) < (c.Nodes.length : ℚ) := by
      exact_mod_cast List.length_pos.mpr hne
    have := utilSum_mono c.Nodes c'.Nodes h hcap
    have := div_le_div_of_nonneg_right this (le_of_lt hpos)
    linarith

/-- C11. `estimateLat` in exact arithmetic, every node having `Cap > 0`: on the
empty cluster it returns 0; on a non-empty cluster it returns
`100 + 300 * (sum of Used/Cap) / |Nodes|`; it does not decrease when the `Used`
of one node (or of several nodes) is raised; on a non-empty cluster it equals
100 when every `Used` is 0 and lies in `[100, 400]` when every node has
`0 ≤ Used ≤ Cap`. -/
theorem estimateLat_spec :
    (∀ c : Cluster, c.Nodes = [] → c.estimateLat = 0) ∧
    (∀ c : Cluster, c.Nodes ≠ [] →
      c.estimateLat =
        100 + 300 * ((c.Nodes.map (fun n => (n.Used : ℚ) / (n.Cap : ℚ))).sum
          / (c.Nodes.length : ℚ))) ∧
    (∀ (c : Cluster) (i : Nat) (n : Node) (u : Int), (∀ m ∈ c.Nodes, 0 < m.Cap) →
      c.Nodes[i]? = some n → n.Used ≤ u →
      c.estimateLat ≤ ({ c with Nodes := c.Nodes.set i { n with Used := u } }).estimateLat) ∧
    (∀ c c' : Cluster, (∀ m ∈ c.Nodes, 0 < m.Cap) → UsedLe c.Nodes c'.Nodes →
      c.estimateLat ≤ c'.estimateLat) ∧
    (∀ c : Cluster, (∀ m ∈ c.Nodes, 0 < m.Cap) → c.Nodes ≠ [] →
      (∀ m ∈ c.Nodes, m.Used = 0) → c.estimateLat = 100) ∧
    (∀ c : Cluster, (∀ m ∈ c.Nodes, 0 < m.Cap) → c.Nodes ≠ [] →
      (∀ m ∈ c.Nodes, 0 ≤ m.Used ∧ m.Used ≤ m.Cap) →
      100 ≤ c.estimateLat ∧ c.estimateLat ≤ 400) := by
  refine ⟨?_, ?_, ?_, ?_, ?_, ?_⟩
  · intro c h
    unfold Cluster.estimateLat
    rw [h]
    rfl
  · intro c h
    rw [estimateLat_nonempty c h]
    unfold utilSum
    ring
  · intro c i n u hcap hi hu
    exact estimateLat_mono c _ (usedLe_set c.Nodes i n u hi hu) hcap
  · intro c c' hcap h
    exact estimateLat_mono c c' h hcap
  · intro c _ hne hz
    rw [estimateLat_nonempty c hne, utilSum_zero c.Nodes hz]
    simp
  · intro c hcap hne hu
    rw [estimateLat_nonempty c hne]
    have hpos : (0 : ℚ) < (c.Nodes.length : ℚ) := by
      exact_mod_cast List.length_pos.mpr hne
    obtain ⟨h0, h1⟩ := utilSum_bounds c.Nodes hcap hu
    have ha0 : 0 ≤ utilSum c.Nodes / (c.Nodes.length : ℚ) := div_nonneg h0 (le_of_lt hpos)
    have ha1 : utilSum c.Nodes / (c.Nodes.length : ℚ) ≤ 1 := (div_le_one hpos).mpr h1
    constructor <;> linarith

/-- Witness for C11: the example cluster (usages 3, 0, 0 of capacity 8) has
estimate `100 + 300 * (3/8) / 3 = 137.5`, inside `[100, 400]`. -/
theorem estimateLat_spec_witness :
    exCluster.estimateLat = 275 / 2 ∧
    (100 ≤ exCluster.estimateLat ∧ exCluster.estimateLat ≤ 400) :=
  ⟨by norm_num [Cluster.estimateLat, exCluster, exNodes],
    estimateLat_spec.2.2.2.2.2 exCluster (by decide) (by decide) (by decide)⟩

/-! ## Node runs -/

theorem NodeSt.inv_init (id cap : Int) (h : 0 ≤ cap) : (NodeSt.init id cap).Inv := by
  refine ⟨h, ?_, ?_, fun _ => rfl, ?_⟩
  · intro j hj
    simp [NodeSt.init] at hj
  · intro j hj
    simp [NodeSt.init, NewNode, Chan.make] at hj
  · intro j hj
    simp [NodeSt.init] at hj

theorem NodeSt.inv_used (s : NodeSt) (h : s.Inv) : 0 ≤ s.node.Used ∧ s.node.Used ≤ s.node.Cap := by
  obtain ⟨hc, _, _, hidle, hrun⟩ := h
  cases hr : s.running with
  | none => rw [hidle hr]; exact ⟨le_refl _, hc⟩
  | some j =>
    obtain ⟨hu, h1, h2⟩ := hrun j hr
    rw [hu]
    exact ⟨by omega, h2⟩

theorem NodeSt.inv_step (s s1 : NodeSt) (e : NodeEvent) (h : s.Inv)
    (hs : s.step e = some s1) : s1.Inv := by
  have hused := NodeSt.inv_used s h
  obtain ⟨hc, hadm, hbuf, hidle, hrun⟩ := h
  cases e with
  | accept j =>
    simp only [NodeSt.step] at hs
    cases ha : s.accepted with
    | some j0 => rw [ha] at hs; exact absurd hs (by simp)
    | none =>
      rw [ha] at hs
      simp only at hs
      by_cases hg : 1 ≤ j.C ∧ j.C ≤ s.node.avail
      · rw [if_pos hg] at hs
        simp only [Option.some.injEq] at hs
        rw [← hs]
        refine ⟨hc, ?_, hbuf, hidle, hrun⟩
        intro j2 hj2
        simp only [Option.some.injEq] at hj2
        subst hj2
        unfold Node.avail at hg
        refine ⟨hg.1, ?_⟩
        simp only
        omega
      · rw [if_neg hg] at hs
        exact absurd hs (by simp)
  | deliver =>
    simp only [NodeSt.step] at hs
    cases ha : s.accepted with
    | none => rw [ha] at hs; exact absurd hs (by simp)
    | some j =>
      rw [ha] at hs
      simp only at hs
      cases hcl : s.node.Ch.closed with
      | true => simp [Chan.send, hcl] at hs
      | false =>
        simp only [Chan.send, hcl, Bool.false_eq_true, if_false, Option.some.injEq] at hs
        rw [← hs]
        refine ⟨hc, fun j2 h0 => absurd h0 (by simp), ?_, hidle, hrun⟩
        intro j2 hj2
        simp only [List.mem_append, List.mem_singleton] at hj2
        rcases hj2 with hj2 | rfl
        · exact hbuf j2 hj2
        · exact hadm j2 ha
  | start =>
    simp only [NodeSt.step] at hs
    cases hr : s.running with
    | some j => rw [hr] at hs; exact absurd hs (by simp)
    | none =>
      rw [hr] at hs
      simp only at hs
      unfold Node.start Chan.recv at hs
      cases hb : s.node.Ch.buf with
      | nil => rw [hb] at hs; exact absurd hs (by simp)
      | cons j rest =>
        rw [hb] at hs
        simp only [Option.some.injEq] at hs
        rw [← hs]
        have hj := hbuf j (by rw [hb]; exact List.mem_cons_self _ _)
        refine ⟨hc, hadm, ?_, fun h0 => absurd h0 (by simp), ?_⟩
        · intro j2 hj2
          exact hbuf j2 (by rw [hb]; exact List.mem_cons_of_mem _ hj2)
        · intro j2 hj2
          simp only [Option.some.injEq] at hj2
          subst hj2
          simp only
          rw [hidle hr]
          exact ⟨by omega, hj.1, hj.2⟩
  | finish =>
    simp only [NodeSt.step] at hs
    cases hr : s.running with
    | none => rw [hr] at hs; exact absurd hs (by simp)
    | some j =>
      rw [hr] at hs
      simp only [Option.some.injEq] at hs
      rw [← hs]
      refine ⟨hc, hadm, hbuf, ?_, fun j2 h0 => absurd h0 (by simp)⟩
      intro _
      simp only [Node.finish]
      rw [(hrun j hr).1]
      omega
  | close =>
    simp only [NodeSt.step] at hs
    cases hcl : s.node.Ch.closed with
    | true => simp [Chan.close, hcl] at hs
    | false =>
      simp only [Chan.close, hcl, Bool.false_eq_true, if_false, Option.some.injEq] at hs
      rw [← hs]
      exact ⟨hc, hadm, hbuf, hidle, hrun⟩

theorem NodeSt.inv_run (es : List NodeEvent) : ∀ (s s1 : NodeSt), s.Inv →
    s.run es = some s1 → s1.Inv := by
  induction es with
  | nil =>
    intro s s1 h hr
    simp only [NodeSt.run, Option.some.injEq] at hr
    rw [← hr]; exact h
  | cons e es ih =>
    intro s s1 h hr
    unfold NodeSt.run at hr
    cases hs : s.step e with
    | none => rw [hs] at hr; exact absurd hr (by simp)
    | some s2 =>
      rw [hs] at hr
      exact ih s2 s1 (NodeSt.inv_step s s2 e h hs) hr

/-- C12. Node usage invariant: for a node created with a non-negative capacity
whose goroutine runs one job at a time and which only receives jobs of cost at
least 1 that the dispatcher accepted, every reachable state has
`0 ≤ Used ≤ Cap`; `Used` is 0 between jobs and the running job's cost during a
job; and finishing a job restores `Used` to its value before the job started. -/
theorem node_usage_invariant (id cap : Int) (hcap : 0 ≤ cap) :
    (∀ (es : List NodeEvent) (s : NodeSt), (NodeSt.init id cap).run es = some s →
      0 ≤ s.node.Used ∧ s.node.Used ≤ s.node.Cap ∧
      (s.running = none → s.node.Used = 0) ∧
      (∀ j, s.running = some j → s.node.Used = j.C)) ∧
    (∀ (n n1 : Node) (j : Job), n.start = some (j, n1) →
      n1.Used = n.Used + j.C ∧ (n1.finish j).Used = n.Used) := by
  constructor
  · intro es s hr
    have hinv := NodeSt.inv_run es _ s (NodeSt.inv_init id cap hcap) hr
    obtain ⟨h0, h1⟩ := NodeSt.inv_used s hinv
    exact ⟨h0, h1, hinv.2.2.2.1, fun j hj => (hinv.2.2.2.2 j hj).1⟩
  · intro n n1 j h
    unfold Node.start at h
    cases hrecv : n.Ch.recv with
    | none => rw [hrecv] at h; exact absurd h (by simp)
    | some p =>
      obtain ⟨j2, ch⟩ := p
      rw [hrecv] at h
      simp only [Option.some.injEq, Prod.mk.injEq] at h
      obtain ⟨hj, hn⟩ := h
      subst hj
      rw [← hn]
      simp only [Node.finish]
      exact ⟨trivial, by omega⟩

/-- Witness for C12: a node of capacity 8 is sent a job of cost 3 and starts it;
a job of cost 5 is accepted while it runs (free capacity 5) and sent after it has
ended; then the second job runs: `Used` is 5. -/
theorem node_usage_invariant_witness :
    (NodeSt.init 1 8).run
        [.accept ⟨1, 300, 3⟩, .deliver, .start, .accept ⟨2, 300, 5⟩, .finish, .deliver, .start] =
      some { node := ⟨1, 8, 5, ⟨[], false⟩⟩, running := some ⟨2, 300, 5⟩, accepted := none } ∧
    (0 : Int) ≤ 5 ∧ (5 : Int) ≤ 8 :=
  ⟨by rfl,
    ((node_usage_invariant 1 8 (by decide)).1
      [.accept ⟨1, 300, 3⟩, .deliver, .start, .accept ⟨2, 300, 5⟩, .finish, .deliver, .start]
      _ (by rfl)).1,
    ((node_usage_invariant 1 8 (by decide)).1
      [.accept ⟨1, 300, 3⟩, .deliver, .start, .accept ⟨2, 300, 5⟩, .finish, .deliver, .start]
      _ (by rfl)).2.1⟩

/-! ## More on the scan and on dispatch attempts -/

theorem nodeAt_mem (nodes : List Node) (i : Int) (n : Node) (h : nodeAt nodes i = .ok n) :
    n ∈ nodes := by
  unfold nodeAt at h
  by_cases hi : i < 0
  · rw [if_pos hi] at h
    exact absurd h (by simp)
  · rw [if_neg hi] at h
    cases hg : nodes[i.toNat]? with
    | none => rw [hg] at h; exact absurd h (by simp)
    | some m =>
      rw [hg] at h
      simp only [Except.ok.injEq] at h
      rw [← h]
      exact List.mem_iff_getElem?.mpr ⟨_, hg⟩

/-- With a non-negative start the scan loop never panics. -/
theorem scanLoop_total (nodes : List Node) (s : Nat) (jC : Int) (hlen : 0 < nodes.length) :
    ∀ (k i : Nat) (b a : Int), ∃ p, scanLoop nodes (s : Int) jC k i b a = .ok p := by
  intro k
  induction k with
  | zero => intro i b a; exact ⟨(b, a), rfl⟩
  | succ k ih =>
    intro i b a
    obtain ⟨n, hn, _⟩ := nodeAt_scanIdx nodes s i hlen
    unfold scanLoop
    simp only [hn]
    split
    · exact ih _ _ _
    · exact ih _ _ _

theorem scan_total (nodes : List Node) (rr jC : Int) (hlen : 0 < nodes.length)
    (hrr : 0 ≤ rr) : ∃ p, scan nodes rr jC = .ok p := by
  obtain ⟨r, rfl⟩ := Int.eq_ofNat_of_zero_le hrr
  unfold scan
  rw [tmod_natCast]
  exact scanLoop_total nodes _ jC hlen _ _ _ _

/-- When no node has `avail ≥ jC` a returning scan loop keeps its candidate. -/
theorem scanLoop_no_fit (nodes : List Node) (start jC : Int)
    (hno : ∀ n ∈ nodes, n.avail < jC) :
    ∀ (k i : Nat) (b a : Int) (p : Int × Int),
      scanLoop nodes start jC k i b a = .ok p → p = (b, a) := by
  intro k
  induction k with
  | zero =>
    intro i b a p h
    simp only [scanLoop, Except.ok.injEq] at h
    exact h.symm
  | succ k ih =>
    intro i b a p h
    unfold scanLoop at h
    cases hn : nodeAt nodes (scanIdx nodes start i) with
    | error e => rw [hn] at h; exact absurd h (by simp)
    | ok n =>
      rw [hn] at h
      simp only at h
      have hlt := hno n (nodeAt_mem nodes _ n hn)
      rw [if_neg (by omega)] at h
      exact ih _ _ _ _ h

/-- A dispatch attempt whose scan picked index `best`, on an open mailbox. -/
theorem dispatchJob_of_scan (c : Cluster) (j : Job) (best a : Int) (n : Node)
    (hlen : 0 < c.Nodes.length) (hscan : scan c.Nodes c.rr j.C = .ok (best, a))
    (hb : 0 ≤ best) (hn : nodeAt c.Nodes best = .ok n) (hopen : n.Ch.closed = false) :
    c.dispatchJob j =
      .ok ({ c with
              Nodes := c.Nodes.set best.toNat
                { n with Ch := { n.Ch with buf := n.Ch.buf ++ [j] } }
              rr := Int.tmod (best + 1) (c.Nodes.length : Int) }, none) := by
  unfold Cluster.dispatchJob
  rw [if_pos hlen, hscan]
  simp only
  rw [if_pos hb, hn]
  simp only [Chan.send, hopen, Bool.false_eq_true, if_false]

/-- The scan order is injective on one round. -/
theorem scan_pos_inj (len s i1 i2 : Nat) (h1 : i1 < len) (h2 : i2 < len)
    (h : (s + i1) % len = (s + i2) % len) : i1 = i2 := by
  have hm : Nat.ModEq len (s + i1) (s + i2) := h
  have := Nat.ModEq.add_left_cancel' s hm
  unfold Nat.ModEq at this
  rwa [Nat.mod_eq_of_lt h1, Nat.mod_eq_of_lt h2] at this

/-- The scan order reaches every index. -/
theorem scan_pos_surj (len s t : Nat) (hs : s < len) (ht : t < len) :
    (s + (t + len - s) % len) % len = t := by
  rw [Nat.add_mod_mod]
  have : s + (t + len - s) = t + len := by omega
  rw [this, Nat.add_mod_right, Nat.mod_eq_of_lt ht]

/-- The cursor stays non-negative under every cluster operation. -/
theorem rr_nonneg_invariant :
    (∀ initN cap minN maxN : Int, 0 ≤ (NewCluster initN cap minN maxN).rr) ∧
    (∀ c : Cluster, 0 ≤ c.rr → 0 ≤ c.addNode.rr) ∧
    (∀ (c c' : Cluster) (d : Option Node), 0 ≤ c.rr → c.removeNode = .ok (c', d) →
      0 ≤ c'.rr) ∧
    (∀ (c c' : Cluster) (j : Job) (r : Option Job), 0 ≤ c.rr →
      c.dispatchJob j = .ok (c', r) → 0 ≤ c'.rr) ∧
    (∀ (ctl ctl' : Controller) (t0 t1 : Int) (d : Option Node), 0 ≤ ctl.cluster.rr →
      ctl.Step t0 t1 = .ok (ctl', d) → 0 ≤ ctl'.cluster.rr) := by
  have hadd : ∀ c : Cluster, 0 ≤ c.rr → 0 ≤ c.addNode.rr := by
    intro c hc
    by_cases hlt : (c.Nodes.length : Int) < c.max
    · rw [addNode_of_lt c hlt]; exact hc
    · rw [addNode_of_ge c (by omega)]; exact hc
  have hadds : ∀ (k : Nat) (c : Cluster), 0 ≤ c.rr → 0 ≤ (addNodes k c).rr := by
    intro k
    induction k with
    | zero => intro c hc; exact hc
    | succ k ih => intro c hc; exact ih c.addNode (hadd c hc)
  have hrem : ∀ (c c' : Cluster) (d : Option Node), 0 ≤ c.rr → c.removeNode = .ok (c', d) →
      0 ≤ c'.rr := by
    intro c c' d hc h
    rcases removeNode_ok c c' d h with ⟨rfl, _, _⟩ | ⟨pre, n, _, rfl, _, _⟩
    · exact hc
    · exact hc
  refine ⟨fun _ _ _ _ => le_refl _, hadd, hrem, ?_, ?_⟩
  · intro c c' j r hc h
    rcases dispatchJob_trace c c' j r h with ⟨rfl, _, _⟩ | ⟨best, a, n, _, _, hb, _, _, rfl, _⟩
    · exact hc
    · exact Int.tmod_nonneg _ (by omega)
  · intro ctl ctl' t0 t1 d hc h
    rcases Step_cases ctl t0 t1 with ⟨_, hs⟩ | ⟨_, _, hs⟩ | ⟨_, _, _, hs⟩ | ⟨_, _, _, hs⟩
    · rw [hs] at h
      simp only [Except.ok.injEq, Prod.mk.injEq] at h
      rw [← h.1]; exact hc
    · rw [hs] at h
      simp only [Except.ok.injEq, Prod.mk.injEq] at h
      rw [← h.1]
      exact hadds _ _ hc
    · rw [hs] at h
      cases hr : ctl.cluster.removeNode with
      | error e => rw [hr] at h; exact absurd h (by simp)
      | ok p =>
        obtain ⟨c2, d2⟩ := p
        rw [hr] at h
        simp only [Except.ok.injEq, Prod.mk.injEq] at h
        rw [← h.1]
        exact hrem ctl.cluster c2 d2 hc hr
    · rw [hs] at h
      simp only [Except.ok.injEq, Prod.mk.injEq] at h
      rw [← h.1]; exact hc

/-- C14. Cursor discipline: a dispatch attempt that places the job on the node
at index `w` leaves `rr = (w + 1) mod |Nodes|`, so `0 ≤ rr < |Nodes|`;
`rr ≥ 0` is established by `NewCluster` and preserved by `addNode`,
`removeNode`, dispatch and `Step`; and for every non-empty node list and every
`rr ≥ 0` (also `rr ≥ |Nodes|`) the scan origin `rr mod |Nodes|` and every scanned
index `(start + i) mod |Nodes|` are valid indices, each index being visited by
exactly one of the `|Nodes|` iterations. -/
theorem cursor_discipline :
    (∀ (c c' : Cluster) (j : Job), c.dispatchJob j = .ok (c', none) →
      ∃ (w : Nat) (n : Node), w < c.Nodes.length ∧ c.Nodes[w]? = some n ∧
        c'.Nodes = c.Nodes.set w { n with Ch := { n.Ch with buf := n.Ch.buf ++ [j] } } ∧
        c'.rr = (((w + 1) % c.Nodes.length : Nat) : Int) ∧
        0 ≤ c'.rr ∧ c'.rr < (c'.Nodes.length : Int)) ∧
    ((∀ initN cap minN maxN : Int, 0 ≤ (NewCluster initN cap minN maxN).rr) ∧
      (∀ c : Cluster, 0 ≤ c.rr → 0 ≤ c.addNode.rr) ∧
      (∀ (c c' : Cluster) (d : Option Node), 0 ≤ c.rr → c.removeNode = .ok (c', d) →
        0 ≤ c'.rr) ∧
      (∀ (c c' : Cluster) (j : Job) (r : Option Job), 0 ≤ c.rr →
        c.dispatchJob j = .ok (c', r) → 0 ≤ c'.rr) ∧
      (∀ (ctl ctl' : Controller) (t0 t1 : Int) (d : Option Node), 0 ≤ ctl.cluster.rr →
        ctl.Step t0 t1 = .ok (ctl', d) → 0 ≤ ctl'.cluster.rr)) ∧
    (∀ (nodes : List Node) (rr : Int), nodes ≠ [] → 0 ≤ rr →
      (0 ≤ Int.tmod rr (nodes.length : Int) ∧
        Int.tmod rr (nodes.length : Int) < (nodes.length : Int)) ∧
      (∀ i : Nat,
        0 ≤ scanIdx nodes (Int.tmod rr (nodes.length : Int)) i ∧
        scanIdx nodes (Int.tmod rr (nodes.length : Int)) i < (nodes.length : Int) ∧
        ∃ n, nodeAt nodes (scanIdx nodes (Int.tmod rr (nodes.length : Int)) i) = .ok n) ∧
      (∀ t : Nat, t < nodes.length →
        ∃ i, (i < nodes.length ∧
            scanIdx nodes (Int.tmod rr (nodes.length : Int)) i = (t : Int)) ∧
          ∀ i2, i2 < nodes.length ∧
            scanIdx nodes (Int.tmod rr (nodes.length : Int)) i2 = (t : Int) → i2 = i)) := by
  refine ⟨?_, rr_nonneg_invariant, ?_⟩
  · intro c c' j h
    rcases dispatchJob_trace c c' j none h with
      ⟨_, hr, _⟩ | ⟨best, a, n, hlen, _, hb, hn, _, hc, _⟩
    · exact absurd hr (by simp)
    · obtain ⟨w, rfl⟩ := Int.eq_ofNat_of_zero_le hb
      have hw : w < c.Nodes.length := by
        by_contra hge
        unfold nodeAt at hn
        rw [if_neg (by omega)] at hn
        simp only [Int.toNat_ofNat] at hn
        rw [List.getElem?_eq_none (by omega)] at hn
        exact absurd hn (by simp)
      have hget : c.Nodes[w]? = some n := by
        rw [nodeAt_natCast c.Nodes w hw] at hn
        rw [List.getElem?_eq_getElem hw]
        congr 1
        exact Except.ok.inj hn
      have hrr : c'.rr = (((w + 1) % c.Nodes.length : Nat) : Int) := by
        rw [hc]
        simp only
        rw [← tmod_natCast]
        norm_cast
      refine ⟨w, n, hw, hget, ?_, hrr, ?_, ?_⟩
      · rw [hc]
        simp only [Int.toNat_ofNat]
      · rw [hrr]; positivity
      · rw [hrr, hc]
        simp only [List.length_set]
        exact_mod_cast Nat.mod_lt _ hlen
  · intro nodes rr hne hrr
    have hlen : 0 < nodes.length := List.length_pos.mpr hne
    obtain ⟨r, rfl⟩ := Int.eq_ofNat_of_zero_le hrr
    rw [tmod_natCast]
    refine ⟨⟨by positivity, by exact_mod_cast Nat.mod_lt _ hlen⟩, ?_, ?_⟩
    · intro i
      obtain ⟨n, hn, _⟩ := nodeAt_scanIdx nodes (r % nodes.length) i hlen
      rw [scanIdx_natCast]
      refine ⟨by positivity, by exact_mod_cast Nat.mod_lt _ hlen, n, ?_⟩
      rw [← scanIdx_natCast]
      exact hn
    · intro t ht
      refine ⟨(t + nodes.length - r % nodes.length) % nodes.length,
        ⟨Nat.mod_lt _ hlen, ?_⟩, ?_⟩
      · rw [scanIdx_natCast,
          scan_pos_surj nodes.length (r % nodes.length) t (Nat.mod_lt _ hlen) ht]
      · rintro i2 ⟨hi2, hidx⟩
        rw [scanIdx_natCast] at hidx
        have hidx' : (r % nodes.length + i2) % nodes.length = t := by exact_mod_cast hidx
        apply scan_pos_inj nodes.length (r % nodes.length) i2 _ hi2 (Nat.mod_lt _ hlen)
        rw [hidx', scan_pos_surj nodes.length (r % nodes.length) t (Nat.mod_lt _ hlen) ht]

/-- Witness for C14: after a removal the cursor 2 exceeds the two remaining
nodes; the scan starts at index 0 and the placement leaves `rr = 1`. -/
theorem cursor_discipline_witness :
    ({ exCluster with Nodes := [⟨1, 8, 3, Chan.make⟩, ⟨2, 8, 3, Chan.make⟩], rr := 2 }
        : Cluster).dispatchJob ⟨7, 300, 1⟩ =
      .ok ({ exCluster with
              Nodes := [⟨1, 8, 3, ⟨[⟨7, 300, 1⟩], false⟩⟩, ⟨2, 8, 3, Chan.make⟩]
              rr := 1 }, none) ∧
    ∃ (w : Nat) (n : Node), w < 2 ∧
      [(⟨1, 8, 3, Chan.make⟩ : Node), ⟨2, 8, 3, Chan.make⟩][w]? = some n ∧
      (1 : Int) = (((w + 1) % 2 : Nat) : Int) := by
  refine ⟨by rfl, ?_⟩
  obtain ⟨w, n, hw, hget, _, hrr, _, _⟩ := cursor_discipline.1
    ({ exCluster with Nodes := [⟨1, 8, 3, Chan.make⟩, ⟨2, 8, 3, Chan.make⟩], rr := 2 } : Cluster)
    _ ⟨7, 300, 1⟩ (by rfl)
  exact ⟨w, n, hw, hget, hrr⟩

/-- C16. Oversized jobs are never placed: in a cluster where every node has
`Used ≥ 0` and `Cap ≤ cap`, for a job of cost `C > cap`, every returning dispatch
attempt requeues the job and returns the cluster as it was (cursor, membership
and every mailbox unchanged), so later attempts for other jobs behave as if it
had not happened; the attempt returns whenever the cursor is non-negative, and
in the empty cluster. -/
theorem oversized_never_placed (c : Cluster) (j : Job)
    (hused : ∀ n ∈ c.Nodes, 0 ≤ n.Used) (hcap : ∀ n ∈ c.Nodes, n.Cap ≤ c.cap)
    (hj : c.cap < j.C) :
    (∀ (c' : Cluster) (r : Option Job), c.dispatchJob j = .ok (c', r) →
      r = some j ∧ c' = c ∧ ∀ j2 : Job, c'.dispatchJob j2 = c.dispatchJob j2) ∧
    (0 ≤ c.rr → c.dispatchJob j = .ok (c, some j)) ∧
    (c.Nodes = [] → c.dispatchJob j = .ok (c, some j)) := by
  have hno : ∀ n ∈ c.Nodes, n.avail < j.C := by
    intro n hn
    have h1 := hused n hn
    have h2 := hcap n hn
    unfold Node.avail
    omega
  have hsound : ∀ (c' : Cluster) (r : Option Job), c.dispatchJob j = .ok (c', r) →
      r = some j ∧ c' = c := by
    intro c' r h
    rcases dispatchJob_trace c c' j r h with
      ⟨hc, hr, _⟩ | ⟨best, a, n, _, hscan, hb, _, _, _, _⟩
    · exact ⟨hr, hc⟩
    · unfold scan at hscan
      have := scanLoop_no_fit c.Nodes _ j.C hno _ _ _ _ _ hscan
      simp only [Prod.mk.injEq] at this
      omega
  refine ⟨?_, ?_, ?_⟩
  · intro c' r h
    obtain ⟨hr, hc⟩ := hsound c' r h
    exact ⟨hr, hc, fun j2 => by rw [hc]⟩
  · intro hrr
    by_cases hlen : 0 < c.Nodes.length
    · obtain ⟨p, hp⟩ := scan_total c.Nodes c.rr j.C hlen hrr
      have hp2 := hp
      unfold scan at hp2
      have hpe := scanLoop_no_fit c.Nodes _ j.C hno _ _ _ _ _ hp2
      unfold Cluster.dispatchJob
      rw [if_pos hlen, hp, hpe]
      simp
    · unfold Cluster.dispatchJob
      rw [if_neg hlen]
  · intro hnil
    unfold Cluster.dispatchJob
    rw [if_neg (by rw [hnil]; simp)]

/-- Witness for C16: a job of cost 9 against the example cluster of capacity 8. -/
theorem oversized_never_placed_witness :
    exCluster.dispatchJob ⟨7, 300, 9⟩ = .ok (exCluster, some ⟨7, 300, 9⟩) :=
  (oversized_never_placed exCluster ⟨7, 300, 9⟩ (by decide) (by decide) (by decide)).2.1
    (by decide)

/-! ## Dispatch under ties -/

theorem scanAvail_tied (nodes : List Node) (a : Int) (s q : Nat) (hlen : 0 < nodes.length)
    (h : ∀ n ∈ nodes, n.avail = a) : scanAvail nodes s q = a := by
  have hlt : (s + q) % nodes.length < nodes.length := Nat.mod_lt _ hlen
  unfold scanAvail
  rw [List.getElem?_eq_getElem hlt]
  simp only [Option.map_some', Option.getD_some]
  exact h _ (List.getElem_mem _)

theorem placeOn_of_get (c : Cluster) (w : Nat) (j : Job) (n : Node)
    (h : c.Nodes[w]? = some n) :
    placeOn c w j =
      { c with
        Nodes := c.Nodes.set w { n with Ch := { n.Ch with buf := n.Ch.buf ++ [j] } }
        rr := (((w + 1) % c.Nodes.length : Nat) : Int) } := by
  unfold placeOn
  rw [h]

/-- One dispatch attempt when all nodes tie: the node at the scan origin wins. -/
theorem dispatch_tied (c : Cluster) (j : Job) (a : Int) (r : Nat)
    (hlen : 0 < c.Nodes.length) (htie : c.Tied a)
    (hrr : c.rr = (((r % c.Nodes.length : Nat)) : Int)) (hC : 1 ≤ j.C) (ha : j.C ≤ a) :
    c.dispatchJob j = .ok (placeOn c (r % c.Nodes.length) j, none) := by
  have hav : ∀ n ∈ c.Nodes, n.avail = a := fun n hn => (htie n hn).1
  obtain ⟨b, a', hscan, hinv⟩ := scan_spec c.Nodes (r % c.Nodes.length) j.C hC hlen
  rw [← hrr] at hscan
  rw [Nat.mod_mod] at hinv
  have hlt : r % c.Nodes.length < c.Nodes.length := Nat.mod_lt _ hlen
  have hb : b = ((r % c.Nodes.length : Nat) : Int) := by
    rcases hinv with ⟨_, _, hall⟩ | ⟨p, _, hbp, hap, _, _, hfirst⟩
    · have := hall 0 hlen
      rw [scanAvail_tied c.Nodes a _ _ hlen hav] at this
      omega
    · have hp0 : p = 0 := by
        by_contra hne
        have := hfirst 0 (Nat.pos_of_ne_zero hne)
        rw [hap, scanAvail_tied c.Nodes a _ _ hlen hav,
          scanAvail_tied c.Nodes a _ _ hlen hav] at this
        omega
      rw [hbp, hp0, Nat.add_zero, Nat.mod_mod]
  have hn := nodeAt_natCast c.Nodes _ hlt
  have hget : c.Nodes[r % c.Nodes.length]? = some (c.Nodes.get ⟨_, hlt⟩) := by
    rw [List.getElem?_eq_getElem hlt]
    rfl
  have hopen := (htie _ (List.mem_iff_getElem?.mpr ⟨_, hget⟩)).2
  rw [hb] at hscan
  rw [dispatchJob_of_scan c j _ a' _ hlen hscan (by positivity) hn hopen,
    placeOn_of_get c _ j _ hget]
  simp only [Int.toNat_ofNat]
  congr 2

theorem placeOn_tied (c : Cluster) (w : Nat) (j : Job) (a : Int) (h : c.Tied a) :
    (placeOn c w j).Tied a ∧ (placeOn c w j).Nodes.length = c.Nodes.length := by
  unfold placeOn
  cases hg : c.Nodes[w]? with
  | none => exact ⟨h, rfl⟩
  | some n =>
    simp only
    refine ⟨?_, by simp⟩
    intro m hm
    rcases List.mem_or_eq_of_mem_set hm with hm | rfl
    · exact h m hm
    · exact h n (List.mem_iff_getElem?.mpr ⟨_, hg⟩)

theorem placeOn_rr (c : Cluster) (w : Nat) (j : Job) (hw : w < c.Nodes.length) :
    (placeOn c w j).rr = (((w + 1) % c.Nodes.length : Nat) : Int) := by
  rw [placeOn_of_get c w j _ (List.getElem?_eq_getElem hw)]

theorem dispatchAll_tied (a C : Int) (hC : 1 ≤ C) (ha : C ≤ a) :
    ∀ (jobs : List Job) (c : Cluster) (r : Nat), 0 < c.Nodes.length → c.Tied a →
      c.rr = (((r % c.Nodes.length : Nat)) : Int) → (∀ j ∈ jobs, j.C = C) →
      dispatchAll c jobs = .ok (roundRobin c r jobs, []) := by
  intro jobs
  induction jobs with
  | nil => intro c r _ _ _ _; rfl
  | cons j js ih =>
    intro c r hlen htie hrr hjobs
    have hjC := hjobs j (List.mem_cons_self _ _)
    have hstep := dispatch_tied c j a r hlen htie hrr (by omega) (by omega)
    obtain ⟨htie', hlen'⟩ := placeOn_tied c (r % c.Nodes.length) j a htie
    have hrr' : (placeOn c (r % c.Nodes.length) j).rr =
        ((((r + 1) % (placeOn c (r % c.Nodes.length) j).Nodes.length : Nat)) : Int) := by
      rw [placeOn_rr c _ j (Nat.mod_lt _ hlen), hlen', Nat.mod_add_mod]
    have hrec := ih (placeOn c (r % c.Nodes.length) j) (r + 1) (by omega) htie' hrr'
      (fun j2 hj2 => hjobs j2 (List.mem_cons_of_mem _ hj2))
    unfold dispatchAll
    rw [hstep]
    simp only
    rw [hrec]
    rfl

theorem placeOn_length (c : Cluster) (w : Nat) (j : Job) :
    (placeOn c w j).Nodes.length = c.Nodes.length := by
  unfold placeOn
  cases c.Nodes[w]? with
  | none => rfl
  | some n => simp

/-- Placing a job keeps every mailbox entry that was there. -/
theorem placeOn_buf_mono (c : Cluster) (w : Nat) (j : Job) (i : Nat) (n : Node)
    (h : c.Nodes[i]? = some n) :
    ∃ n1, (placeOn c w j).Nodes[i]? = some n1 ∧ ∀ x ∈ n.Ch.buf, x ∈ n1.Ch.buf := by
  unfold placeOn
  cases hg : c.Nodes[w]? with
  | none => exact ⟨n, h, fun x hx => hx⟩
  | some m =>
    simp only
    by_cases hw : w = i
    · subst hw
      have hlt : w < c.Nodes.length := by
        by_contra hge
        rw [List.getElem?_eq_none (by omega)] at h
        exact absurd h (by simp)
      rw [hg] at h
      simp only [Option.some.injEq] at h
      subst h
      refine ⟨_, List.getElem?_set_self hlt, ?_⟩
      intro x hx
      exact List.mem_append_left _ hx
    · rw [List.getElem?_set_ne hw]
      exact ⟨n, h, fun x hx => hx⟩

/-- Placing a job on a valid index puts it into that node's mailbox. -/
theorem placeOn_buf_mem (c : Cluster) (w : Nat) (j : Job) (hw : w < c.Nodes.length) :
    ∃ n1, (placeOn c w j).Nodes[w]? = some n1 ∧ j ∈ n1.Ch.buf := by
  rw [placeOn_of_get c w j _ (List.getElem?_eq_getElem hw)]
  refine ⟨_, List.getElem?_set_self hw, ?_⟩
  simp

theorem roundRobin_buf_mono : ∀ (jobs : List Job) (c : Cluster) (r i : Nat) (n : Node),
    c.Nodes[i]? = some n →
    ∃ n1, (roundRobin c r jobs).Nodes[i]? = some n1 ∧ ∀ x ∈ n.Ch.buf, x ∈ n1.Ch.buf := by
  intro jobs
  induction jobs with
  | nil => intro c r i n h; exact ⟨n, h, fun x hx => hx⟩
  | cons j js ih =>
    intro c r i n h
    obtain ⟨n1, h1, hm1⟩ := placeOn_buf_mono c (r % c.Nodes.length) j i n h
    obtain ⟨n2, h2, hm2⟩ := ih (placeOn c (r % c.Nodes.length) j) (r + 1) i n1 h1
    exact ⟨n2, h2, fun x hx => hm2 x (hm1 x hx)⟩

/-- In the round-robin placement the job number `m` (counting from `r`) sits in
the mailbox of the node at index `(r + m) mod |Nodes|`. -/
theorem roundRobin_places : ∀ (jobs : List Job) (c : Cluster) (r m : Nat) (j : Job),
    0 < c.Nodes.length → jobs[m]? = some j →
    ∃ n, (roundRobin c r jobs).Nodes[(r + m) % c.Nodes.length]? = some n ∧ j ∈ n.Ch.buf := by
  intro jobs
  induction jobs with
  | nil => intro c r m j _ h; simp at h
  | cons j0 js ih =>
    intro c r m j hlen h
    cases m with
    | zero =>
      simp only [List.getElem?_cons_zero, Option.some.injEq] at h
      subst h
      obtain ⟨n1, h1, hj⟩ := placeOn_buf_mem c (r % c.Nodes.length) j0 (Nat.mod_lt _ hlen)
      obtain ⟨n2, h2, hm2⟩ :=
        roundRobin_buf_mono js (placeOn c (r % c.Nodes.length) j0) (r + 1) _ n1 h1
      exact ⟨n2, h2, hm2 j0 hj⟩
    | succ m =>
      simp only [List.getElem?_cons_succ] at h
      have hl := placeOn_length c (r % c.Nodes.length) j0
      obtain ⟨n, hn, hj⟩ := ih (placeOn c (r % c.Nodes.length) j0) (r + 1) m j
        (by rw [hl]; exact hlen) h
      rw [hl] at hn
      refine ⟨n, ?_, hj⟩
      have : r + (m + 1) = r + 1 + m := by omega
      rw [this]
      exact hn

/-- C13. Round-robin rotation on ties: in a cluster of `k ≥ 1` nodes that all
have the same free capacity `a ≥ C` (unchanged between dispatches) and open
mailboxes, with cursor 0, dispatching jobs of cost `C ≥ 1` one after the other
places every job (none is requeued), the job number `m` in the mailbox of the
node at index `m mod k`, and the resulting cluster is the round-robin placement;
with the three fresh nodes of `main` and six such jobs the mailboxes end as
node 1: jobs 0, 3; node 2: jobs 1, 4; node 3: jobs 2, 5. -/
theorem round_robin_rotation :
    (∀ (c : Cluster) (a C : Int) (jobs : List Job), 1 ≤ c.Nodes.length → c.rr = 0 →
      c.Tied a → 1 ≤ C → C ≤ a → (∀ j ∈ jobs, j.C = C) →
      dispatchAll c jobs = .ok (roundRobin c 0 jobs, []) ∧
      ∃ c', dispatchAll c jobs = .ok (c', []) ∧
        ∀ (m : Nat) (j : Job), jobs[m]? = some j →
          ∃ n, c'.Nodes[m % c.Nodes.length]? = some n ∧ j ∈ n.Ch.buf) ∧
    (∀ (C : Int) (j0 j1 j2 j3 j4 j5 : Job), 1 ≤ C → C ≤ 8 →
      (∀ j ∈ [j0, j1, j2, j3, j4, j5], j.C = C) →
      dispatchAll (NewCluster 3 8 1 50) [j0, j1, j2, j3, j4, j5] =
        .ok ({ NewCluster 3 8 1 50 with
                Nodes := [⟨1, 8, 0, ⟨[j0, j3], false⟩⟩, ⟨2, 8, 0, ⟨[j1, j4], false⟩⟩,
                  ⟨3, 8, 0, ⟨[j2, j5], false⟩⟩]
                rr := 0 }, [])) := by
  have hgen : ∀ (c : Cluster) (a C : Int) (jobs : List Job), 1 ≤ c.Nodes.length → c.rr = 0 →
      c.Tied a → 1 ≤ C → C ≤ a → (∀ j ∈ jobs, j.C = C) →
      dispatchAll c jobs = .ok (roundRobin c 0 jobs, []) := by
    intro c a C jobs hk hrr htie hC ha hjobs
    exact dispatchAll_tied a C hC ha jobs c 0 (by omega) htie (by rw [hrr]; simp) hjobs
  refine ⟨?_, ?_⟩
  · intro c a C jobs hk hrr htie hC ha hjobs
    have hd := hgen c a C jobs hk hrr htie hC ha hjobs
    refine ⟨hd, _, hd, ?_⟩
    intro m j hm
    obtain ⟨n, hn, hj⟩ := roundRobin_places jobs c 0 m j (by omega) hm
    rw [Nat.zero_add] at hn
    exact ⟨n, hn, hj⟩
  · intro C j0 j1 j2 j3 j4 j5 hC h8 hjobs
    have htie : (NewCluster 3 8 1 50).Tied 8 := by
      intro n hn
      simp only [NewCluster, List.mem_map, List.mem_range] at hn
      obtain ⟨i, _, rfl⟩ := hn
      exact ⟨rfl, rfl⟩
    have hlen : (NewCluster 3 8 1 50).Nodes.length = 3 := by
      simp [NewCluster]
    rw [hgen (NewCluster 3 8 1 50) 8 C _ (by omega) rfl htie hC h8 hjobs]
    have hnodes : (NewCluster 3 8 1 50).Nodes =
        [⟨1, 8, 0, ⟨[], false⟩⟩, ⟨2, 8, 0, ⟨[], false⟩⟩, ⟨3, 8, 0, ⟨[], false⟩⟩] := by
      decide
    simp [roundRobin, placeOn, hnodes]

/-- Witness for C13: three idle nodes of capacity 8 and six jobs of cost 2. -/
theorem round_robin_rotation_witness :
    dispatchAll (NewCluster 3 8 1 50)
        [⟨1, 300, 2⟩, ⟨2, 300, 2⟩, ⟨3, 300, 2⟩, ⟨4, 300, 2⟩, ⟨5, 300, 2⟩, ⟨6, 300, 2⟩] =
      .ok ({ NewCluster 3 8 1 50 with
              Nodes := [⟨1, 8, 0, ⟨[⟨1, 300, 2⟩, ⟨4, 300, 2⟩], false⟩⟩,
                ⟨2, 8, 0, ⟨[⟨2, 300, 2⟩, ⟨5, 300, 2⟩], false⟩⟩,
                ⟨3, 8, 0, ⟨[⟨3, 300, 2⟩, ⟨6, 300, 2⟩], false⟩⟩]
              rr := 0 }, []) :=
  round_robin_rotation.2 2 _ _ _ _ _ _ (by decide) (by decide) (by decide)

/-! ## Node identifiers -/

theorem idInv_addNode (c : Cluster) (h : c.IdInv) : c.addNode.IdInv := by
  by_cases hlt : (c.Nodes.length : Int) < c.max
  · rw [addNode_of_lt c hlt]
    intro i n hi
    simp only at hi
    by_cases hil : i < c.Nodes.length
    · rw [List.getElem?_append_left hil] at hi
      exact h i n hi
    · rw [List.getElem?_append_right (by omega)] at hi
      have hi0 : i - c.Nodes.length = 0 := by
        by_contra hne
        rw [List.getElem?_eq_none (by simp; omega)] at hi
        exact absurd hi (by simp)
      rw [hi0] at hi
      simp only [List.getElem?_cons_zero, Option.some.injEq] at hi
      rw [← hi]
      have : i = c.Nodes.length := by omega
      rw [this]
      exact ⟨rfl, rfl⟩
  · rw [addNode_of_ge c (by omega)]
    exact h

theorem idInv_addNodes (k : Nat) : ∀ c : Cluster, c.IdInv → (addNodes k c).IdInv := by
  induction k with
  | zero => intro c h; exact h
  | succ k ih => intro c h; exact ih c.addNode (idInv_addNode c h)

theorem idInv_removeNode (c c' : Cluster) (d : Option Node) (h : c.IdInv)
    (hr : c.removeNode = .ok (c', d)) : c'.IdInv := by
  rcases removeNode_ok c c' d hr with ⟨rfl, _, _⟩ | ⟨pre, n, hn, rfl, _, _⟩
  · exact h
  · intro i m hi
    simp only at hi
    have hil : i < pre.length := by
      by_contra hge
      rw [List.getElem?_eq_none (by omega)] at hi
      exact absurd hi (by simp)
    have := h i m (by rw [hn, List.getElem?_append_left hil]; exact hi)
    exact this

theorem idInv_dispatchJob (c c' : Cluster) (j : Job) (r : Option Job) (h : c.IdInv)
    (hd : c.dispatchJob j = .ok (c', r)) : c'.IdInv := by
  rcases dispatchJob_trace c c' j r hd with
    ⟨rfl, _, _⟩ | ⟨best, a, n, _, _, hb, hn, _, rfl, _⟩
  · exact h
  · obtain ⟨w, rfl⟩ := Int.eq_ofNat_of_zero_le hb
    intro i m hi
    simp only [Int.toNat_ofNat] at hi
    by_cases hw : w = i
    · subst hw
      have hlt : w < c.Nodes.length := by
        by_contra hge
        rw [List.getElem?_eq_none (by simp; omega)] at hi
        exact absurd hi (by simp)
      rw [List.getElem?_set_self hlt] at hi
      simp only [Option.some.injEq] at hi
      rw [nodeAt_natCast c.Nodes w hlt] at hn
      have hnn : c.Nodes.get ⟨w, hlt⟩ = n := Except.ok.inj hn
      have := h w n (by rw [List.getElem?_eq_getElem hlt]; congr 1)
      rw [← hi]
      exact this
    · rw [List.getElem?_set_ne hw] at hi
      exact h i m hi

theorem idInv_Step (ctl ctl' : Controller) (t0 t1 : Int) (d : Option Node)
    (hc : ctl.cluster.IdInv) (h : ctl.Step t0 t1 = .ok (ctl', d)) : ctl'.cluster.IdInv := by
  rcases Step_cases ctl t0 t1 with ⟨_, hs⟩ | ⟨_, _, hs⟩ | ⟨_, _, _, hs⟩ | ⟨_, _, _, hs⟩
  · rw [hs] at h
    simp only [Except.ok.injEq, Prod.mk.injEq] at h
    rw [← h.1]; exact hc
  · rw [hs] at h
    simp only [Except.ok.injEq, Prod.mk.injEq] at h
    rw [← h.1]
    exact idInv_addNodes _ _ hc
  · rw [hs] at h
    cases hr : ctl.cluster.removeNode with
    | error e => rw [hr] at h; exact absurd h (by simp)
    | ok p =>
      obtain ⟨c2, d2⟩ := p
      rw [hr] at h
      simp only [Except.ok.injEq, Prod.mk.injEq] at h
      rw [← h.1]
      exact idInv_removeNode ctl.cluster c2 d2 hc hr
  · rw [hs] at h
    simp only [Except.ok.injEq, Prod.mk.injEq] at h
    rw [← h.1]; exact hc

/-- C20. Live node identifiers are `1 .. |Nodes|` in sequence order: `NewCluster`
establishes, and `addNode`, `removeNode`, `Controller.Step` and dispatch
preserve, that the node at index `i` has `ID = i + 1` and `Cap = cap`; hence the
identifiers of the current nodes are pairwise distinct; and an `addNode` that
follows a `removeNode` creates a node with the identifier of the removed one. -/
theorem node_ids_sequential :
    (∀ initN cap minN maxN : Int, (NewCluster initN cap minN maxN).IdInv) ∧
    (∀ c : Cluster, c.IdInv → c.addNode.IdInv) ∧
    (∀ (c c' : Cluster) (d : Option Node), c.IdInv → c.removeNode = .ok (c', d) →
      c'.IdInv) ∧
    (∀ (ctl ctl' : Controller) (t0 t1 : Int) (d : Option Node), ctl.cluster.IdInv →
      ctl.Step t0 t1 = .ok (ctl', d) → ctl'.cluster.IdInv) ∧
    (∀ (c c' : Cluster) (j : Job) (r : Option Job), c.IdInv →
      c.dispatchJob j = .ok (c', r) → c'.IdInv) ∧
    (∀ c : Cluster, c.IdInv → ∀ (i k : Nat) (n m : Node),
      c.Nodes[i]? = some n → c.Nodes[k]? = some m → n.ID = m.ID → i = k) ∧
    (∀ (c c' : Cluster) (d : Node), c.IdInv → c.removeNode = .ok (c', some d) →
      (c'.Nodes.length : Int) < c'.max →
      c'.addNode.Nodes = c'.Nodes ++ [NewNode d.ID c.cap] ∧
      d.ID = (c'.Nodes.length : Int) + 1) := by
  refine ⟨?_, idInv_addNode, idInv_removeNode, idInv_Step, idInv_dispatchJob, ?_, ?_⟩
  · intro initN cap minN maxN i n hi
    simp only [NewCluster, List.getElem?_map, Option.map_eq_some'] at hi
    obtain ⟨k, hk, rfl⟩ := hi
    have hki : k = i := by
      have hlt : i < (List.range initN.toNat).length := by
        by_contra hge
        rw [List.getElem?_eq_none (by omega)] at hk
        exact absurd hk (by simp)
      rw [List.getElem?_eq_getElem hlt, List.getElem_range] at hk
      exact (Option.some.inj hk).symm
    rw [hki]
    exact ⟨rfl, rfl⟩
  · intro c h i k n m hi hk hid
    have h1 := (h i n hi).1
    have h2 := (h k m hk).1
    omega
  · intro c c' d h hr hlt
    rcases removeNode_ok c c' (some d) hr with ⟨_, hd, _⟩ | ⟨pre, n, hn, rfl, hd, _⟩
    · exact absurd hd (by simp)
    · simp only [Option.some.injEq] at hd
      have hid := h pre.length n (by rw [hn]; simp)
      have hdid : d.ID = n.ID := by rw [hd]
      simp only at hlt ⊢
      rw [addNode_of_lt _ hlt]
      simp only
      rw [hdid, hid.1]
      exact ⟨rfl, rfl⟩

/-- Witness for C20: the cluster of `main` loses node 3 and the next `addNode`
creates a node 3 again. -/
theorem node_ids_sequential_witness :
    (NewCluster 3 8 1 50).IdInv ∧
    (NewCluster 3 8 1 50).removeNode =
      .ok ({ NewCluster 3 8 1 50 with Nodes := [NewNode 1 8, NewNode 2 8] },
        some ⟨3, 8, 0, ⟨[], true⟩⟩) ∧
    ({ NewCluster 3 8 1 50 with Nodes := [NewNode 1 8, NewNode 2 8] } : Cluster).addNode.Nodes =
      [NewNode 1 8, NewNode 2 8] ++ [NewNode 3 8] :=
  ⟨node_ids_sequential.1 3 8 1 50, by rfl,
    (node_ids_sequential.2.2.2.2.2.2 (NewCluster 3 8 1 50) _ ⟨3, 8, 0, ⟨[], true⟩⟩
      (node_ids_sequential.1 3 8 1 50) (by rfl) (by decide)).1⟩

/-! ## Idle and lightly loaded clusters -/

theorem totalLoad_zero (c : Cluster) (h : ∀ n ∈ c.Nodes, n.Used = 0) : c.totalLoad = 0 := by
  unfold Cluster.totalLoad
  generalize c.Nodes = l at h
  induction l with
  | nil => rfl
  | cons n l ih =>
    simp only [List.map_cons, List.sum_cons]
    rw [h n (List.mem_cons_self _ _), ih (fun m hm => h m (List.mem_cons_of_mem _ hm))]
    rfl

theorem needOf_nonpos (f : ℚ) (n : Nat) (h : f ≤ (n : ℚ) * 1.5) : needOf f n ≤ 0 := by
  unfold needOf
  rw [Int.ceil_le]
  have h0 : (f - (n : ℚ) * 1.5) ≤ 0 := by linarith
  simp only [Int.cast_zero]
  exact div_nonpos_of_nonpos_of_nonneg h0 (by norm_num)

theorem idle_lat (ctl : Controller) (h : ctl.Idle) :
    (ctl.cluster.Nodes ≠ [] → ctl.cluster.estimateLat = 100) ∧
    ctl.cluster.estimateLat ≤ 100 := by
  by_cases hne : ctl.cluster.Nodes = []
  · refine ⟨fun hn => absurd hne hn, ?_⟩
    unfold Cluster.estimateLat
    rw [hne]
    norm_num
  · have : ctl.cluster.estimateLat = 100 := by
      rw [estimateLat_nonempty _ hne, utilSum_zero _ (fun m hm => (h.1 m hm).1)]
      simp
    exact ⟨fun _ => this, le_of_eq this⟩

theorem idle_need (ctl : Controller) (h : ctl.Idle) :
    needOf ctl.pred.Forecast.1 ctl.cluster.Nodes.length ≤ 0 := by
  apply needOf_nonpos
  have h0 : ctl.pred.Forecast.1 = 0 := h.2.1
  rw [h0]
  exact mul_nonneg (Nat.cast_nonneg _) (by norm_num)

/-- An idle controller at or below its floor does nothing, whatever the clock. -/
theorem Step_idle_floor (ctl : Controller) (h : ctl.Idle)
    (hle : (ctl.cluster.Nodes.length : Int) ≤ ctl.cluster.min) (t0 t1 : Int) :
    ctl.Step t0 t1 = .ok (ctl, none) := by
  have hlat := (idle_lat ctl h).2
  have hneed := idle_need ctl h
  have ht : ctl.target = 200 := h.2.2
  rcases Step_cases ctl t0 t1 with ⟨_, hs⟩ | ⟨_, ho, _⟩ | ⟨_, _, hin, _⟩ | ⟨_, _, _, hs⟩
  · exact hs
  · rcases ho with ho | ho
    · rw [ht] at ho
      linarith
    · omega
  · omega
  · exact hs

/-- An idle controller above its floor removes its last node once the cooldown
has elapsed, and stays idle. -/
theorem Step_idle_shrink (ctl : Controller) (h : ctl.Idle) (t0 t1 : Int)
    (hc : ctl.cool ≤ t0 - ctl.last)
    (hgt : ctl.cluster.min < (ctl.cluster.Nodes.length : Int))
    (hmin : 0 ≤ ctl.cluster.min)
    (hopen : ∀ n ∈ ctl.cluster.Nodes, n.Ch.closed = false) :
    ∃ pre n, ctl.cluster.Nodes = pre ++ [n] ∧
      ctl.Step t0 t1 =
        .ok ({ ctl with cluster := { ctl.cluster with Nodes := pre }, last := t1 },
          some { n with Ch := { n.Ch with closed := true } }) ∧
      ({ ctl with cluster := { ctl.cluster with Nodes := pre }, last := t1 } : Controller).Idle := by
  have hlat := (idle_lat ctl h).2
  have hneed := idle_need ctl h
  have ht : ctl.target = 200 := h.2.2
  obtain ⟨pre, n, hn, hs⟩ := Step_in ctl t0 t1 hc (by rw [ht]; linarith) hneed
    (by rw [ht]; norm_num; linarith) hgt hmin hopen
  refine ⟨pre, n, hn, hs, ?_, h.2.1, h.2.2⟩
  intro m hm
  exact h.1 m (by rw [hn]; exact List.mem_append_left _ hm)

/-- C18. An idle cluster shrinks one node per cooldown: when every node has
`Used = 0`, the forecast is 0 and the target is 200, then `totalLoad() = 0` and
`estimateLat() = 100` on a non-empty cluster, and every `Step` whose cooldown has
elapsed removes exactly the last node while `|Nodes| > min` (floor non-negative,
member mailboxes open) and does nothing once `|Nodes| ≤ min`; from the cluster
of `main` (`initN = 3`, `min = 1`) two such steps leave one node and every later
step keeps it there. -/
theorem idle_shrinks :
    (∀ (ctl : Controller) (t0 t1 : Int), ctl.Idle → ctl.cool ≤ t0 - ctl.last →
      (ctl.cluster.totalLoad = 0 ∧
        (ctl.cluster.Nodes ≠ [] → ctl.cluster.estimateLat = 100)) ∧
      (ctl.cluster.min < (ctl.cluster.Nodes.length : Int) → 0 ≤ ctl.cluster.min →
        (∀ n ∈ ctl.cluster.Nodes, n.Ch.closed = false) →
        ∃ pre n, ctl.cluster.Nodes = pre ++ [n] ∧
          ctl.Step t0 t1 =
            .ok ({ ctl with cluster := { ctl.cluster with Nodes := pre }, last := t1 },
              some { n with Ch := { n.Ch with closed := true } }) ∧
          ({ ctl with cluster := { ctl.cluster with Nodes := pre }, last := t1 }
            : Controller).Idle) ∧
      ((ctl.cluster.Nodes.length : Int) ≤ ctl.cluster.min →
        ctl.Step t0 t1 = .ok (ctl, none))) ∧
    (∀ (a : ℚ) (t0 t1 t2 t3 : Int),
      1500 * 1000000 ≤ t0 → 1500 * 1000000 ≤ t2 - t1 →
      ∃ ctl1 d1 ctl2 d2,
        (NewController (NewCluster 3 8 1 50) (NewPredictor a)).Step t0 t1 = .ok (ctl1, d1) ∧
        ctl1.cluster.Nodes = [NewNode 1 8, NewNode 2 8] ∧
        ctl1.Step t2 t3 = .ok (ctl2, d2) ∧
        ctl2.cluster.Nodes = [NewNode 1 8] ∧
        ∀ t4 t5 : Int, ctl2.Step t4 t5 = .ok (ctl2, none)) := by
  constructor
  · intro ctl t0 t1 h hc
    refine ⟨⟨totalLoad_zero _ (fun n hn => (h.1 n hn).1), (idle_lat ctl h).1⟩, ?_, ?_⟩
    · intro hgt hmin hopen
      exact Step_idle_shrink ctl h t0 t1 hc hgt hmin hopen
    · intro hle
      exact Step_idle_floor ctl h hle t0 t1
  · intro a t0 t1 t2 t3 h0 h2
    have hnodes : (NewCluster 3 8 1 50).Nodes = [NewNode 1 8, NewNode 2 8] ++ [NewNode 3 8] := by
      decide
    have hidle : (NewController (NewCluster 3 8 1 50) (NewPredictor a)).Idle := by
      refine ⟨?_, rfl, rfl⟩
      intro n hn
      simp only [NewController, NewCluster, List.mem_map] at hn
      obtain ⟨i, _, rfl⟩ := hn
      exact ⟨rfl, by norm_num [NewNode]⟩
    have hopen : ∀ n ∈ (NewController (NewCluster 3 8 1 50) (NewPredictor a)).cluster.Nodes,
        n.Ch.closed = false := by
      intro n hn
      simp only [NewController, NewCluster, List.mem_map] at hn
      obtain ⟨i, _, rfl⟩ := hn
      rfl
    obtain ⟨pre, n, hn, hs, hidle1⟩ := Step_idle_shrink _ hidle t0 t1
      (by simp only [NewController]; omega) (by norm_num [NewController, NewCluster])
      (by norm_num [NewController, NewCluster]) hopen
    have hnodes' : (NewController (NewCluster 3 8 1 50) (NewPredictor a)).cluster.Nodes =
        [NewNode 1 8, NewNode 2 8] ++ [NewNode 3 8] := hnodes
    have hpre : pre = [NewNode 1 8, NewNode 2 8] := by
      rw [hnodes'] at hn
      exact (List.append_inj' hn rfl).1.symm
    subst hpre
    obtain ⟨pre2, n2, hn2, hs2, hidle2⟩ := Step_idle_shrink _ hidle1 t2 t3
      (by simp only [NewController]; omega) (by norm_num [NewController, NewCluster])
      (by norm_num [NewController, NewCluster])
      (fun m hm => hopen m (by rw [hnodes']; exact List.mem_append_left _ hm))
    have hpre2 : pre2 = [NewNode 1 8] := by
      have : [NewNode 1 8, NewNode 2 8] = [NewNode 1 8] ++ [NewNode 2 8] := rfl
      simp only at hn2
      rw [this] at hn2
      exact (List.append_inj' hn2 rfl).1.symm
    subst hpre2
    refine ⟨_, _, _, _, hs, rfl, hs2, rfl, ?_⟩
    intro t4 t5
    exact Step_idle_floor _ hidle2 (by norm_num [NewController, NewCluster]) t4 t5

/-- Witness for C18: the idle controller of `main` at 2.0 s and 4.0 s. -/
theorem idle_shrinks_witness :
    ∃ ctl1 d1 ctl2 d2,
      exIdle.Step 2000000000 2000000001 = .ok (ctl1, d1) ∧
      ctl1.cluster.Nodes = [NewNode 1 8, NewNode 2 8] ∧
      ctl1.Step 4000000000 4000000001 = .ok (ctl2, d2) ∧
      ctl2.cluster.Nodes = [NewNode 1 8] ∧
      ∀ t4 t5 : Int, ctl2.Step t4 t5 = .ok (ctl2, none) :=
  idle_shrinks.2 0.6 2000000000 2000000001 4000000000 4000000001 (by decide) (by decide)

theorem utilSum_cap8 (l : List Node) (h : ∀ n ∈ l, n.Cap = 8) :
    utilSum l = (((l.map (fun n => n.Used)).sum : Int) : ℚ) / 8 := by
  induction l with
  | nil => simp [utilSum]
  | cons n l ih =>
    rw [utilSum_cons, ih (fun m hm => h m (List.mem_cons_of_mem _ hm)),
      h n (List.mem_cons_self _ _)]
    simp only [List.map_cons, List.sum_cons, Int.cast_add]
    push_cast
    ring

theorem used_sum_bounds (l : List Node) (h : ∀ n ∈ l, n.Used = 0 ∨ n.Used = 1) :
    0 ≤ (l.map (fun n => n.Used)).sum ∧ (l.map (fun n => n.Used)).sum ≤ (l.length : Int) := by
  induction l with
  | nil => simp
  | cons n l ih =>
    have := ih (fun m hm => h m (List.mem_cons_of_mem _ hm))
    have hn := h n (List.mem_cons_self _ _)
    simp only [List.map_cons, List.sum_cons, List.length_cons, Nat.cast_add, Nat.cast_one]
    omega

/-- Under light load the estimate is `100 + 12.5 * totalLoad`, the load is
between 0 and 3 and `need ≤ 0`. -/
theorem lightLoad_facts (ctl : Controller) (h : ctl.LightLoad) :
    ctl.cluster.estimateLat = 100 + (25 / 2) * (ctl.cluster.totalLoad : ℚ) ∧
    0 ≤ ctl.cluster.totalLoad ∧ ctl.cluster.totalLoad ≤ 3 ∧
    needOf ctl.pred.Forecast.1 ctl.cluster.Nodes.length ≤ 0 := by
  obtain ⟨hlen, hnodes, _, _, _, hf3, _⟩ := h
  have hne : ctl.cluster.Nodes ≠ [] := by
    intro h0
    rw [h0] at hlen
    simp at hlen
  have hb := used_sum_bounds ctl.cluster.Nodes (fun n hn => (hnodes n hn).2)
  rw [hlen] at hb
  refine ⟨?_, hb.1, by exact_mod_cast hb.2, ?_⟩
  · rw [estimateLat_nonempty _ hne, utilSum_cap8 _ (fun n hn => (hnodes n hn).1), hlen]
    unfold Cluster.totalLoad
    push_cast
    ring
  · apply needOf_nonpos
    rw [hlen]
    have : ctl.pred.Forecast.1 = ctl.pred.ema := rfl
    rw [this]
    norm_num
    linarith

/-- C17, claim as stated, refuted: the idle controller of `main` is a
steady-light-load state (three nodes of capacity 8, every `Used` 0, forecast 0,
`min = 1`, `max = 50`), and its `Step` at 2.0 s removes a node. -/
theorem light_load_counterexample :
    ¬ ∀ (ctl ctl' : Controller) (t0 t1 : Int) (d : Option Node), ctl.LightLoad →
      ctl.Step t0 t1 = .ok (ctl', d) → ctl'.cluster.Nodes.length = 3 := by
  intro hall
  have hl : exIdle.LightLoad := by
    refine ⟨by decide, ?_, rfl, rfl, le_refl _, by norm_num [exIdle, NewController, NewPredictor],
      rfl⟩
    intro n hn
    simp only [exIdle, NewController, NewCluster, List.mem_map] at hn
    obtain ⟨i, _, rfl⟩ := hn
    exact ⟨rfl, Or.inl rfl⟩
  have := hall exIdle _ 2000000000 2000000001 _ hl exIdle_step
  simp at this

/-- C17, amended. Under steady light load no `Step` scales out and the cluster
never grows: a returning `Step` leaves two or three nodes; it changes nothing
while the cooldown runs, and nothing when at least two units are in use; when
the cooldown has elapsed and at most one unit is in use (`estimateLat < 120`) it
removes exactly the last node. -/
theorem light_load_steps (ctl : Controller) (t0 t1 : Int) (h : ctl.LightLoad) :
    (∀ (ctl' : Controller) (d : Option Node), ctl.Step t0 t1 = .ok (ctl', d) →
      ctl'.cluster.Nodes.length = 3 ∨ ctl'.cluster.Nodes.length = 2) ∧
    (t0 - ctl.last < ctl.cool → ctl.Step t0 t1 = .ok (ctl, none)) ∧
    (2 ≤ ctl.cluster.totalLoad → ctl.Step t0 t1 = .ok (ctl, none)) ∧
    (ctl.cool ≤ t0 - ctl.last → ctl.cluster.totalLoad ≤ 1 →
      (∀ n ∈ ctl.cluster.Nodes, n.Ch.closed = false) →
      ∃ pre n, ctl.cluster.Nodes = pre ++ [n] ∧ pre.length = 2 ∧
        ctl.Step t0 t1 =
          .ok ({ ctl with cluster := { ctl.cluster with Nodes := pre }, last := t1 },
            some { n with Ch := { n.Ch with closed := true } })) := by
  obtain ⟨hlat, hs0, hs3, hneed⟩ := lightLoad_facts ctl h
  obtain ⟨hlen, _, hmin, _, _, _, ht⟩ := h
  have hS0 : (0 : ℚ) ≤ (ctl.cluster.totalLoad : ℚ) := by exact_mod_cast hs0
  have hS3 : (ctl.cluster.totalLoad : ℚ) ≤ 3 := by exact_mod_cast hs3
  have hnout : ¬ (ctl.cluster.estimateLat > ctl.target ∨
      needOf ctl.pred.Forecast.1 ctl.cluster.Nodes.length > 0) := by
    rintro (ho | ho)
    · rw [hlat, ht] at ho
      linarith
    · omega
  refine ⟨?_, ?_, ?_, ?_⟩
  · intro ctl' d hst
    rcases Step_cases ctl t0 t1 with ⟨_, hs⟩ | ⟨_, ho, _⟩ | ⟨_, _, _, hs⟩ | ⟨_, _, _, hs⟩
    · rw [hs] at hst
      simp only [Except.ok.injEq, Prod.mk.injEq] at hst
      rw [← hst.1]; exact Or.inl hlen
    · exact absurd ho hnout
    · rw [hs] at hst
      cases hr : ctl.cluster.removeNode with
      | error e => rw [hr] at hst; exact absurd hst (by simp)
      | ok p =>
        obtain ⟨c2, d2⟩ := p
        rw [hr] at hst
        simp only [Except.ok.injEq, Prod.mk.injEq] at hst
        rw [← hst.1]
        rcases removeNode_ok ctl.cluster c2 d2 hr with ⟨rfl, _, _⟩ | ⟨pre, n, hn, rfl, _, _⟩
        · exact Or.inl hlen
        · right
          simp only
          rw [hn] at hlen
          simp only [List.length_append, List.length_cons, List.length_nil] at hlen
          omega
    · rw [hs] at hst
      simp only [Except.ok.injEq, Prod.mk.injEq] at hst
      rw [← hst.1]; exact Or.inl hlen
  · intro hc
    unfold Controller.Step
    rw [if_pos hc]
  · intro h2
    have hS2 : (2 : ℚ) ≤ (ctl.cluster.totalLoad : ℚ) := by exact_mod_cast h2
    rcases Step_cases ctl t0 t1 with ⟨_, hs⟩ | ⟨_, ho, _⟩ | ⟨_, _, hin, _⟩ | ⟨_, _, _, hs⟩
    · exact hs
    · exact absurd ho hnout
    · have := hin.1
      rw [hlat, ht] at this
      norm_num at this
      linarith
    · exact hs
  · intro hc h1 hopen
    have hS1 : (ctl.cluster.totalLoad : ℚ) ≤ 1 := by exact_mod_cast h1
    obtain ⟨pre, n, hn, hs⟩ := Step_in ctl t0 t1 hc
      (by rw [hlat, ht]; linarith) hneed
      (by rw [hlat, ht]; norm_num; linarith)
      (by rw [hmin, hlen]; decide) (by rw [hmin]; decide) hopen
    refine ⟨pre, n, hn, ?_, hs⟩
    rw [hn] at hlen
    simp only [List.length_append, List.length_cons, List.length_nil] at hlen
    omega

/-- Witness for C17, amended: with two of the three nodes using one unit
(`estimateLat = 125`) a `Step` after the cooldown changes nothing. -/
theorem light_load_steps_witness :
    (NewController
        { exCluster with Nodes := [⟨1, 8, 1, Chan.make⟩, ⟨2, 8, 1, Chan.make⟩,
            ⟨3, 8, 0, Chan.make⟩] }
        (NewPredictor 0.6)).Step 2000000000 2000000001 =
      .ok (NewController
        { exCluster with Nodes := [⟨1, 8, 1, Chan.make⟩, ⟨2, 8, 1, Chan.make⟩,
            ⟨3, 8, 0, Chan.make⟩] }
        (NewPredictor 0.6), none) :=
  (light_load_steps _ 2000000000 2000000001
    ⟨by decide, by decide, rfl, rfl, le_refl _, by norm_num [NewController, NewPredictor],
      rfl⟩).2.2.1 (by decide)

/-! ## Construction and shutdown -/

/-- C15, claim as stated, refuted: for `min = 5 > max = 1` the specification's
constructor reports `minAboveMax`, while the source's `NewCluster` returns a
three-node cluster that accepts a job; `NewCluster` with `cap = 0` and with
`initN = 7` outside `[1, 5]`, and `NewPredictor(2)`, return objects as well. -/
theorem config_errors_counterexample :
    specNewCluster 3 8 5 1 = .error .minAboveMax ∧
    (NewCluster 3 8 5 1).Nodes.length = 3 ∧
    (NewCluster 3 8 5 1).min = 5 ∧ (NewCluster 3 8 5 1).max = 1 ∧
    (∃ c', (NewCluster 3 8 5 1).dispatchJob ⟨1, 300, 1⟩ = .ok (c', none)) ∧
    specNewCluster 3 0 1 50 = .error .capNotPositive ∧
    (NewCluster 3 0 1 50).Nodes.length = 3 ∧
    specNewCluster 7 8 1 5 = .error .initNOutOfRange ∧
    (NewCluster 7 8 1 5).Nodes.length = 7 ∧
    specNewPredictor 2 = .error .alphaOutOfRange ∧
    ((NewPredictor 2).Observe 10).Forecast.1 = 10 := by
  refine ⟨by rfl, by rfl, rfl, rfl, ⟨_, by rfl⟩, by rfl, by rfl, by rfl, by rfl, ?_, ?_⟩
  · unfold specNewPredictor
    rw [if_pos (by norm_num)]
  · norm_num [NewPredictor, Predictor.Observe, Predictor.Forecast]

/-- C15, amended. `NewCluster` and `NewPredictor` do not validate: for every
argument they return an object that stores `min`, `max`, `cap` and `alpha` as
given, with `max(initN, 0)` nodes and cursor 0; on a valid configuration
(`min ≤ max`, `cap > 0`, `min ≤ initN ≤ max`, `0 < alpha < 1`) this is the
object the specification's validating constructor returns. -/
theorem constructors_unvalidated :
    (∀ initN cap minN maxN : Int,
      (NewCluster initN cap minN maxN).min = minN ∧
      (NewCluster initN cap minN maxN).max = maxN ∧
      (NewCluster initN cap minN maxN).cap = cap ∧
      (NewCluster initN cap minN maxN).rr = 0 ∧
      (NewCluster initN cap minN maxN).Nodes.length = initN.toNat ∧
      ∀ n ∈ (NewCluster initN cap minN maxN).Nodes, n.Cap = cap ∧ n.Used = 0) ∧
    (∀ a : ℚ, (NewPredictor a).alpha = a ∧ (NewPredictor a).init = false) ∧
    (∀ initN cap minN maxN : Int, minN ≤ maxN → 0 < cap → minN ≤ initN → initN ≤ maxN →
      specNewCluster initN cap minN maxN = .ok (NewCluster initN cap minN maxN)) ∧
    (∀ a : ℚ, 0 < a → a < 1 → specNewPredictor a = .ok (NewPredictor a)) := by
  refine ⟨?_, fun a => ⟨rfl, rfl⟩, ?_, ?_⟩
  · intro initN cap minN maxN
    refine ⟨rfl, rfl, rfl, rfl, by simp [NewCluster], ?_⟩
    intro n hn
    simp only [NewCluster, List.mem_map] at hn
    obtain ⟨i, _, rfl⟩ := hn
    exact ⟨rfl, rfl⟩
  · intro initN cap minN maxN h1 h2 h3 h4
    unfold specNewCluster
    rw [if_neg (by omega), if_neg (by omega), if_neg (by omega)]
  · intro a h0 h1
    unfold specNewPredictor
    rw [if_neg (by push_neg; exact ⟨h0, h1⟩)]

/-- Witness for C15, amended: the configuration of `main`. -/
theorem constructors_unvalidated_witness :
    specNewCluster 3 8 1 50 = .ok (NewCluster 3 8 1 50) ∧
    specNewPredictor 0.6 = .ok (NewPredictor 0.6) :=
  ⟨constructors_unvalidated.2.2.1 3 8 1 50 (by decide) (by decide) (by decide) (by decide),
    constructors_unvalidated.2.2.2 0.6 (by norm_num) (by norm_num)⟩

/-- C19, claim as stated, refuted: after `close(cluster.Q)` the dispatch attempt
for an unplaceable job (cost 9 against capacity 8) hands the job to the requeue
goroutine, whose send faults on the closed queue instead of dropping the job as
the guarded requeue of the specification would. -/
theorem requeue_closed_counterexample :
    exClosed.Q.closed = true ∧
    exClosed.dispatchJob ⟨7, 300, 9⟩ = .ok (exClosed, some ⟨7, 300, 9⟩) ∧
    exClosed.requeueSend ⟨7, 300, 9⟩ = .error .sendOnClosed ∧
    exClosed.dispatchStep ⟨7, 300, 9⟩ = .error .sendOnClosed ∧
    specRequeue exClosed ⟨7, 300, 9⟩ = exClosed := by
  refine ⟨rfl, by rfl, by rfl, by rfl, by rfl⟩

/-- C19, amended. While the ingress queue is open, the requeue of an unplaceable
job appends the job to the queue, exactly as the guarded requeue of the
specification does, and in a cluster with a non-negative cursor and open member
mailboxes no dispatch step for a job of cost at least 1 faults: it either places
the job or re-enqueues it. -/
theorem requeue_open_queue (c : Cluster) (hq : c.Q.closed = false) :
    (∀ jj : Job,
      c.requeueSend jj = .ok { c with Q := { c.Q with buf := c.Q.buf ++ [jj] } } ∧
      c.requeueSend jj = .ok (specRequeue c jj)) ∧
    (∀ j : Job, 1 ≤ j.C → 0 ≤ c.rr → (∀ n ∈ c.Nodes, n.Ch.closed = false) →
      (∃ c1, c.dispatchJob j = .ok (c1, none) ∧ c.dispatchStep j = .ok c1) ∨
      (c.dispatchJob j = .ok (c, some j) ∧
        c.dispatchStep j = .ok { c with Q := { c.Q with buf := c.Q.buf ++ [j] } })) := by
  have hreq : ∀ jj : Job,
      c.requeueSend jj = .ok { c with Q := { c.Q with buf := c.Q.buf ++ [jj] } } := by
    intro jj
    simp [Cluster.requeueSend, Chan.send, hq]
  refine ⟨fun jj => ⟨hreq jj, ?_⟩, ?_⟩
  · rw [hreq jj]
    simp [specRequeue, hq]
  · intro j hC hrr hopen
    obtain ⟨c1, r, hd⟩ := dispatchJob_total c j hC hrr hopen
    rcases dispatchJob_sound c c1 j r hC hd with ⟨_, hr, _⟩ | ⟨_, hr, hc⟩
    · left
      subst hr
      refine ⟨c1, hd, ?_⟩
      unfold Cluster.dispatchStep
      rw [hd]
    · right
      subst hr hc
      refine ⟨hd, ?_⟩
      unfold Cluster.dispatchStep
      rw [hd]
      exact hreq j

/-- Witness for C19, amended: with the queue open the oversized job is put back
on the queue. -/
theorem requeue_open_queue_witness :
    exCluster.dispatchStep ⟨7, 300, 9⟩ =
      .ok { exCluster with Q := ⟨[⟨7, 300, 9⟩], false⟩ } ∧
    exCluster.requeueSend ⟨7, 300, 9⟩ = .ok (specRequeue exCluster ⟨7, 300, 9⟩) :=
  ⟨by rfl, ((requeue_open_queue exCluster (by rfl)).1 ⟨7, 300, 9⟩).2⟩

end AdaptiveScaling
